import Mathlib

/-!
# Camlistore blob + schema engine: file reader, file writers, local-disk enumeration

A shallow embedding of `lib/go/camli/schema` (`filereader.go`, `filewriter.go`,
`schema.go`) and of `lib/go/camli/blobserver/localdisk/enumerate.go`.

Conventions of the embedding

* A byte is a natural number; a blob is a `List Byte`.
* `uint64` values are naturals, `int64`/`int` values are integers; every Go
  operation that can wrap is written with `u64` / `i64`.
* A `*blobref.BlobRef` is an `Option BlobRef`; `none` is the nil pointer.
* Go compares `*BlobRef` and `*ContentPart` by address.  A schema is decoded from
  JSON, which allocates every content part and every non-nil blob reference
  afresh, so the address of part `i` (and of its `BlobRef`) is modelled by the
  index `i`.
* Errors made with `fmt.Errorf` are constructors of `Error`; a Go panic (nil
  dereference, index out of range) is an explicit outcome.
-/

namespace blobref

/-- A byte of blob content. -/
abbrev Byte := Nat

/-- A blob reference `hashName-digest` (`type BlobRef struct`, known here from
`blobref_test.go`: the fields `hashName` and `digest`). -/
structure BlobRef where
  hashName : String
  digest : String
deriving DecidableEq, Repr

/-- What `SeekFetcher.Fetch` finds for a reference: the blob's bytes, or nothing
(`os.ENOENT`). -/
abbrev SeekFetcher := BlobRef → Option (List Byte)

end blobref

namespace schema

open blobref

/-- Conversion to `uint64`. -/
@[irreducible] def u64 (x : Int) : Nat := (x % 18446744073709551616).toNat

/-- Conversion to `int64`. -/
@[irreducible] def i64 (x : Int) : Int :=
  (9223372036854775808 + x) % 18446744073709551616 - 9223372036854775808

/-- The errors of the schema package that the reader and the writers return. -/
inductive Error where
  | EOF
  | errClosed
  | declaredLarger      -- "declared file schema size was larger than sum of content parts"
  | overDeclared        -- "file schema was invalid; content parts sum to over declared size"
  | illegalSize0        -- "blobref content part contained illegal size 0"
  | bothRefs (ci : Int) -- "content part index %d has both blobRef and subFileBlobRef"
  | fetchSubFile        -- "FileReader.Read error fetching sub file"
  | fetchBlob           -- "FileReader.Read error fetching blob"
  | nilBlobRef          -- "NewFileReader blobref was nil"
  | fetchSchema         -- "fetching file schema blob"
  | decodeSchema        -- "decoding file schema blob"
  | notFile             -- "expected \"file\" schema blob"
  | ENOENT
  | seekError
  | InvalidContentPartsError (StatSize SumOfParts : Int)
  | ErrNoCamliVersion
  | marshalError
  | ackMismatch         -- "schema/filewriter: wrote %s bytes, got %s ack'd"
  | storage (code : Nat)
deriving DecidableEq, Repr

/-- A `blobref.ReadSeekCloser` as the reader holds one: a reader over the bytes of a
fetched blob with its position, or the `zeroReader` of `filereader.go`. -/
inductive ReadSeekCloser where
  | blob (data : List Byte) (pos : Nat)
  | zeroReader
deriving DecidableEq, Repr

/-- One segment of a file's content (`type ContentPart struct`). -/
structure ContentPart where
  BlobRef : Option blobref.BlobRef
  SubBlobRef : Option blobref.BlobRef
  Size : Nat
  Offset : Nat
deriving DecidableEq, Repr

/-- The fields of `type Superset struct` that the file reader and writers use. -/
structure Superset where
  CamliType : String
  FileName : String
  Size : Nat
  ContentParts : List ContentPart
  Fragment : Bool
  UnixPermission : String
deriving DecidableEq, Repr

/-- The JSON decoder of `NewFileReader`, an external library, as a parameter. -/
abbrev Decoder := List Byte → Option Superset

/-- The constant `closedIndex`. -/
def closedIndex : Int := -1

/-- The state of a `FileReader` (`type FileReader struct`); the fetcher is passed to
the operations.  `crbr` and `ccp` are addresses, see the conventions above. -/
inductive FileReader where
  | mk (ss : Superset) (ci : Int) (ccon : Nat) (remain : Int)
      (cr : Option ReadSeekCloser) (crbr : Option Nat)
      (csubfr : Option FileReader) (ccp : Option Nat)
deriving Repr

namespace FileReader

def ss : FileReader → Superset
  | mk ss _ _ _ _ _ _ _ => ss

def ci : FileReader → Int
  | mk _ ci _ _ _ _ _ _ => ci

def ccon : FileReader → Nat
  | mk _ _ ccon _ _ _ _ _ => ccon

def remain : FileReader → Int
  | mk _ _ _ remain _ _ _ _ => remain

def cr : FileReader → Option ReadSeekCloser
  | mk _ _ _ _ cr _ _ _ => cr

def crbr : FileReader → Option Nat
  | mk _ _ _ _ _ crbr _ _ => crbr

def csubfr : FileReader → Option FileReader
  | mk _ _ _ _ _ _ csubfr _ => csubfr

def ccp : FileReader → Option Nat
  | mk _ _ _ _ _ _ _ ccp => ccp

end FileReader

/-- Outcome of a call that may panic or, in the model, run out of recursion fuel. -/
inductive Outcome (α : Type) where
  | ret (a : α)
  | panicked
  | outOfFuel
deriving Repr, DecidableEq

/-- What `FileReader.Read` returns: the new reader state, the bytes put in `p`
(`n` is their number) and the error. -/
structure ReadRet where
  fr : FileReader
  data : List Byte
  err : Option Error

/-- The function `minu64`. -/
def minu64 (a b : Nat) : Nat := if a < b then a else b

/-- Reading from a fetched blob returns the bytes from the position on, at most
`L` of them, and `os.EOF` at the end of the blob; `zeroReader.Read` fills the
buffer with zeros. -/
def ReadSeekCloser.Read : ReadSeekCloser → Nat → ReadSeekCloser × List Byte × Option Error
  | .blob data pos, L =>
    if data.length ≤ pos then (.blob data pos, [], some Error.EOF)
    else (.blob data (pos + ((data.drop pos).take L).length), (data.drop pos).take L, none)
  | .zeroReader, L => (.zeroReader, List.replicate L 0, none)

/-- Seeking with `os.SEEK_SET`: a negative offset is an error; `zeroReader.Seek`
does nothing. -/
def ReadSeekCloser.Seek : ReadSeekCloser → Int → Except Error ReadSeekCloser
  | .blob data _, off => if off < 0 then .error Error.seekError else .ok (.blob data off.toNat)
  | .zeroReader, _ => .ok .zeroReader

/-- The method `Superset.NewFileReader`. -/
def Superset.NewFileReader (ss : Superset) : FileReader :=
  .mk ss 0 0 (i64 ss.Size) none none none none

/-- The function `NewFileReader`, called with a non-nil reference. -/
def NewFileReader (fetcher : SeekFetcher) (decode : Decoder) (fileBlobRef : BlobRef) :
    Except Error FileReader :=
  match fetcher fileBlobRef with
  | none => .error Error.fetchSchema
  | some rsc =>
    match decode rsc with
    | none => .error Error.decodeSchema
    | some ss => if ss.CamliType ≠ "file" then .error Error.notFile else .ok ss.NewFileReader

namespace FileReader

/-- The method `closeOpenBlobs`. -/
def closeOpenBlobs : FileReader → FileReader
  | mk ss ci ccon remain (some _) _ csubfr ccp => mk ss ci ccon remain none none csubfr ccp
  | mk ss ci ccon remain none crbr csubfr ccp => mk ss ci ccon remain none crbr csubfr ccp

/-- The method `Close`. -/
def Close (fr : FileReader) : FileReader × Option Error :=
  if fr.ci = closedIndex then (fr, some Error.errClosed)
  else
    match fr.closeOpenBlobs with
    | mk ss _ ccon remain cr crbr csubfr ccp =>
      (mk ss closedIndex ccon remain cr crbr csubfr ccp, none)

/-- The loop of `Skip`; every iteration uses one unit of fuel.  Returns the reader
and the final value of `skipBytes`. -/
def SkipLoop : Nat → FileReader → Nat → Outcome (FileReader × Nat)
  | 0, _, _ => .outOfFuel
  | fuel + 1, mk ss ci ccon remain cr crbr csubfr ccp, skipBytes =>
    if skipBytes ≠ 0 ∧ ci < ss.ContentParts.length then
      if ci < 0 then .panicked
      else
        match ss.ContentParts.get? ci.toNat with
        | none => .panicked
        | some cp =>
          let thisChunkSkippable := u64 (cp.Size - ccon)
          let toSkip := minu64 skipBytes thisChunkSkippable
          let ccon1 := u64 (ccon + toSkip)
          let remain1 := i64 (remain - i64 toSkip)
          if ccon1 = cp.Size then
            SkipLoop fuel (mk ss (ci + 1) 0 remain1 cr crbr csubfr ccp) (u64 (skipBytes - toSkip))
          else
            SkipLoop fuel (mk ss ci ccon1 remain1 cr crbr csubfr ccp) (u64 (skipBytes - toSkip))
    else .ret (mk ss ci ccon remain cr crbr csubfr ccp, skipBytes)

/-- The method `Skip`: the new reader and the number of bytes skipped.  The loop
runs at most once per content part plus once, so the fuel given is enough. -/
def Skip (fr : FileReader) (skipBytes : Nat) : Outcome (FileReader × Nat) :=
  if fr.ci = closedIndex then .ret (fr, 0)
  else
    match SkipLoop (fr.ss.ContentParts.length + 2) fr skipBytes with
    | .ret (fr1, rest) => .ret (fr1, u64 (skipBytes - rest))
    | .panicked => .panicked
    | .outOfFuel => .outOfFuel

/-- The loop of `currentPart` over the content parts from index `ci` on: steps over
the parts that are used up and returns the cursor and the part found, if any. -/
def currentPartFrom : List ContentPart → Int → Nat → Int × Nat × Option ContentPart
  | [], ci, ccon => (ci, ccon, none)
  | cp :: rest, ci, ccon =>
    if u64 (cp.Size - ccon) = 0 then currentPartFrom rest (ci + 1) 0
    else (ci, ccon, some cp)

/-- The method `currentPart`, called on an open reader (`ci ≥ 0`). -/
def currentPart : FileReader → FileReader × Except Error ContentPart
  | mk ss ci ccon remain cr crbr csubfr ccp =>
    match currentPartFrom (ss.ContentParts.drop ci.toNat) ci ccon with
    | (ci1, ccon1, some cp) => (mk ss ci1 ccon1 remain cr crbr csubfr ccp, .ok cp)
    | (ci1, ccon1, none) =>
      ((mk ss ci1 ccon1 remain cr crbr csubfr ccp).closeOpenBlobs,
        .error (if remain > 0 then Error.declaredLarger else Error.EOF))

/-- The method `readerFor`; `brAddr` is the address of `br` (`none` for nil).  The
reader returned is `none` when the cached `fr.cr` returned is nil. -/
def readerFor (fetcher : SeekFetcher) (fr : FileReader) (br : Option BlobRef)
    (brAddr : Option Nat) (seekTo : Int) : FileReader × Except Error (Option ReadSeekCloser) :=
  if fr.crbr = brAddr then (fr, .ok fr.cr)
  else
    match fr.closeOpenBlobs with
    | mk ss ci ccon remain cr crbr csubfr ccp =>
      match br with
      | some b =>
        match fetcher b with
        | none => (mk ss ci ccon remain cr crbr csubfr ccp, .error Error.ENOENT)
        | some data =>
          match (ReadSeekCloser.blob data 0).Seek seekTo with
          | .error _ => (mk ss ci ccon remain cr crbr csubfr ccp, .error Error.seekError)
          | .ok rsc => (mk ss ci ccon remain (some rsc) brAddr csubfr ccp, .ok (some rsc))
      | none =>
        (mk ss ci ccon remain (some .zeroReader) brAddr csubfr ccp, .ok (some .zeroReader))

/-- The end of `Read`: account for the `n` bytes read by the underlying reader. -/
def finishRead : FileReader → List Byte → Option Error → ReadRet
  | mk ss ci ccon remain cr crbr csubfr ccp, data, err =>
    let remain1 := i64 (remain - i64 data.length)
    ⟨mk ss ci (u64 (ccon + data.length)) remain1 cr crbr csubfr ccp, data,
      if remain1 < 0 then some Error.overDeclared else err⟩

/-- Replace the cached leaf reader (the reader read from is `fr.cr` itself). -/
def setCr : FileReader → Option ReadSeekCloser → FileReader
  | mk ss ci ccon remain _ crbr csubfr ccp, cr => mk ss ci ccon remain cr crbr csubfr ccp

/-- Replace the cached sub-file reader and the part it is cached for. -/
def setCsubfr : FileReader → Option FileReader → Option Nat → FileReader
  | mk ss ci ccon remain cr crbr _ _, csubfr, ccp => mk ss ci ccon remain cr crbr csubfr ccp

/-- The buffer `p` after `if readSize < uint64(len(p)) { p = p[:int(readSize)] }`. -/
def readLen (cp : ContentPart) (ccon L : Nat) : Nat :=
  if u64 (cp.Size - ccon) < L then u64 (cp.Size - ccon) else L

/-- The method `subBlobRefReader`; the address of `cp` is its index `fr.ci`.  The
reader returned is `none` when the cached `fr.csubfr` returned is nil. -/
def subBlobRefReader (fetcher : SeekFetcher) (decode : Decoder) (fr : FileReader)
    (cp : ContentPart) : Outcome (FileReader × Except Error (Option FileReader)) :=
  if fr.ccp = some fr.ci.toNat then .ret (fr, .ok fr.csubfr)
  else
    match cp.SubBlobRef with
    | none => .ret (fr, .error Error.nilBlobRef)
    | some sbr =>
      match NewFileReader fetcher decode sbr with
      | .error e => .ret (fr, .error e)
      | .ok subfr =>
        match subfr.Skip cp.Offset with
        | .ret (subfr1, _) =>
          .ret (fr.setCsubfr (some subfr1) (some fr.ci.toNat), .ok (some subfr1))
        | .panicked => .panicked
        | .outOfFuel => .outOfFuel

/-- The method `Read` with a buffer of `L` bytes.  The fuel bounds the depth of the
recursion into sub-file readers.  A reader that is not closed has `ci ≥ 0`; with a
negative index `currentPart` would panic on `ContentParts[fr.ci]`. -/
def Read (fetcher : SeekFetcher) (decode : Decoder) : Nat → FileReader → Nat → Outcome ReadRet
  | 0, _, _ => .outOfFuel
  | fuel + 1, fr, L =>
    if fr.ci = closedIndex then .ret ⟨fr, [], some Error.errClosed⟩
    else if fr.ci < 0 then .panicked
    else
      match fr.currentPart with
      | (fr1, .error err) => .ret ⟨fr1, [], some err⟩
      | (fr1, .ok cp) =>
        if cp.Size = 0 then .ret ⟨fr1, [], some Error.illegalSize0⟩
        else if cp.BlobRef.isSome ∧ cp.SubBlobRef.isSome then
          .ret ⟨fr1, [], some (Error.bothRefs fr1.ci)⟩
        else if cp.SubBlobRef.isSome then
          match subBlobRefReader fetcher decode fr1 cp with
          | .ret (fr2, .error _) => .ret ⟨fr2, [], some Error.fetchSubFile⟩
          | .ret (_, .ok none) => .panicked
          | .ret (fr2, .ok (some subfr)) =>
            match Read fetcher decode fuel subfr (readLen cp fr2.ccon L) with
            | .ret ⟨subfr1, data, err⟩ =>
              .ret (finishRead (fr2.setCsubfr (some subfr1) fr2.ccp) data err)
            | .panicked => .panicked
            | .outOfFuel => .outOfFuel
          | .panicked => .panicked
          | .outOfFuel => .outOfFuel
        else
          let seekTo := u64 (cp.Offset + fr1.ccon)
          match readerFor fetcher fr1 cp.BlobRef
              (if cp.BlobRef.isSome then some fr1.ci.toNat else none) (i64 seekTo) with
          | (fr2, .error _) => .ret ⟨fr2, [], some Error.fetchBlob⟩
          | (_, .ok none) => .panicked
          | (fr2, .ok (some r)) =>
            match r.Read (readLen cp fr2.ccon L) with
            | (r1, data, err) => .ret (finishRead (fr2.setCr (some r1)) data err)

end FileReader

/-- The loop of a caller that reads a `FileReader` to the end with a buffer of `L`
bytes (as `io.Copy` does): it keeps the bytes of every call, stops without error at
`os.EOF` and stops with the error at any other error.  `steps` bounds the number of
calls, `fuel` is the fuel of each call. -/
def readToEOF (fetcher : SeekFetcher) (decode : Decoder) (fuel L : Nat) :
    Nat → FileReader → Outcome (List Byte × Option Error)
  | 0, _ => .outOfFuel
  | steps + 1, fr =>
    match fr.Read fetcher decode fuel L with
    | .ret ⟨fr1, data, err⟩ =>
      match err with
      | some Error.EOF => .ret (data, none)
      | some e => .ret (data, some e)
      | none =>
        match readToEOF fetcher decode fuel L steps fr1 with
        | .ret (rest, e) => .ret (data ++ rest, e)
        | .panicked => .panicked
        | .outOfFuel => .outOfFuel
    | .panicked => .panicked
    | .outOfFuel => .outOfFuel

/-- An operation on a `FileReader`. -/
inductive Op where
  | read (L : Nat)
  | skip (skipBytes : Nat)
  | close
deriving DecidableEq, Repr

/-- What an operation returned. -/
inductive Reply where
  | read (data : List Byte) (err : Option Error)
  | skipped (n : Nat)
  | closed (err : Option Error)
deriving DecidableEq, Repr

/-- One operation on a reader: the new state and what the call returned. -/
def FileReader.step (fetcher : SeekFetcher) (decode : Decoder) (fuel : Nat) (fr : FileReader) :
    Op → Outcome (FileReader × Reply)
  | .read L =>
    match fr.Read fetcher decode fuel L with
    | .ret ⟨fr1, data, err⟩ => .ret (fr1, .read data err)
    | .panicked => .panicked
    | .outOfFuel => .outOfFuel
  | .skip k =>
    match fr.Skip k with
    | .ret (fr1, n) => .ret (fr1, .skipped n)
    | .panicked => .panicked
    | .outOfFuel => .outOfFuel
  | .close => .ret ((fr.Close).1, .closed (fr.Close).2)

/-- A sequence of operations on a reader, one after the other: the final state and
what every call returned. -/
def FileReader.run (fetcher : SeekFetcher) (decode : Decoder) (fuel : Nat) :
    FileReader → List Op → Outcome (FileReader × List Reply)
  | fr, [] => .ret (fr, [])
  | fr, op :: ops =>
    match fr.step fetcher decode fuel op with
    | .ret (fr1, reply) =>
      match FileReader.run fetcher decode fuel fr1 ops with
      | .ret (fr2, replies) => .ret (fr2, reply :: replies)
      | .panicked => .panicked
      | .outOfFuel => .outOfFuel
    | .panicked => .panicked
    | .outOfFuel => .outOfFuel

/-- What a closed reader answers to an operation. -/
def closedReply : Op → Reply
  | .read _ => .read [] (some Error.errClosed)
  | .skip _ => .skipped 0
  | .close => .closed (some Error.errClosed)

/-- The number of bytes that the `Read` calls of a trace returned. -/
def bytesReturned : List Reply → Nat
  | [] => 0
  | .read data _ :: rest => data.length + bytesReturned rest
  | _ :: rest => bytesReturned rest

/-- The sum of the sizes of content parts, as a natural number. -/
def sumSizes (parts : List ContentPart) : Nat := (parts.map ContentPart.Size).sum

/-- The sizes and offsets of a schema are `uint64` values. -/
def Superset.wellTyped (ss : Superset) : Prop :=
  ss.Size < 18446744073709551616 ∧
    (∀ cp ∈ ss.ContentParts, cp.Size < 18446744073709551616) ∧
    (∀ cp ∈ ss.ContentParts, cp.Offset < 18446744073709551616)

/-- A sequence of `Read` and `Skip` calls whose `Skip` arguments are `uint64` values. -/
def readsAndSkips : List Op → Prop
  | [] => True
  | .read _ :: ops => readsAndSkips ops
  | .skip k :: ops => k < 18446744073709551616 ∧ readsAndSkips ops
  | .close :: _ => False

/-- What a call returned, without the state it left: used to compare outcomes. -/
def Outcome.map {α β : Type} (f : α → β) : Outcome α → Outcome β
  | .ret a => .ret (f a)
  | .panicked => .panicked
  | .outOfFuel => .outOfFuel

/-- The bytes and the error that a `Read` returned. -/
def ReadRet.reply (r : ReadRet) : List Byte × Option Error := (r.data, r.err)

/-- The method `Skip` followed by reading to the end: the number of bytes skipped and
what was read. -/
def skipThenRead (fetcher : SeekFetcher) (decode : Decoder) (fuel L steps : Nat)
    (fr : FileReader) (k : Nat) : Outcome (Nat × List Byte × Option Error) :=
  match fr.Skip k with
  | .ret (fr1, n) => (readToEOF fetcher decode fuel L steps fr1).map (fun r => (n, r))
  | .panicked => .panicked
  | .outOfFuel => .outOfFuel

/-! ### Example blobs and schemas -/

/-- The reference of the example leaf blob. -/
def exRef1 : BlobRef := ⟨"sha1", "01"⟩

/-- The reference of the example fragment schema blob. -/
def exRef2 : BlobRef := ⟨"sha1", "02"⟩

/-- A store with a four-byte blob `exRef1` and, as blob `exRef2`, the JSON text of
`exFragment` (the text stands for itself as the single byte `123`). -/
def exFetcher : SeekFetcher := fun r =>
  if r = exRef1 then some [10, 20, 30, 40] else if r = exRef2 then some [123] else none

/-- A fragment file schema over blob `exRef1`. -/
def exFragment : Superset :=
  ⟨"file", "", 4, [⟨some exRef1, none, 4, 0⟩], true, ""⟩

/-- The decoder that knows the JSON text of `exFragment`. -/
def exDecoder : Decoder := fun b => if b = [123] then some exFragment else none

/-- A file whose single content part is the sub-file `exFragment`. -/
def exSubFile : Superset :=
  ⟨"file", "f", 4, [⟨none, some exRef2, 4, 0⟩], false, ""⟩

/-- A file whose single content part has neither `blobRef` nor `subFileBlobRef`. -/
def exSparse : Superset :=
  ⟨"file", "f", 5, [⟨none, none, 5, 0⟩], false, ""⟩

/-- A file that declares 2 bytes over a part of 4 bytes. -/
def exOver : Superset :=
  ⟨"file", "f", 2, [⟨some exRef1, none, 4, 0⟩], false, ""⟩

/-- A file that declares 2^63 bytes and has no content part. -/
def exHuge : Superset :=
  ⟨"file", "f", 9223372036854775808, [], false, ""⟩

/-- A file whose single content part has both references set. -/
def exBoth : Superset :=
  ⟨"file", "f", 4, [⟨some exRef1, some exRef2, 4, 0⟩], false, ""⟩

/-- A file that declares 10 bytes over a single part of 4 bytes. -/
def exShort : Superset :=
  ⟨"file", "f", 10, [⟨some exRef1, none, 4, 0⟩], false, ""⟩

/-- The reader of `exShort` after one `Read` of its four bytes. -/
def exShortRead : FileReader :=
  .mk exShort 0 4 6 (some (.blob [10, 20, 30, 40] 4)) (some 0) none none

/-- The result of the first `Read` of `exOver` with a buffer of 4 bytes. -/
def exOverRet : ReadRet :=
  ⟨.mk exOver 0 4 (-2) (some (.blob [10, 20, 30, 40] 4)) (some 0) none none,
    [10, 20, 30, 40], some Error.overDeclared⟩

/-- The reader of `exSubFile` after `Close`. -/
def exClosed : FileReader :=
  .mk exSubFile closedIndex 0 4 none none none none

/-- A file that declares 2^63 bytes over a part of 4 bytes. -/
def exHugePart : Superset :=
  ⟨"file", "f", 9223372036854775808, [⟨some exRef1, none, 4, 0⟩], false, ""⟩

/-- A file of a leaf part followed by a sub-file part. -/
def exMixed : Superset :=
  ⟨"file", "f", 8, [⟨some exRef1, none, 4, 0⟩, ⟨none, some exRef2, 4, 0⟩], false, ""⟩

/-- Which readers a `FileReader` still holds: its cached leaf reader, its cached
sub-file reader, and the leaf reader cached inside that sub-file reader. -/
def FileReader.held (fr : FileReader) : Bool × Bool × Bool :=
  (fr.cr.isSome, fr.csubfr.isSome,
    match fr.csubfr with
    | some sub => sub.cr.isSome
    | none => false)

/-! ### Invariants of the reader -/

/-- Two reader states with the same schema, cursor and `remain`. -/
def FileReader.sameCursor (a b : FileReader) : Prop :=
  a.ss = b.ss ∧ a.ci = b.ci ∧ a.ccon = b.ccon ∧ a.remain = b.remain

/-- The reader `fr` reads the schema `ss`, is open, and its `remain` is the declared
size less the `T` bytes returned so far (in `int64` arithmetic). -/
def FileReader.Tracks (ss : Superset) (fr : FileReader) (T : Nat) : Prop :=
  fr.ss = ss ∧ 0 ≤ fr.ci ∧ fr.remain = i64 ((ss.Size : Int) - T)

/-- The cursor of `fr` stands at byte `T` of the concatenated content parts and has
not run past the end of its part. -/
def FileReader.Pos (fr : FileReader) (T : Nat) : Prop :=
  0 ≤ fr.ci ∧
  T + sumSizes (fr.ss.ContentParts.drop fr.ci.toNat) = sumSizes fr.ss.ContentParts + fr.ccon ∧
  (∀ cp tl, fr.ss.ContentParts.drop fr.ci.toNat = cp :: tl → fr.ccon ≤ cp.Size) ∧
  (fr.ss.ContentParts.drop fr.ci.toNat = [] → fr.ccon = 0)

/-- The invariant of a reader and of the sub-file readers it has cached, one inside
the other: the schema has `uint64` sizes and the cursor is in place at some byte. -/
inductive FileReader.Good : FileReader → Prop where
  | mk (fr : FileReader) (hty : fr.ss.wellTyped) (T : Nat) (hpos : fr.Pos T)
      (hrem : i64 fr.remain = fr.remain)
      (hsub : ∀ sub, fr.csubfr = some sub → FileReader.Good sub) : FileReader.Good fr

end schema

namespace blobref

/-- Modelled from the spec: the method `BlobRef.String` (`blobref.go` is not among
the sources), the canonical form `hashName-hexdigest`. -/
def BlobRef.String (b : BlobRef) : String := b.hashName ++ "-" ++ b.digest

/-- A character of the class `[a-z0-9]`. -/
def isHashNameChar (c : Char) : Bool :=
  (decide (97 ≤ c.toNat) && decide (c.toNat ≤ 122)) || (decide (48 ≤ c.toNat) && decide (c.toNat ≤ 57))

/-- A character of the class `[a-f0-9]`. -/
def isDigestChar (c : Char) : Bool :=
  (decide (97 ≤ c.toNat) && decide (c.toNat ≤ 102)) || (decide (48 ≤ c.toNat) && decide (c.toNat ≤ 57))

/-- Modelled from the spec: the function `Parse` (`blobref.go` is not among the
sources), which accepts `^[a-z0-9]+-[a-f0-9]+$` and returns nil otherwise.  The text
is cut at its first dash and both sides are checked against their class. -/
def Parse (s : String) : Option BlobRef :=
  let h := s.toList.takeWhile (fun c => c != '-')
  match s.toList.dropWhile (fun c => c != '-') with
  | [] => none
  | _ :: d =>
    if h ≠ [] ∧ h.all isHashNameChar = true ∧ d ≠ [] ∧ d.all isDigestChar = true then
      some ⟨String.mk h, String.mk d⟩
    else none

/-- The language of the pattern `^[a-z0-9]+-[a-f0-9]+$`, written out. -/
def matchesPattern (s : String) : Prop :=
  ∃ h d : List Char, s.toList = h ++ '-' :: d ∧ h ≠ [] ∧ (∀ c ∈ h, isHashNameChar c = true) ∧
    d ≠ [] ∧ (∀ c ∈ d, isDigestChar c = true)

/-- The value of a hexadecimal digit. -/
def hexDigitValue (c : Char) : Nat :=
  if 48 ≤ c.toNat ∧ c.toNat ≤ 57 then c.toNat - 48
  else if 97 ≤ c.toNat ∧ c.toNat ≤ 102 then c.toNat - 87
  else 0

/-- The number that a text of hexadecimal digits denotes. -/
def hexValue (cs : List Char) : Nat :=
  cs.foldl (fun acc c => acc * 16 + hexDigitValue c) 0

/-- Modelled from the spec: the method `BlobRef.Sum32` (`blobref.go` is not among the
sources), the 32-bit reduction of the digest that `TestSum32` pins down: the last
eight hexadecimal digits of the digest, read as a `uint32`. -/
def BlobRef.Sum32 (b : BlobRef) : Nat :=
  hexValue (b.digest.toList.drop (b.digest.toList.length - 8)) % 4294967296

end blobref

namespace search

open blobref

/-- The fields of `search.Claim` that `populatePermanodeFields` uses, and the date
that `sort.Sort(claims)` orders by. -/
structure Claim where
  Date : Int
  ClaimType : String
  Attr : String
  Value : String
deriving DecidableEq, Repr

/-- The `attr` map of `populatePermanodeFields`: attribute name to its `[]string`;
`none` is an absent key. -/
abbrev AttrMap := String → Option (List String)

/-- The empty map `jsonMap()`. -/
def AttrMap.empty : AttrMap := fun _ => none

/-- The statement `attr[k] = nil, false`. -/
def AttrMap.delete (attr : AttrMap) (k : String) : AttrMap :=
  fun x => if x = k then none else attr x

/-- The statement `attr[k] = sl`. -/
def AttrMap.set (attr : AttrMap) (k : String) (sl : List String) : AttrMap :=
  fun x => if x = k then some sl else attr x

/-- The shared body of the cases `"set-attribute"` (by `fallthrough`) and
`"add-attribute"`. -/
def addAttribute (attr : AttrMap) (cl : Claim) : AttrMap :=
  if cl.Value = "" then attr
  else
    match attr cl.Attr with
    | some sl => if cl.Value ∈ sl then attr else attr.set cl.Attr (sl ++ [cl.Value])
    | none => attr.set cl.Attr ([] ++ [cl.Value])

/-- One iteration of `claimLoop`. -/
def applyClaim (attr : AttrMap) (cl : Claim) : AttrMap :=
  if cl.ClaimType = "del-attribute" then
    if cl.Value = "" then attr.delete cl.Attr
    else
      match attr cl.Attr with
      | some sl => attr.set cl.Attr (sl.filter (fun val => val != cl.Value))
      | none => attr
  else if cl.ClaimType = "set-attribute" then addAttribute (attr.delete cl.Attr) cl
  else if cl.ClaimType = "add-attribute" then addAttribute attr cl
  else attr

/-- What `populatePermanodeFields` leaves behind: the `attr` map, the `error` entry
of `jm`, and the calls `dr.describe(br, depth)` it made, in order. -/
structure Populated where
  attr : AttrMap
  error : Option String
  described : List (Option BlobRef × Int)

/-- The calls of `describe` at the end of `populatePermanodeFields`. -/
def describeCalls (attr : AttrMap) (depth : Int) : List (Option BlobRef × Int) :=
  (match attr "camliContent" with
    | some content =>
      match content.getLast? with
      | some last => [(Parse last, depth - 1)]
      | none => []
    | none => []) ++
  (match attr "camliMember" with
    | some member =>
      member.filterMap (fun m =>
        match Parse m with
        | some membr => some (some membr, depth - 1)
        | none => none)
    | none => [])

/-- The method `populatePermanodeFields`.  The result of `index.GetOwnerClaims` is an
input; `sortClaims` is `sort.Sort` on a `search.ClaimList`, whose ordering is not
among the sources and is taken as a parameter. -/
def populatePermanodeFields (sortClaims : List Claim → List Claim)
    (claims : Except String (List Claim)) (depth : Int) : Populated :=
  match claims with
  | .error err => ⟨AttrMap.empty, some err, []⟩
  | .ok cls =>
    let attr := (sortClaims cls).foldl applyClaim AttrMap.empty
    ⟨attr, none, describeCalls attr depth⟩

/-- The step of claim evaluation in the words of the spec: `set-attribute(a,v)` clears
`a` then appends `v`; `add-attribute(a,v)` appends `v` if not already present;
`del-attribute(a,"")` deletes `a` entirely; `del-attribute(a,v)` removes `v` from
`a`'s value list. -/
def specStep (attr : AttrMap) (cl : Claim) : AttrMap :=
  if cl.ClaimType = "set-attribute" then attr.set cl.Attr [cl.Value]
  else if cl.ClaimType = "add-attribute" then
    if cl.Value ∈ (attr cl.Attr).getD [] then attr
    else attr.set cl.Attr ((attr cl.Attr).getD [] ++ [cl.Value])
  else if cl.ClaimType = "del-attribute" then
    if cl.Value = "" then attr.delete cl.Attr
    else
      match attr cl.Attr with
      | some sl => attr.set cl.Attr (sl.filter (fun val => val != cl.Value))
      | none => attr
  else attr

/-- A sort by claim date: the result is a permutation of the argument in ascending
date order. -/
def IsDateSort (sortClaims : List Claim → List Claim) : Prop :=
  ∀ l, (sortClaims l).Perm l ∧ (sortClaims l).Pairwise (fun a b => a.Date ≤ b.Date)

/-- A sort by claim date: insertion of each claim before the first later one. -/
def insertByDate (c : Claim) : List Claim → List Claim
  | [] => [c]
  | d :: ds => if c.Date ≤ d.Date then c :: d :: ds else d :: insertByDate c ds

/-- Insertion sort by claim date. -/
def sortByDate : List Claim → List Claim
  | [] => []
  | c :: cs => insertByDate c (sortByDate cs)

/-- The claims of scenario S6. -/
def exClaims : List Claim :=
  [⟨3, "del-attribute", "tag", "a"⟩, ⟨1, "set-attribute", "tag", "a"⟩,
    ⟨2, "add-attribute", "tag", "b"⟩]

end search


namespace strconv

open blobref

/-- The errors of Go's `strconv` package: `os.EINVAL`, `os.ERANGE` and the
"invalid base" error. -/
inductive NumError where
  | EINVAL
  | ERANGE
  | invalidBase
deriving DecidableEq, Repr

/-- The value of one byte as a digit in `Btoui64`: `0-9`, `a-z`, `A-Z`. -/
def digitVal (d : Byte) : Option Nat :=
  if 48 ≤ d ∧ d ≤ 57 then some (d - 48)
  else if 97 ≤ d ∧ d ≤ 122 then some (d - 97 + 10)
  else if 65 ≤ d ∧ d ≤ 90 then some (d - 65 + 10)
  else none

/-- The function `cutoff64` of the Go library: the first `n` with `n*base` beyond
`uint64`. -/
def cutoff64 (base : Nat) : Nat :=
  if base < 2 then 0 else (18446744073709551616 - 1) / base + 1

/-- The digit loop of the Go library function `strconv.Btoui64`. -/
def Btoui64Loop (b : Nat) : List Byte → Nat → Nat × Option NumError
  | [], n => (n, none)
  | d :: ds, n =>
    match digitVal d with
    | none => (0, some .EINVAL)
    | some v =>
      if v ≥ b then (0, some .EINVAL)
      else if n ≥ cutoff64 b then (18446744073709551616 - 1, some .ERANGE)
      else
        let n := (n * b) % 18446744073709551616
        let n1 := (n + v) % 18446744073709551616
        if n1 < n then (18446744073709551616 - 1, some .ERANGE)
        else Btoui64Loop b ds n1

/-- The Go library function `strconv.Btoui64(s, b)`: the value and the error. -/
def Btoui64 (s : List Byte) (b : Nat) : Nat × Option NumError :=
  if s.length < 1 then (0, some .EINVAL)
  else if 2 ≤ b ∧ b ≤ 36 then Btoui64Loop b s 0
  else if b = 0 then
    match s with
    | 48 :: x :: rest =>
      if x = 120 ∨ x = 88 then
        (if rest.length < 1 then (0, some .EINVAL) else Btoui64Loop 16 rest 0)
      else Btoui64Loop 8 s 0
    | 48 :: _ => Btoui64Loop 8 s 0
    | _ => Btoui64Loop 10 s 0
  else (0, some .invalidBase)

/-- The Go library function `strconv.Btoi64(s, base)`: the value and the error. -/
def Btoi64 (s : List Byte) (base : Nat) : Int × Option NumError :=
  match s with
  | [] => (0, some .EINVAL)
  | c :: rest =>
    let neg := decide (c = 45)
    let s1 := if c = 43 ∨ c = 45 then rest else s
    let r := Btoui64 s1 base
    if r.2 ≠ none ∧ r.2 ≠ some .ERANGE then (0, r.2)
    else if neg = false ∧ r.1 ≥ 9223372036854775808 then (9223372036854775808 - 1, some .ERANGE)
    else if neg = true ∧ r.1 > 9223372036854775808 then (-9223372036854775808, some .ERANGE)
    else if neg then (schema.i64 (-(schema.i64 r.1)), none) else (schema.i64 r.1, none)

/-- The Go library function `strconv.Atoi64`. -/
def Atoi64 (s : List Byte) : Int × Option NumError := Btoi64 s 10

end strconv

namespace schema

open blobref

/-- The bytes of a Go string constant or value: its UTF-8 encoding. -/
def bytesOf (s : String) : List Byte := s.toUTF8.data.toList.map UInt8.toNat

/-- Conversion to `uint32`. -/
def u32 (x : Nat) : Nat := x % 4294967296

/-- The constant `syscall.S_IFDIR`. -/
def S_IFDIR : Nat := 16384

/-- The constant `syscall.S_IFREG`. -/
def S_IFREG : Nat := 32768

/-- The constant `syscall.S_IFLNK`. -/
def S_IFLNK : Nat := 40960

/-- The method `Superset.UnixMode`. -/
def Superset.UnixMode (ss : Superset) : Nat :=
  let r := strconv.Btoui64 (bytesOf ss.UnixPermission) 8
  let mode : Nat := if r.2 = none then 0 ||| u32 r.1 else 0
  if ss.CamliType = "directory" then mode ||| S_IFDIR
  else if ss.CamliType = "file" then mode ||| S_IFREG
  else if ss.CamliType = "symlink" then mode ||| S_IFLNK
  else mode

/-- The spec's reading of `unixPermission` as an octal number: a non-empty text of
digits `0`..`7` stands for its value, anything else does not parse. -/
def octalValue (s : List Byte) : Option Nat :=
  if s ≠ [] ∧ s.all (fun d => decide (48 ≤ d ∧ d ≤ 55)) = true then
    some (s.foldl (fun n d => 8 * n + (d - 48)) 0)
  else none

/-- The spec's type bit of a `camliType`. -/
def typeBit (t : String) : Nat :=
  if t = "directory" then S_IFDIR
  else if t = "file" then S_IFREG
  else if t = "symlink" then S_IFLNK
  else 0

/-- A value stored in a part's map: `string` or `uint64`. -/
inductive Scalar where
  | int (n : Int)
  | uint (n : Nat)
  | str (s : String)
  | bool (b : Bool)
  | bytes (b : List Byte)
deriving DecidableEq, Repr

/-- The `map[string]interface{}` of one content part. -/
abbrev PartMap := String → Option Scalar

/-- A value of a schema map (`interface{}`): a scalar or the list of part maps. -/
inductive Value where
  | scalar (v : Scalar)
  | maps (l : List PartMap)

/-- A schema map, `map[string]interface{}`: the value under each key, if any. -/
abbrev CamliMap := String → Option Value

/-- The empty map, `make(map[string]interface{})`. -/
def emptyMap {α : Type} : String → Option α := fun _ => none

/-- The assignment `m[k] = v`. -/
def mapSet {α : Type} (m : String → Option α) (k : String) (v : α) : String → Option α :=
  fun x => if x = k then some v else m x

/-- The deletion `m[k] = v, false`. -/
def mapDelete {α : Type} (m : String → Option α) (k : String) : String → Option α :=
  fun x => if x = k then none else m x

/-- The function `newCamliMap`. -/
def newCamliMap (version : Int) (ctype : String) : CamliMap :=
  mapSet (mapSet emptyMap "camliVersion" (.scalar (.int version))) "camliType" (.scalar (.str ctype))

/-- The body of the loop of `PopulateRegularFileMap`: the map of one part. -/
def partMap (part : ContentPart) : PartMap :=
  let mpart : PartMap := emptyMap
  let mpart :=
    match part.BlobRef, part.SubBlobRef with
    | some br, _ => mapSet mpart "blobRef" (.str br.String)
    | none, some sbr => mapSet mpart "subFileBlobRef" (.str sbr.String)
    | none, none => mpart
  let mpart := mapSet mpart "size" (.uint part.Size)
  if part.Offset ≠ 0 then mapSet mpart "offset" (.uint part.Offset) else mpart

/-- The function `PopulateRegularFileMap`: the map it leaves and the error. -/
def PopulateRegularFileMap (m : CamliMap) (size : Int) (parts : List ContentPart) :
    CamliMap × Option Error :=
  let m := mapSet m "camliType" (.scalar (.str "file"))
  let m := mapSet m "size" (.scalar (.int size))
  let sumSize := parts.foldl (fun s part => u64 (s + part.Size)) 0
  let mparts := parts.map partMap
  if sumSize ≠ u64 size then (m, some (.InvalidContentPartsError size (i64 sumSize)))
  else (mapSet m "contentParts" (.maps mparts), none)

/-- The function `MapToCamliJson`: the map it leaves, and the text and error it
returns.  `MarshalIndent` is `json.MarshalIndent(m, "", "  ")` and `Sprint` is the
`%v` verb of `fmt`, both library functions and parameters here. -/
def MapToCamliJson (MarshalIndent : CamliMap → Except Error (List Byte))
    (Sprint : Value → String) (m : CamliMap) :
    CamliMap × Outcome (List Byte × Option Error) :=
  match m "camliVersion" with
  | none => (m, .ret ([], some .ErrNoCamliVersion))
  | some version =>
    let m := mapDelete m "camliVersion"
    match MarshalIndent m with
    | .error err => (m, .ret ([], some err))
    | .ok jsonBytes =>
      let m := mapSet m "camliVersion" version
      if jsonBytes.length < 2 then (m, .panicked)
      else
        (m, .ret (bytesOf ("\x7b\"camliVersion\": " ++ Sprint version ++ ",\n") ++ jsonBytes.drop 2,
          none))

/-- The last `w` decimal digits of `n`, most significant first, as ASCII. -/
def lastDigits : Nat → Nat → List Nat
  | 0, _ => []
  | w + 1, n => lastDigits w (n / 10) ++ [48 + n % 10]

/-- The decimal digits of `n` as ASCII, by recursion on a bound on their number. -/
def decimal : Nat → Nat → List Nat
  | 0, _ => []
  | f + 1, n => if n < 10 then [48 + n] else decimal f (n / 10) ++ [48 + n % 10]

/-- The text of `fmt.Sprintf("%09d", x)`: sign, zero padding to nine bytes, digits. -/
def Sprintf09d (x : Int) : List Nat :=
  let ds := decimal (x.natAbs + 1) x.natAbs
  let sign : List Nat := if x < 0 then [45] else []
  sign ++ List.replicate (9 - sign.length - ds.length) 48 ++ ds

/-- The function `RFC3339FromNanos`.  `Format esec` is
`time.SecondsToUTC(esec).Format(time.RFC3339)`, a library function and a parameter
here. -/
def RFC3339FromNanos (Format : Int → List Byte) (epochnanos : Int) : Outcome (List Byte) :=
  let nanos := Int.tmod epochnanos 1000000000
  let esec := Int.tdiv epochnanos 1000000000
  let timeStr := Format esec
  if nanos = 0 then .ret timeStr
  else
    let nanoStr := Sprintf09d nanos
    let nanoStr := nanoStr.rdropWhile (fun c => decide (c = 48))
    if timeStr.length < 1 then .panicked
    else .ret (timeStr.take (timeStr.length - 1) ++ [46] ++ nanoStr ++ [90])

/-- The function `NanosFromRFC3339`.  `Parse s` is `time.Parse(time.RFC3339, s)`
followed by `Seconds()`, or nothing when `time.Parse` fails. -/
def NanosFromRFC3339 (Parse : List Byte → Option Int) (timestr : List Byte) : Int :=
  let dotpos := timestr.indexOf 46
  if dotpos ≠ timestr.length ∧ timestr.getLast? ≠ some 90 then -1
  else
    let simple3339 := if dotpos ≠ timestr.length then timestr.take dotpos ++ [90] else timestr
    let nanostr :=
      if dotpos ≠ timestr.length then
        let nanostr := (timestr.take (timestr.length - 1)).drop (dotpos + 1)
        if 9 - (nanostr.length : Int) > 0 then
          nanostr ++ (List.replicate 9 48).take (9 - nanostr.length)
        else nanostr
      else []
    match Parse simple3339 with
    | none => -1
    | some secs =>
      let nanos := (strconv.Atoi64 nanostr).1
      i64 (i64 (secs * 1000000000) + nanos)

/-- A formatter of the shape of `time.RFC3339` for the years 1970 to 9999, used to
instantiate `Format`: the civil date of a day count, then `YYYY-MM-DDTHH:MM:SSZ`. -/
def exFormat (esec : Int) : List Byte :=
  let s := esec.toNat
  let z := s / 86400 + 719468
  let era := z / 146097
  let doe := z - era * 146097
  let yoe := (doe - doe / 1460 + doe / 36524 - doe / 146096) / 365
  let doy := doe - (365 * yoe + yoe / 4 - yoe / 100)
  let mp := (5 * doy + 2) / 153
  let d := doy - (153 * mp + 2) / 5 + 1
  let m := if mp < 10 then mp + 3 else mp - 9
  let y := if m ≤ 2 then yoe + era * 400 + 1 else yoe + era * 400
  let r := s % 86400
  lastDigits 4 y ++ [45] ++ lastDigits 2 m ++ [45] ++ lastDigits 2 d ++ [84] ++
    lastDigits 2 (r / 3600) ++ [58] ++ lastDigits 2 (r % 3600 / 60) ++ [58] ++
    lastDigits 2 (r % 60) ++ [90]

/-- The number that a text of ASCII digits stands for, if it is one. -/
def digitsValue (s : List Byte) : Option Nat :=
  if s.all (fun d => decide (48 ≤ d ∧ d ≤ 57)) = true then
    some (s.foldl (fun n d => 10 * n + (d - 48)) 0)
  else none

/-- A parser of `YYYY-MM-DDTHH:MM:SSZ`, used to instantiate `Parse`: the seconds
since 1970 of the civil date and time. -/
def exParse (s : List Byte) : Option Int :=
  match s with
  | [y1, y2, y3, y4, 45, m1, m2, 45, d1, d2, 84, h1, h2, 58, i1, i2, 58, s1, s2, 90] =>
    match digitsValue [y1, y2, y3, y4], digitsValue [m1, m2], digitsValue [d1, d2],
      digitsValue [h1, h2], digitsValue [i1, i2], digitsValue [s1, s2] with
    | some y, some m, some d, some h, some i, some sec =>
      let y1 := if m ≤ 2 then y - 1 else y
      let era := y1 / 400
      let yoe := y1 - era * 400
      let doy := (153 * (if m > 2 then m - 3 else m + 9) + 2) / 5 + d - 1
      let doe := yoe * 365 + yoe / 4 - yoe / 100 + doy
      some (((era * 146097 + doe - 719468) * 86400 + h * 3600 + i * 60 + sec : Nat) : Int)
    | _, _, _, _, _, _ => none
  | _ => none

/-- A map with a version and a type but no other key. -/
def exMap : CamliMap := newCamliMap 1 "file"

/-- A stand-in for `json.MarshalIndent` on `exMap` without its version: the text
`{\n  "camliType": "file"\n}`. -/
def exMarshalIndent : CamliMap → Except Error (List Byte) :=
  fun _ => .ok (bytesOf "\x7b\n  \"camliType\": \"file\"\n\x7d")

/-- A stand-in for `%v`: an `int` prints in decimal. -/
def exSprint : Value → String
  | .scalar (.int n) => toString n
  | _ => ""

/-- A file schema whose permission text is the octal number `2^32`. -/
def exWidePermission : Superset :=
  ⟨"file", "f", 0, [], false, "40000000000"⟩

end schema

namespace camlistored

/-- An instantiated handler or storage, known by its identity. -/
abbrev Handler := Nat

/-- What a handler constructor does with the loader it is given.  The constructors
(`blobserver.CreateStorage`, `blobserver.CreateHandler`) are not among the sources;
they reach the loader only through `GetStorage`, `GetHandler` and `GetHandlerType`,
each of which starts with `setupHandler(p)` and then reads `hl.handler[p]` and the
configured type of `p`.  So a constructor is a tree: it returns a handler (`none`
is a nil handler), returns an error, or refers to a prefix `p` and goes on with what
the loader has under `p`. -/
inductive Ctor where
  | ret (h : Option Handler)
  | err
  | ref (p : String) (k : Option Handler → String → Ctor)

/-- The record `handlerConfig`; `conf` is read as what the constructor registered
for `htype` does with the handler arguments. -/
structure handlerConfig where
  pfx : String
  htype : String
  conf : Ctor
  settingUp : Bool
  setupDone : Bool

/-- The record `handlerLoader`: `ws` lists the patterns registered with the web
server, and `calls` is a ghost log of the constructor invocations, by prefix. -/
structure handlerLoader where
  config : String → Option handlerConfig
  handler : String → Option Handler
  ws : List String
  calls : List String

/-- How a run of the loader ends other than by returning: `exitFailure` with one of
its three messages, or the panic of the deferred function. -/
inductive Exit where
  | undefinedHandler (p : String)  -- "invalid reference to undefined handler %q"
  | loop (p : String)              -- "loop in configuration graph; %q tried to load itself indirectly"
  | instantiate (p : String)       -- "error instantiating storage/handler for prefix %q"
  | noHandler (p : String)         -- panic: "setupHandler for %q didn't install a handler"
deriving DecidableEq, Repr

/-- Outcome of a loader call: it returns, the process ends, or the model ran out of
recursion fuel. -/
inductive Run (α : Type) where
  | ok (a : α)
  | exit (e : Exit)
  | outOfFuel
deriving DecidableEq, Repr

/-- What a run returned, under a view of the state. -/
def Run.map {α β : Type} (f : α → β) : Run α → Run β
  | .ok a => .ok (f a)
  | .exit e => .exit e
  | .outOfFuel => .outOfFuel

/-- A mutation of the record that `config[p]` points to. -/
def modify (config : String → Option handlerConfig) (p : String)
    (f : handlerConfig → handlerConfig) : String → Option handlerConfig :=
  fun x => if x = p then (config x).map f else config x

/-- The method `configType`. -/
def handlerLoader.configType (hl : handlerLoader) (p : String) : String :=
  match hl.config p with
  | some h => h.htype
  | none => ""

/-- A constructor run against the loader, `setup` being `setupHandler`: the loader
it leaves and the handler it returned, or `none` for an error. -/
def runCtor (setup : handlerLoader → String → Run handlerLoader) :
    Ctor → handlerLoader → Run (handlerLoader × Option (Option Handler))
  | .ret h, hl => .ok (hl, some h)
  | .err, hl => .ok (hl, none)
  | .ref p k, hl =>
    match setup hl p with
    | .ok hl1 => runCtor setup (k (hl1.handler p) (hl1.configType p)) hl1
    | .exit e => .exit e
    | .outOfFuel => .outOfFuel

/-- The method `setupHandler`.  `exitFailure` ends the process without running the
deferred function; the deferred function runs on both returns after `settingUp`. -/
def setupHandler : Nat → handlerLoader → String → Run handlerLoader
  | 0, _, _ => .outOfFuel
  | fuel + 1, hl, p =>
    match hl.config p with
    | none => .exit (.undefinedHandler p)
    | some h =>
      if h.setupDone then .ok hl
      else if h.settingUp then .exit (.loop p)
      else
        let hl0 : handlerLoader :=
          { hl with
            config := modify hl.config p (fun h => { h with settingUp := true })
            calls := hl.calls ++ [p] }
        match runCtor (setupHandler fuel) h.conf hl0 with
        | .outOfFuel => .outOfFuel
        | .exit e => .exit e
        | .ok (_, none) => .exit (.instantiate p)
        | .ok (hl1, some hh) =>
          let isStorage := "storage-".toList.isPrefixOf h.htype.toList
          let key := if isStorage then h.pfx else p
          let hl2 : handlerLoader :=
            { hl1 with
              handler := fun x => if x = key then hh else hl1.handler x
              ws := hl1.ws ++ [if isStorage then p ++ "camli/" else p] }
          let hl3 : handlerLoader :=
            { hl2 with config := modify hl2.config p (fun h => { h with setupDone := true }) }
          if hl3.handler p = none then .exit (.noHandler p) else .ok hl3

/-- The method `setupAll`, over the keys of `hl.config` in the order `keys`. -/
def setupAll (fuel : Nat) : List String → handlerLoader → Run handlerLoader
  | [], hl => .ok hl
  | p :: ps, hl =>
    match setupHandler fuel hl p with
    | .ok hl1 => setupAll fuel ps hl1
    | .exit e => .exit e
    | .outOfFuel => .outOfFuel

/-- The loader that `main` builds from the prefixes of the configuration: one
`handlerConfig` per prefix, no flag set, no handler published. -/
def newLoader : List (String × String × Ctor) → handlerLoader
  | [] => ⟨fun _ => none, fun _ => none, [], []⟩
  | (p, htype, conf) :: rest =>
    let hl := newLoader rest
    { hl with config := fun x => if x = p then some ⟨p, htype, conf, false, false⟩ else hl.config x }

/-- The state that the loader keeps consistent: a record sits under its own prefix,
a prefix that is done was being set up and has a handler published under it, and
the constructor of a prefix has been invoked once if the prefix was ever set up and
never otherwise. -/
def handlerLoader.Inv (hl : handlerLoader) : Prop :=
  (∀ p h, hl.config p = some h →
    h.pfx = p ∧
    (h.setupDone = true → h.settingUp = true ∧ hl.handler p ≠ none) ∧
    hl.calls.count p = (if h.settingUp then 1 else 0)) ∧
  (∀ p, hl.config p = none → hl.calls.count p = 0)

/-- The flags of a loader only ever go up, and its prefixes stay the same. -/
def handlerLoader.Mono (hl hl1 : handlerLoader) : Prop :=
  (∀ p h, hl.config p = some h →
    ∃ h1, hl1.config p = some h1 ∧ (h.settingUp = true → h1.settingUp = true) ∧
      (h.setupDone = true → h1.setupDone = true)) ∧
  (∀ p, hl.config p = none → hl1.config p = none)

/-- The number of listed prefixes that are configured and not yet being set up. -/
def handlerLoader.pending (hl : handlerLoader) (keys : List String) : Nat :=
  keys.countP (fun k =>
    match hl.config k with
    | some h => !h.settingUp
    | none => false)

/-- What the proofs ask of the function that a constructor calls for a reference:
it only raises flags, and it keeps the loader consistent and leaves the prefix
done. -/
def SetupSpec (setup : handlerLoader → String → Run handlerLoader) : Prop :=
  ∀ hl p hl1, setup hl p = .ok hl1 →
    hl.Mono hl1 ∧ (hl.Inv → hl1.Inv ∧ ∃ h1, hl1.config p = some h1 ∧ h1.setupDone = true)

/-- A user interface under `/ui/` that refers twice to the storage under `/bs/`. -/
def exConfig : List (String × String × Ctor) :=
  [("/ui/", "ui", .ref "/bs/" (fun _ _ => .ref "/bs/" (fun h _ => .ret (h.map (fun n => n + 1))))),
   ("/bs/", "storage-filesystem", .ret (some 7))]

/-- Two handlers that refer to each other. -/
def exCycle : List (String × String × Ctor) :=
  [("/a/", "sync", .ref "/b/" (fun h _ => .ret h)),
   ("/b/", "sync", .ref "/a/" (fun h _ => .ret h))]

/-- What is seen of a loader: the constructor log, and for the listed prefixes the
published handler and the flag `setupDone`. -/
def handlerLoader.view (keys : List String) (hl : handlerLoader) :
    List String × List (Option Handler × Bool) :=
  (hl.calls, keys.map (fun k => (hl.handler k,
    match hl.config k with
    | some h => h.setupDone
    | none => false)))

end camlistored
/-! ## The file reader -/

namespace schema

open blobref

theorem FileReader.Read_closed (fetcher : SeekFetcher) (decode : Decoder) (fuel L : Nat)
    (fr : FileReader) (h : fr.ci = closedIndex) :
    fr.Read fetcher decode (fuel + 1) L = .ret ⟨fr, [], some Error.errClosed⟩ := by
  simp [FileReader.Read, h]

theorem FileReader.Skip_closed (fr : FileReader) (k : Nat) (h : fr.ci = closedIndex) :
    fr.Skip k = .ret (fr, 0) := by
  simp [FileReader.Skip, h]

theorem FileReader.Close_closed (fr : FileReader) (h : fr.ci = closedIndex) :
    fr.Close = (fr, some Error.errClosed) := by
  simp [FileReader.Close, h]

theorem FileReader.Close_ok_ci (fr fr1 : FileReader) (h : fr.Close = (fr1, none)) :
    fr1.ci = closedIndex := by
  unfold FileReader.Close at h
  split at h
  · simp at h
  · revert h
    cases hc : fr.closeOpenBlobs with
    | mk ss ci ccon remain cr crbr csubfr ccp =>
      intro h
      simp at h
      rw [← h]
      rfl

theorem FileReader.run_closed (fetcher : SeekFetcher) (decode : Decoder) (fuel : Nat)
    (fr : FileReader) (h : fr.ci = closedIndex) (ops : List Op) :
    fr.run fetcher decode (fuel + 1) ops = .ret (fr, ops.map closedReply) := by
  induction ops with
  | nil => rfl
  | cons op ops ih =>
    cases op with
    | read L =>
      simp [FileReader.run, FileReader.step, FileReader.Read_closed _ _ _ _ _ h, ih, closedReply]
    | skip k =>
      simp [FileReader.run, FileReader.step, FileReader.Skip_closed _ _ h, ih, closedReply]
    | close =>
      simp [FileReader.run, FileReader.step, FileReader.Close_closed _ h, ih, closedReply]

/-- C10: after a successful `Close` the reader is closed, and in every later sequence
of `Read`, `Skip` and `Close` calls every `Read` returns no bytes and `errClosed`,
every `Close` returns `errClosed`, every `Skip` skips 0 bytes, and the reader stays
as `Close` left it (nothing reopens it). -/
theorem FileReader.closed_forever (fetcher : SeekFetcher) (decode : Decoder) (fuel : Nat)
    (fr fr1 : FileReader) (hclose : fr.Close = (fr1, none)) (ops : List Op) :
    fr1.ci = closedIndex ∧
      fr1.run fetcher decode (fuel + 1) ops = .ret (fr1, ops.map closedReply) :=
  ⟨FileReader.Close_ok_ci fr fr1 hclose,
    FileReader.run_closed fetcher decode fuel fr1 (FileReader.Close_ok_ci fr fr1 hclose) ops⟩

end schema

namespace schema

open blobref

theorem FileReader.currentPart_of_readable (ss : Superset) (ci : Int) (ccon : Nat) (remain : Int)
    (cr : Option ReadSeekCloser) (crbr : Option Nat) (csubfr : Option FileReader)
    (ccp : Option Nat) (cp : ContentPart)
    (hcp : ss.ContentParts.get? ci.toNat = some cp) (hne : u64 (cp.Size - ccon) ≠ 0) :
    (FileReader.mk ss ci ccon remain cr crbr csubfr ccp).currentPart =
      (FileReader.mk ss ci ccon remain cr crbr csubfr ccp, .ok cp) := by
  obtain ⟨tl, htl⟩ : ∃ tl, ss.ContentParts.drop ci.toNat = cp :: tl := by
    refine ⟨ss.ContentParts.drop (ci.toNat + 1), ?_⟩
    obtain ⟨hlt, hget⟩ := List.get?_eq_some.mp hcp
    rw [← hget]
    exact List.drop_eq_getElem_cons hlt
  simp [FileReader.currentPart, htl, FileReader.currentPartFrom, hne]

/-- C9: on an open reader whose current content part is not used up and has both
`blobRef` and `subFileBlobRef` set, `Read` returns no bytes and an error, whatever
the fetcher holds (none is consulted), and leaves the reader, so `ccon`, `remain`
and the cached readers, as it was. -/
theorem FileReader.Read_bothRefs (fetcher : SeekFetcher) (decode : Decoder) (fuel L : Nat)
    (fr : FileReader) (cp : ContentPart) (hopen : 0 ≤ fr.ci)
    (hcp : fr.ss.ContentParts.get? fr.ci.toNat = some cp)
    (hne : u64 (cp.Size - fr.ccon) ≠ 0)
    (hbr : cp.BlobRef.isSome) (hsbr : cp.SubBlobRef.isSome) :
    fr.Read fetcher decode (fuel + 1) L =
        .ret ⟨fr, [], some (if cp.Size = 0 then Error.illegalSize0 else Error.bothRefs fr.ci)⟩ ∧
      fr.Read fetcher decode (fuel + 1) L = fr.Read (fun _ => none) decode (fuel + 1) L := by
  obtain ⟨ss, ci, ccon, remain, cr, crbr, csubfr, ccp⟩ := fr
  simp only [FileReader.ci, FileReader.ss, FileReader.ccon] at hopen hcp hne ⊢
  have hnc : ci ≠ closedIndex := by
    simp only [closedIndex]; omega
  have hn0 : ¬ ci < 0 := by omega
  have hcur := FileReader.currentPart_of_readable ss ci ccon remain cr crbr csubfr ccp cp hcp hne
  by_cases hz : cp.Size = 0
  · simp [FileReader.Read, FileReader.ci, hnc, hn0, hcur, hz]
  · simp [FileReader.Read, FileReader.ci, hnc, hn0, hcur, hz, hbr, hsbr]

end schema

namespace schema

open blobref

theorem FileReader.sameCursor_refl (a : FileReader) : a.sameCursor a := ⟨rfl, rfl, rfl, rfl⟩

theorem FileReader.sameCursor_trans {a b c : FileReader} (h1 : a.sameCursor b)
    (h2 : b.sameCursor c) : a.sameCursor c :=
  ⟨h1.1.trans h2.1, h1.2.1.trans h2.2.1, h1.2.2.1.trans h2.2.2.1, h1.2.2.2.trans h2.2.2.2⟩

theorem FileReader.sameCursor_closeOpenBlobs (a : FileReader) : a.closeOpenBlobs.sameCursor a := by
  obtain ⟨ss, ci, ccon, remain, cr, crbr, csubfr, ccp⟩ := a
  cases cr <;> exact ⟨rfl, rfl, rfl, rfl⟩

theorem FileReader.sameCursor_setCr (a : FileReader) (cr : Option ReadSeekCloser) :
    (a.setCr cr).sameCursor a := by
  obtain ⟨ss, ci, ccon, remain, cr0, crbr, csubfr, ccp⟩ := a
  exact ⟨rfl, rfl, rfl, rfl⟩

theorem FileReader.sameCursor_setCsubfr (a : FileReader) (s : Option FileReader)
    (p : Option Nat) : (a.setCsubfr s p).sameCursor a := by
  obtain ⟨ss, ci, ccon, remain, cr0, crbr, csubfr, ccp⟩ := a
  exact ⟨rfl, rfl, rfl, rfl⟩

theorem FileReader.sameCursor_readerFor (fetcher : SeekFetcher) (a : FileReader)
    (br : Option BlobRef) (addr : Option Nat) (seekTo : Int) :
    (FileReader.readerFor fetcher a br addr seekTo).1.sameCursor a := by
  unfold FileReader.readerFor
  split
  · exact FileReader.sameCursor_refl a
  · have h := FileReader.sameCursor_closeOpenBlobs a
    revert h
    cases a.closeOpenBlobs with
    | mk ss ci ccon remain cr crbr csubfr ccp =>
      intro h
      cases br with
      | none => exact ⟨h.1, h.2.1, h.2.2.1, h.2.2.2⟩
      | some b =>
        simp only
        cases fetcher b with
        | none => exact ⟨h.1, h.2.1, h.2.2.1, h.2.2.2⟩
        | some data =>
          simp only
          cases (ReadSeekCloser.blob data 0).Seek seekTo with
          | error e => exact ⟨h.1, h.2.1, h.2.2.1, h.2.2.2⟩
          | ok rsc => exact ⟨h.1, h.2.1, h.2.2.1, h.2.2.2⟩

theorem FileReader.sameCursor_subBlobRefReader (fetcher : SeekFetcher) (decode : Decoder)
    (a : FileReader) (cp : ContentPart) (b : FileReader)
    (res : Except Error (Option FileReader))
    (h : FileReader.subBlobRefReader fetcher decode a cp = .ret (b, res)) :
    b.sameCursor a := by
  unfold FileReader.subBlobRefReader at h
  split at h
  · simp only [Outcome.ret.injEq, Prod.mk.injEq] at h
    rw [← h.1]; exact FileReader.sameCursor_refl a
  · split at h
    · simp only [Outcome.ret.injEq, Prod.mk.injEq] at h
      rw [← h.1]; exact FileReader.sameCursor_refl a
    · split at h
      · simp only [Outcome.ret.injEq, Prod.mk.injEq] at h
        rw [← h.1]; exact FileReader.sameCursor_refl a
      · split at h
        · simp only [Outcome.ret.injEq, Prod.mk.injEq] at h
          rw [← h.1]; exact FileReader.sameCursor_setCsubfr a _ _
        · simp at h
        · simp at h

theorem FileReader.finishRead_data (fr : FileReader) (data : List Byte) (err : Option Error) :
    (fr.finishRead data err).data = data := by
  obtain ⟨ss, ci, ccon, remain, cr0, crbr, csubfr, ccp⟩ := fr
  rfl

theorem FileReader.readLen_le (cp : ContentPart) (ccon L : Nat) :
    FileReader.readLen cp ccon L ≤ L := by
  unfold FileReader.readLen
  split <;> omega

theorem FileReader.readLen_le_size (cp : ContentPart) (ccon L : Nat) :
    FileReader.readLen cp ccon L ≤ u64 (cp.Size - ccon) := by
  unfold FileReader.readLen
  split <;> omega

theorem ReadSeekCloser.Read_length_le (r : ReadSeekCloser) (L : Nat) :
    (r.Read L).2.1.length ≤ L := by
  cases r with
  | blob data pos =>
    simp only [ReadSeekCloser.Read]
    split
    · simp
    · simp only [List.length_take]; exact Nat.min_le_left _ _
  | zeroReader => simp only [ReadSeekCloser.Read, List.length_replicate]; exact le_refl _

/-- The shape of a `Read` that returns: either no bytes and an error, with the cursor
where `currentPart` left it, or the bytes of the underlying reader, at most as many
as the buffer and as the current part has left, accounted for by `finishRead`. -/
theorem FileReader.Read_shape (fetcher : SeekFetcher) (decode : Decoder) :
    ∀ (fuel : Nat) (fr : FileReader) (L : Nat) (r : ReadRet), 0 ≤ fr.ci →
      fr.Read fetcher decode fuel L = .ret r →
      (∃ e, r.data = [] ∧ r.err = some e ∧ r.fr.sameCursor fr.currentPart.1) ∨
      (∃ (cp : ContentPart) (fr2 : FileReader) (data : List Byte) (err : Option Error),
        fr.currentPart.2 = .ok cp ∧ cp.Size ≠ 0 ∧
        fr2.sameCursor fr.currentPart.1 ∧
        data.length ≤ FileReader.readLen cp fr2.ccon L ∧ r = fr2.finishRead data err)
  | 0, fr, L, r, _, h => by simp [FileReader.Read] at h
  | fuel + 1, fr, L, r, hopen, h => by
    unfold FileReader.Read at h
    have hnc : fr.ci ≠ closedIndex := by simp only [closedIndex]; omega
    have hn0 : ¬ fr.ci < 0 := by omega
    simp only [hnc, hn0, if_false] at h
    revert h
    cases hcur : fr.currentPart with
    | mk fr1 res =>
      cases res with
      | error e =>
        intro h
        simp only [Outcome.ret.injEq] at h
        subst h
        exact Or.inl ⟨e, rfl, rfl, FileReader.sameCursor_refl _⟩
      | ok cp =>
        simp only
        intro h
        split at h
        · simp only [Outcome.ret.injEq] at h
          subst h
          exact Or.inl ⟨_, rfl, rfl, FileReader.sameCursor_refl _⟩
        · rename_i hsz
          split at h
          · simp only [Outcome.ret.injEq] at h
            subst h
            exact Or.inl ⟨_, rfl, rfl, FileReader.sameCursor_refl _⟩
          · split at h
            · -- sub-file part
              revert h
              cases hsub : FileReader.subBlobRefReader fetcher decode fr1 cp with
              | panicked => simp
              | outOfFuel => simp
              | ret p =>
                obtain ⟨fr2, rsub⟩ := p
                have hsc := FileReader.sameCursor_subBlobRefReader fetcher decode fr1 cp fr2 rsub hsub
                cases rsub with
                | error e =>
                  intro h
                  simp only [Outcome.ret.injEq] at h
                  subst h
                  exact Or.inl ⟨_, rfl, rfl, hsc⟩
                | ok osub =>
                  cases osub with
                  | none => simp
                  | some subfr =>
                    simp only
                    cases hrd : FileReader.Read fetcher decode fuel subfr
                        (FileReader.readLen cp fr2.ccon L) with
                    | panicked => simp
                    | outOfFuel => simp
                    | ret rr =>
                      obtain ⟨subfr1, data, err⟩ := rr
                      intro h
                      simp only [Outcome.ret.injEq] at h
                      subst h
                      have hlen : data.length ≤ FileReader.readLen cp fr2.ccon L := by
                        by_cases hso : 0 ≤ subfr.ci
                        · rcases FileReader.Read_shape fetcher decode fuel subfr _ _ hso hrd with
                            ⟨e, hd, _, _⟩ | ⟨cp', fr', data', err', _, _, _, hl, hr⟩
                          · simp only at hd; simp [hd]
                          · have hd : data = data' := by
                              have := congrArg ReadRet.data hr
                              simpa [FileReader.finishRead_data] using this
                            rw [hd]
                            exact le_trans hl (FileReader.readLen_le _ _ _)
                        · cases fuel with
                          | zero => simp [FileReader.Read] at hrd
                          | succ f =>
                            unfold FileReader.Read at hrd
                            by_cases hcl : subfr.ci = closedIndex
                            · simp only [hcl, if_true, Outcome.ret.injEq, ReadRet.mk.injEq] at hrd
                              simp [← hrd.2.1]
                            · have : subfr.ci < 0 := by omega
                              simp [hcl, this] at hrd
                      refine Or.inr ⟨cp, fr2.setCsubfr (some subfr1) fr2.ccp, data, err, rfl, hsz,
                        ?_, ?_, rfl⟩
                      · exact FileReader.sameCursor_trans (FileReader.sameCursor_setCsubfr _ _ _) hsc
                      · have : (fr2.setCsubfr (some subfr1) fr2.ccp).ccon = fr2.ccon :=
                          (FileReader.sameCursor_setCsubfr _ _ _).2.2.1
                        rw [this]; exact hlen
            · -- leaf part
              revert h
              have hsc := FileReader.sameCursor_readerFor fetcher fr1 cp.BlobRef
                (if cp.BlobRef.isSome then some fr1.ci.toNat else none)
                (i64 (u64 (cp.Offset + fr1.ccon)))
              revert hsc
              cases FileReader.readerFor fetcher fr1 cp.BlobRef
                (if cp.BlobRef.isSome then some fr1.ci.toNat else none)
                (i64 (u64 (cp.Offset + fr1.ccon))) with
              | mk fr2 res =>
                cases res with
                | error e =>
                  intro hsc h
                  simp only [Outcome.ret.injEq] at h
                  subst h
                  exact Or.inl ⟨_, rfl, rfl, hsc⟩
                | ok orr =>
                  cases orr with
                  | none => simp
                  | some rd =>
                    intro hsc h
                    simp only [Outcome.ret.injEq] at h
                    subst h
                    refine Or.inr ⟨cp, fr2.setCr (some (rd.Read (FileReader.readLen cp fr2.ccon L)).1),
                      (rd.Read (FileReader.readLen cp fr2.ccon L)).2.1,
                      (rd.Read (FileReader.readLen cp fr2.ccon L)).2.2, rfl, hsz, ?_, ?_, rfl⟩
                    · exact FileReader.sameCursor_trans (FileReader.sameCursor_setCr _ _) hsc
                    · have : (fr2.setCr (some (rd.Read (FileReader.readLen cp fr2.ccon L)).1)).ccon
                          = fr2.ccon := (FileReader.sameCursor_setCr _ _).2.2.1
                      rw [this]; exact ReadSeekCloser.Read_length_le _ _

end schema

namespace schema

open blobref

theorem i64_sub_i64 (a b : Int) : i64 (i64 a - i64 b) = i64 (a - b) := by
  unfold i64; omega

theorem i64_i64 (a : Int) : i64 (i64 a) = i64 a := by
  unfold i64; omega

theorem i64_of_range (a : Int) (h1 : -9223372036854775808 ≤ a) (h2 : a < 9223372036854775808) :
    i64 a = a := by
  unfold i64; omega

theorem u64_of_range (a : Int) (h1 : 0 ≤ a) (h2 : a < 18446744073709551616) :
    (u64 a : Int) = a := by
  unfold u64; omega

theorem u64_natCast (a : Nat) (h2 : a < 18446744073709551616) : u64 (a : Int) = a := by
  unfold u64; omega

theorem FileReader.currentPartFrom_ci_le (rest : List ContentPart) (ci : Int) (ccon : Nat) :
    ci ≤ (FileReader.currentPartFrom rest ci ccon).1 := by
  induction rest generalizing ci ccon with
  | nil => simp [FileReader.currentPartFrom]
  | cons cp tl ih =>
    simp only [FileReader.currentPartFrom]
    split
    · have := ih (ci + 1) 0; omega
    · simp

theorem FileReader.currentPart_facts (fr : FileReader) :
    fr.currentPart.1.ss = fr.ss ∧ fr.currentPart.1.remain = fr.remain ∧
      fr.ci ≤ fr.currentPart.1.ci := by
  obtain ⟨ss, ci, ccon, remain, cr, crbr, csubfr, ccp⟩ := fr
  have hle := FileReader.currentPartFrom_ci_le (ss.ContentParts.drop ci.toNat) ci ccon
  simp only [FileReader.currentPart]
  revert hle
  cases FileReader.currentPartFrom (ss.ContentParts.drop ci.toNat) ci ccon with
  | mk ci1 rest =>
    obtain ⟨ccon1, ocp⟩ := rest
    intro hle
    cases ocp with
    | some cp => exact ⟨rfl, rfl, hle⟩
    | none =>
      have h := FileReader.sameCursor_closeOpenBlobs
        (FileReader.mk ss ci1 ccon1 remain cr crbr csubfr ccp)
      exact ⟨h.1, h.2.2.2, by rw [h.2.1]; exact hle⟩

theorem FileReader.finishRead_facts (fr : FileReader) (data : List Byte) (err : Option Error) :
    (fr.finishRead data err).fr.ss = fr.ss ∧ (fr.finishRead data err).fr.ci = fr.ci ∧
      (fr.finishRead data err).fr.ccon = u64 (fr.ccon + data.length) ∧
      (fr.finishRead data err).fr.remain = i64 (fr.remain - i64 data.length) ∧
      (fr.finishRead data err).err =
        if i64 (fr.remain - i64 data.length) < 0 then some Error.overDeclared else err := by
  obtain ⟨ss, ci, ccon, remain, cr0, crbr, csubfr, ccp⟩ := fr
  exact ⟨rfl, rfl, rfl, rfl, rfl⟩

theorem FileReader.Tracks_new (ss : Superset) : FileReader.Tracks ss ss.NewFileReader 0 := by
  refine ⟨rfl, le_refl _, ?_⟩
  show i64 (ss.Size : Int) = i64 ((ss.Size : Int) - ((0 : Nat) : Int))
  rw [Nat.cast_zero, sub_zero]

theorem FileReader.Tracks_Read (fetcher : SeekFetcher) (decode : Decoder) (fuel L : Nat)
    (ss : Superset) (fr : FileReader) (T : Nat) (r : ReadRet)
    (ht : FileReader.Tracks ss fr T) (h : fr.Read fetcher decode fuel L = .ret r) :
    FileReader.Tracks ss r.fr (T + r.data.length) := by
  obtain ⟨hss, hci, hrem⟩ := ht
  have hcp := FileReader.currentPart_facts fr
  rcases FileReader.Read_shape fetcher decode fuel fr L r hci h with
    ⟨e, hd, _, hsc⟩ | ⟨cp, fr2, data, err, _, _, hsc, _, hr⟩
  · refine ⟨by rw [hsc.1, hcp.1, hss], by rw [hsc.2.1]; omega, ?_⟩
    rw [hsc.2.2.2, hcp.2.1, hrem, hd]
    simp
  · have hf := FileReader.finishRead_facts fr2 data err
    subst hr
    refine ⟨by rw [hf.1, hsc.1, hcp.1, hss], by rw [hf.2.1, hsc.2.1]; omega, ?_⟩
    rw [hf.2.2.2.1, hsc.2.2.2, hcp.2.1, hrem, FileReader.finishRead_data, i64_sub_i64]
    congr 1
    push_cast
    ring

theorem FileReader.run_reads_cons (fetcher : SeekFetcher) (decode : Decoder) (fuel : Nat)
    (fr fr2 : FileReader) (L : Nat) (Ls : List Nat) (replies : List Reply)
    (h : fr.run fetcher decode fuel ((L :: Ls).map Op.read) = .ret (fr2, replies)) :
    ∃ r rest, fr.Read fetcher decode fuel L = .ret r ∧
      r.fr.run fetcher decode fuel (Ls.map Op.read) = .ret (fr2, rest) ∧
      replies = .read r.data r.err :: rest := by
  simp only [List.map_cons, FileReader.run, FileReader.step] at h
  revert h
  cases hrd : fr.Read fetcher decode fuel L with
  | panicked => simp
  | outOfFuel => simp
  | ret r =>
    obtain ⟨fr1, data, err⟩ := r
    simp only
    cases hrun : fr1.run fetcher decode fuel (Ls.map Op.read) with
    | panicked => simp
    | outOfFuel => simp
    | ret p =>
      obtain ⟨fr3, rest⟩ := p
      intro h
      simp only [Outcome.ret.injEq, Prod.mk.injEq] at h
      exact ⟨⟨fr1, data, err⟩, rest, rfl, by rw [hrun, h.1], h.2.symm⟩

theorem FileReader.Tracks_run (fetcher : SeekFetcher) (decode : Decoder) (fuel : Nat)
    (ss : Superset) (Ls : List Nat) :
    ∀ (fr : FileReader) (T : Nat) (fr2 : FileReader) (replies : List Reply),
      FileReader.Tracks ss fr T →
      fr.run fetcher decode fuel (Ls.map Op.read) = .ret (fr2, replies) →
      FileReader.Tracks ss fr2 (T + bytesReturned replies) := by
  induction Ls with
  | nil =>
    intro fr T fr2 replies ht h
    simp only [List.map_nil, FileReader.run, Outcome.ret.injEq, Prod.mk.injEq] at h
    rw [← h.1, ← h.2]
    simpa [bytesReturned] using ht
  | cons L Ls ih =>
    intro fr T fr2 replies ht h
    obtain ⟨r, rest, hrd, hrun, hrep⟩ := FileReader.run_reads_cons fetcher decode fuel fr fr2 L Ls replies h
    have h1 := FileReader.Tracks_Read fetcher decode fuel L ss fr T r ht hrd
    have h2 := ih r.fr _ fr2 rest h1 hrun
    rw [hrep]
    simpa [bytesReturned, Nat.add_assoc] using h2

/-- C7: start from a fresh reader for any file schema and make any sequence of `Read`
calls; if the bytes returned so far do not exceed the declared size and the next
`Read` (with a buffer shorter than 2^63, as every Go slice is) brings the total above
the declared size, that `Read` returns the error "content parts sum to over declared
size". -/
theorem FileReader.Read_overDeclared (fetcher : SeekFetcher) (decode : Decoder)
    (fuel fuel1 : Nat) (ss : Superset) (Ls : List Nat) (fr : FileReader)
    (replies : List Reply) (L : Nat) (r : ReadRet)
    (hrun : ss.NewFileReader.run fetcher decode fuel (Ls.map Op.read) = .ret (fr, replies))
    (hL : L < 9223372036854775808)
    (hread : fr.Read fetcher decode fuel1 L = .ret r)
    (hbefore : bytesReturned replies ≤ ss.Size)
    (hafter : ss.Size < bytesReturned replies + r.data.length) :
    r.err = some Error.overDeclared := by
  have ht := FileReader.Tracks_run fetcher decode fuel ss Ls _ 0 fr replies
    (FileReader.Tracks_new ss) hrun
  rw [Nat.zero_add] at ht
  obtain ⟨hss, hci, hrem⟩ := ht
  have hcp := FileReader.currentPart_facts fr
  rcases FileReader.Read_shape fetcher decode fuel1 fr L r hci hread with
    ⟨e, hd, _, hsc⟩ | ⟨cp, fr2, data, err, _, _, hsc, hlen, hr⟩
  · rw [hd] at hafter; simp at hafter; omega
  · have hf := FileReader.finishRead_facts fr2 data err
    subst hr
    rw [FileReader.finishRead_data] at hafter
    have hlenL : data.length ≤ L := le_trans hlen (FileReader.readLen_le _ _ _)
    have hneg : i64 (fr2.remain - i64 (data.length : Int)) < 0 := by
      rw [hsc.2.2.2, hcp.2.1, hrem, i64_sub_i64]
      unfold i64; omega
    rw [hf.2.2.2.2, if_pos hneg]

end schema

namespace schema

open blobref

theorem sumSizes_nil : sumSizes [] = 0 := rfl

theorem sumSizes_cons (cp : ContentPart) (tl : List ContentPart) :
    sumSizes (cp :: tl) = cp.Size + sumSizes tl := by
  simp [sumSizes]

theorem FileReader.currentPartFrom_spec (rest : List ContentPart) :
    ∀ (ci : Int) (ccon : Nat), (∀ cp ∈ rest, cp.Size < 18446744073709551616) →
      (∀ cp tl, rest = cp :: tl → ccon ≤ cp.Size) → (rest = [] → ccon = 0) →
      ∃ (k : Nat) (ccon1 : Nat) (r : Option ContentPart),
        FileReader.currentPartFrom rest ci ccon = (ci + k, ccon1, r) ∧
        sumSizes (rest.drop k) + ccon = sumSizes rest + ccon1 ∧
        (r = none → rest.drop k = [] ∧ ccon1 = 0) ∧
        (∀ cp, r = some cp → ∃ tl, rest.drop k = cp :: tl ∧ ccon1 < cp.Size) := by
  induction rest with
  | nil =>
    intro ci ccon _ _ h0
    exact ⟨0, 0, none, by simp [FileReader.currentPartFrom, h0 rfl], by simp [h0 rfl],
      fun _ => ⟨rfl, rfl⟩, fun cp h => by simp at h⟩
  | cons cp tl ih =>
    intro ci ccon hty hle _
    have hc : ccon ≤ cp.Size := hle cp tl rfl
    have hs : cp.Size < 18446744073709551616 := hty cp (List.mem_cons_self _ _)
    by_cases hz : u64 ((cp.Size : Int) - ccon) = 0
    · have heq : ccon = cp.Size := by
        unfold u64 at hz; omega
      obtain ⟨k, ccon1, r, h1, h2, h3, h4⟩ := ih (ci + 1) 0
        (fun c hc' => hty c (List.mem_cons_of_mem _ hc'))
        (fun _ _ _ => Nat.zero_le _) (fun _ => rfl)
      refine ⟨k + 1, ccon1, r, ?_, ?_, ?_, ?_⟩
      · simp only [FileReader.currentPartFrom, hz, if_true, h1]
        congr 1
        push_cast; ring
      · simp only [List.drop_succ_cons, sumSizes_cons]
        omega
      · simpa using h3
      · simpa using h4
    · refine ⟨0, ccon, some cp, ?_, by simp, by simp, ?_⟩
      · simp [FileReader.currentPartFrom, hz]
      · intro cp' h
        simp only [Option.some.injEq] at h
        subst h
        refine ⟨tl, rfl, ?_⟩
        have : ccon ≠ cp.Size := by
          intro h; apply hz; rw [h]; simp [u64]
        omega

theorem FileReader.Pos_of_sameCursor {a b : FileReader} {T : Nat} (h : a.sameCursor b)
    (hp : b.Pos T) : a.Pos T := by
  unfold FileReader.Pos at *
  rw [h.1, h.2.1, h.2.2.1]
  exact hp

theorem FileReader.Pos_new (ss : Superset) : ss.NewFileReader.Pos 0 := by
  refine ⟨by simp [Superset.NewFileReader, FileReader.ci], ?_, ?_, ?_⟩ <;>
    simp [Superset.NewFileReader, FileReader.ci, FileReader.ss, FileReader.ccon]

/-- What `currentPart` does to a reader whose cursor is in place: the position is
kept; it returns a part that is not used up, or the end-of-parts error. -/
theorem FileReader.Pos_currentPart (fr : FileReader) (T : Nat)
    (hty : ∀ cp ∈ fr.ss.ContentParts, cp.Size < 18446744073709551616) (hp : fr.Pos T) :
    fr.currentPart.1.Pos T ∧
    (∀ cp, fr.currentPart.2 = .ok cp →
      ∃ tl, fr.ss.ContentParts.drop fr.currentPart.1.ci.toNat = cp :: tl ∧
        fr.currentPart.1.ccon < cp.Size) ∧
    (∀ e, fr.currentPart.2 = .error e →
      e = (if fr.remain > 0 then Error.declaredLarger else Error.EOF) ∧
      T = sumSizes fr.ss.ContentParts) ∧
    (T = sumSizes fr.ss.ContentParts → ∃ e, fr.currentPart.2 = .error e) := by
  obtain ⟨ss, ci, ccon, remain, cr, crbr, csubfr, ccp⟩ := fr
  obtain ⟨hci, hsum, hle, h0⟩ := hp
  simp only [FileReader.ss, FileReader.ci, FileReader.ccon, FileReader.remain] at *
  obtain ⟨k, ccon1, r, h1, h2, h3, h4⟩ := FileReader.currentPartFrom_spec
    (ss.ContentParts.drop ci.toNat) ci ccon
    (fun c hc => hty c (List.mem_of_mem_drop hc)) hle h0
  have hdrop : ss.ContentParts.drop (ci + (k : Int)).toNat =
      (ss.ContentParts.drop ci.toNat).drop k := by
    rw [List.drop_drop]
    congr 1
    omega
  simp only [FileReader.currentPart, h1]
  cases r with
  | some cp =>
    obtain ⟨tl, htl, hlt⟩ := h4 cp rfl
    simp only [FileReader.Pos, FileReader.ss, FileReader.ci, FileReader.ccon]
    refine ⟨⟨by omega, ?_, ?_, ?_⟩, ?_, ?_, ?_⟩
    · rw [hdrop]; omega
    · intro cp' tl' h
      rw [hdrop, htl] at h
      simp only [List.cons.injEq] at h
      rw [← h.1]; omega
    · intro h
      rw [hdrop, htl] at h
      simp at h
    · intro cp' h
      simp only [Except.ok.injEq] at h
      subst h
      exact ⟨tl, by rw [hdrop, htl], hlt⟩
    · intro e h
      simp at h
    · intro hT
      exfalso
      rw [htl, sumSizes_cons] at h2
      omega
  | none =>
    obtain ⟨hnil, hc0⟩ := h3 rfl
    have hsc := FileReader.sameCursor_closeOpenBlobs
      (FileReader.mk ss (ci + k) ccon1 remain cr crbr csubfr ccp)
    refine ⟨?_, ?_, ?_, ?_⟩
    · apply FileReader.Pos_of_sameCursor hsc
      simp only [FileReader.Pos, FileReader.ss, FileReader.ci, FileReader.ccon]
      refine ⟨by omega, ?_, ?_, ?_⟩
      · rw [hdrop]; omega
      · intro cp' tl' h
        rw [hdrop, hnil] at h
        simp at h
      · intro _; exact hc0
    · intro cp h
      simp at h
    · intro e h
      simp only [Except.error.injEq] at h
      refine ⟨h.symm, ?_⟩
      rw [hnil, sumSizes_nil] at h2
      omega
    · intro _
      exact ⟨_, rfl⟩

theorem FileReader.Pos_Read (fetcher : SeekFetcher) (decode : Decoder) (fuel L : Nat)
    (fr : FileReader) (T : Nat) (r : ReadRet)
    (hty : ∀ cp ∈ fr.ss.ContentParts, cp.Size < 18446744073709551616) (hp : fr.Pos T)
    (h : fr.Read fetcher decode fuel L = .ret r) :
    r.fr.Pos (T + r.data.length) := by
  obtain ⟨hp1, hok, _, _⟩ := FileReader.Pos_currentPart fr T hty hp
  have hcf := FileReader.currentPart_facts fr
  rcases FileReader.Read_shape fetcher decode fuel fr L r hp.1 h with
    ⟨e, hd, _, hsc⟩ | ⟨cp, fr2, data, err, hcur, _, hsc, hlen, hr⟩
  · rw [hd]
    exact FileReader.Pos_of_sameCursor hsc hp1
  · obtain ⟨tl, htl, hlt⟩ := hok cp hcur
    have hf := FileReader.finishRead_facts fr2 data err
    subst hr
    rw [FileReader.finishRead_data]
    have hsz : cp.Size < 18446744073709551616 := by
      apply hty
      have : cp ∈ fr.ss.ContentParts.drop fr.currentPart.1.ci.toNat := by
        rw [htl]; exact List.mem_cons_self _ _
      exact List.mem_of_mem_drop this
    have hl2 : data.length ≤ u64 ((cp.Size : Int) - fr2.ccon) :=
      le_trans hlen (FileReader.readLen_le_size _ _ _)
    rw [hsc.2.2.1] at hl2
    have hl3 : data.length + fr.currentPart.1.ccon ≤ cp.Size := by
      unfold u64 at hl2; omega
    have hcc : u64 ((fr2.ccon : Int) + data.length) = fr.currentPart.1.ccon + data.length := by
      rw [hsc.2.2.1]
      unfold u64; omega
    obtain ⟨hq1, hq2, hq3, hq4⟩ := hp1
    rw [hcf.1] at hq2 hq3 hq4
    refine ⟨by rw [hf.2.1, hsc.2.1]; exact hq1, ?_, ?_, ?_⟩
    · rw [hf.1, hf.2.1, hf.2.2.1, hsc.1, hsc.2.1, hcc, hcf.1]
      omega
    · intro cp' tl' h'
      rw [hf.1, hf.2.1, hsc.1, hsc.2.1, hcf.1, htl] at h'
      simp only [List.cons.injEq] at h'
      rw [hf.2.2.1, hcc, ← h'.1]
      omega
    · intro h'
      rw [hf.1, hf.2.1, hsc.1, hsc.2.1, hcf.1, htl] at h'
      simp at h'

theorem FileReader.Read_ss (fetcher : SeekFetcher) (decode : Decoder) (fuel L : Nat)
    (fr : FileReader) (r : ReadRet) (hci : 0 ≤ fr.ci)
    (h : fr.Read fetcher decode fuel L = .ret r) : r.fr.ss = fr.ss := by
  have hcp := FileReader.currentPart_facts fr
  rcases FileReader.Read_shape fetcher decode fuel fr L r hci h with
    ⟨e, hd, _, hsc⟩ | ⟨cp, fr2, data, err, _, _, hsc, _, hr⟩
  · rw [hsc.1, hcp.1]
  · subst hr
    rw [(FileReader.finishRead_facts fr2 data err).1, hsc.1, hcp.1]

theorem FileReader.Pos_run (fetcher : SeekFetcher) (decode : Decoder) (fuel : Nat)
    (ss : Superset) (hty : ∀ cp ∈ ss.ContentParts, cp.Size < 18446744073709551616)
    (Ls : List Nat) :
    ∀ (fr : FileReader) (T : Nat) (fr2 : FileReader) (replies : List Reply),
      fr.ss = ss → fr.Pos T →
      fr.run fetcher decode fuel (Ls.map Op.read) = .ret (fr2, replies) →
      fr2.ss = ss ∧ fr2.Pos (T + bytesReturned replies) := by
  induction Ls with
  | nil =>
    intro fr T fr2 replies hss hp h
    simp only [List.map_nil, FileReader.run, Outcome.ret.injEq, Prod.mk.injEq] at h
    rw [← h.1, ← h.2]
    exact ⟨hss, by simpa [bytesReturned] using hp⟩
  | cons L Ls ih =>
    intro fr T fr2 replies hss hp h
    obtain ⟨r, rest, hrd, hrun, hrep⟩ :=
      FileReader.run_reads_cons fetcher decode fuel fr fr2 L Ls replies h
    have h1 := FileReader.Pos_Read fetcher decode fuel L fr T r (by rw [hss]; exact hty) hp hrd
    have hss1 : r.fr.ss = ss := FileReader.Read_ss fetcher decode fuel L fr r hp.1 hrd ▸ hss
    have h2 := ih r.fr _ fr2 rest hss1 h1 hrun
    rw [hrep]
    simpa [bytesReturned, Nat.add_assoc] using h2

end schema

namespace schema

open blobref

theorem FileReader.Read_of_currentPart_error (fetcher : SeekFetcher) (decode : Decoder)
    (fuel L : Nat) (fr : FileReader) (e : Error) (hci : 0 ≤ fr.ci)
    (h : fr.currentPart.2 = .error e) :
    fr.Read fetcher decode (fuel + 1) L = .ret ⟨fr.currentPart.1, [], some e⟩ := by
  have hnc : fr.ci ≠ closedIndex := by simp only [closedIndex]; omega
  have hn0 : ¬ fr.ci < 0 := by omega
  unfold FileReader.Read
  simp only [hnc, hn0, if_false]
  revert h
  cases fr.currentPart with
  | mk fr1 res =>
    intro h
    simp only at h
    subst h
    rfl

/-- C6, as amended: start from a fresh reader for a file schema with `uint64` sizes
and make any sequence of `Read` calls that returns as many bytes as the content parts
hold.  The next `Read` returns no bytes and an error: the error "declared file schema
size was larger than sum of content parts" when the declared size exceeds the sum of
the parts by less than 2^63, and `os.EOF` when the declared size equals the sum. -/
theorem FileReader.Read_after_all_parts (fetcher : SeekFetcher) (decode : Decoder)
    (fuel fuel1 : Nat) (ss : Superset) (hty : ss.wellTyped) (Ls : List Nat)
    (fr : FileReader) (replies : List Reply) (L : Nat)
    (hrun : ss.NewFileReader.run fetcher decode fuel (Ls.map Op.read) = .ret (fr, replies))
    (hall : bytesReturned replies = sumSizes ss.ContentParts) :
    ∃ fr1 e, fr.Read fetcher decode (fuel1 + 1) L = .ret ⟨fr1, [], some e⟩ ∧
      (sumSizes ss.ContentParts < ss.Size →
        ss.Size < sumSizes ss.ContentParts + 9223372036854775808 →
        e = Error.declaredLarger) ∧
      (ss.Size = sumSizes ss.ContentParts → e = Error.EOF) := by
  have ht := FileReader.Tracks_run fetcher decode fuel ss Ls _ 0 fr replies
    (FileReader.Tracks_new ss) hrun
  have hp := FileReader.Pos_run fetcher decode fuel ss hty.2.1 Ls ss.NewFileReader 0 fr replies rfl
    (FileReader.Pos_new ss) hrun
  rw [Nat.zero_add, hall] at ht hp
  obtain ⟨hss, hci, hrem⟩ := ht
  obtain ⟨_, _, herr, hend⟩ := FileReader.Pos_currentPart fr _ (by rw [hss]; exact hty.2.1) hp.2
  obtain ⟨e, he⟩ := hend (by rw [hss])
  obtain ⟨heq, _⟩ := herr e he
  refine ⟨_, e, FileReader.Read_of_currentPart_error fetcher decode fuel1 L fr e hci he, ?_, ?_⟩
  · intro h1 h2
    have hpos : fr.remain > 0 := by
      rw [hrem]; unfold i64; omega
    rw [heq, if_pos hpos]
  · intro h1
    have hz : ¬ fr.remain > 0 := by
      rw [hrem]; unfold i64; omega
    rw [heq, if_neg hz]

end schema

namespace schema

open blobref

theorem FileReader.closed_forever_witness :
    exSubFile.NewFileReader.Close = (exClosed, none) ∧
      (exClosed.ci = closedIndex ∧
        exClosed.run exFetcher exDecoder 1 [Op.read 4, Op.skip 2, Op.close, Op.read 1] =
          .ret (exClosed, [Op.read 4, Op.skip 2, Op.close, Op.read 1].map closedReply)) :=
  ⟨by with_unfolding_all rfl,
    FileReader.closed_forever exFetcher exDecoder 0 exSubFile.NewFileReader exClosed
      (by with_unfolding_all rfl) _⟩

theorem FileReader.Read_bothRefs_witness :
    (0 ≤ exBoth.NewFileReader.ci ∧
      exBoth.NewFileReader.ss.ContentParts.get? exBoth.NewFileReader.ci.toNat =
        some ⟨some exRef1, some exRef2, 4, 0⟩ ∧
      u64 (((⟨some exRef1, some exRef2, 4, 0⟩ : ContentPart).Size : Int) - exBoth.NewFileReader.ccon) ≠ 0) ∧
    (exBoth.NewFileReader.Read exFetcher exDecoder 1 8 =
        .ret ⟨exBoth.NewFileReader, [],
          some (if (⟨some exRef1, some exRef2, 4, 0⟩ : ContentPart).Size = 0 then Error.illegalSize0
            else Error.bothRefs exBoth.NewFileReader.ci)⟩ ∧
      exBoth.NewFileReader.Read exFetcher exDecoder 1 8 =
        exBoth.NewFileReader.Read (fun _ => none) exDecoder 1 8) :=
  ⟨⟨by decide, by with_unfolding_all rfl, by with_unfolding_all decide⟩,
    FileReader.Read_bothRefs exFetcher exDecoder 0 8 exBoth.NewFileReader ⟨some exRef1, some exRef2, 4, 0⟩
      (by decide) (by with_unfolding_all rfl) (by with_unfolding_all decide) rfl rfl⟩

theorem FileReader.Read_overDeclared_witness :
    (exOver.NewFileReader.run exFetcher exDecoder 1 (([] : List Nat).map Op.read) =
        .ret (exOver.NewFileReader, []) ∧
      (4 : Nat) < 9223372036854775808 ∧
      exOver.NewFileReader.Read exFetcher exDecoder 1 4 = .ret exOverRet ∧
      bytesReturned [] ≤ exOver.Size ∧
      exOver.Size < bytesReturned [] + exOverRet.data.length) ∧
    exOverRet.err = some Error.overDeclared :=
  ⟨⟨rfl, by decide, by with_unfolding_all rfl, by decide, by decide⟩,
    FileReader.Read_overDeclared exFetcher exDecoder 1 1 exOver [] exOver.NewFileReader [] 4
      exOverRet rfl (by decide) (by with_unfolding_all rfl) (by decide) (by decide)⟩

theorem FileReader.Read_after_all_parts_witness :
    (exShort.wellTyped ∧
      exShort.NewFileReader.run exFetcher exDecoder 1 ([4].map Op.read) =
        .ret (exShortRead, [Reply.read [10, 20, 30, 40] none]) ∧
      bytesReturned [Reply.read [10, 20, 30, 40] none] = sumSizes exShort.ContentParts) ∧
    ∃ fr1 e, exShortRead.Read exFetcher exDecoder 1 4 = .ret ⟨fr1, [], some e⟩ ∧
      (sumSizes exShort.ContentParts < exShort.Size →
        exShort.Size < sumSizes exShort.ContentParts + 9223372036854775808 →
        e = Error.declaredLarger) ∧
      (exShort.Size = sumSizes exShort.ContentParts → e = Error.EOF) :=
  ⟨⟨⟨by decide, by decide, by decide⟩, by with_unfolding_all rfl, by decide⟩,
    FileReader.Read_after_all_parts exFetcher exDecoder 1 0 exShort ⟨by decide, by decide, by decide⟩ [4]
      exShortRead [Reply.read [10, 20, 30, 40] none] 4 (by with_unfolding_all rfl) (by decide)⟩

/-- C6, counterexample: `exHuge` declares 2^63 bytes and has no content part, so its
declared size is larger than the sum of its parts and all bytes of the parts have been
returned before the first `Read`; that `Read` signals `os.EOF` (`int64(ss.Size)` is
negative), not the size-mismatch error. -/
theorem FileReader.Read_huge_declared_is_EOF :
    sumSizes exHuge.ContentParts < exHuge.Size ∧
      bytesReturned [] = sumSizes exHuge.ContentParts ∧
      (exHuge.NewFileReader.Read exFetcher exDecoder 1 8).map ReadRet.reply =
        .ret ([], some Error.EOF) := by
  refine ⟨by decide, by decide, ?_⟩
  with_unfolding_all decide

/-- C8, the failing input: on a fresh reader whose first content part has neither
reference set, `readerFor` finds `fr.crbr == br` (both nil) and returns the nil
`fr.cr`, so `Read` panics on a nil reader instead of returning zero bytes. -/
theorem FileReader.Read_sparse_fresh_panics :
    (exSparse.NewFileReader.Read exFetcher exDecoder 1 5).map ReadRet.reply = .panicked := by
  with_unfolding_all decide

/-- C3, the failing input: a full read of `exSubFile` yields `[10, 20, 30, 40]`, but
`Skip(2)` on a fresh reader followed by a read to the end yields `[10, 20]`, not
`[30, 40]`: `subBlobRefReader` skips the new sub-file reader by `cp.Offset` only and
ignores `fr.ccon`, where the leaf path seeks to `cp.Offset + fr.ccon`. -/
theorem FileReader.Skip_into_subfile_rereads_start :
    readToEOF exFetcher exDecoder 2 8 3 exSubFile.NewFileReader =
        .ret ([10, 20, 30, 40], none) ∧
      skipThenRead exFetcher exDecoder 2 8 3 exSubFile.NewFileReader 2 =
        .ret (2, [10, 20], none) := by
  constructor <;> with_unfolding_all decide

end schema

namespace schema

open blobref

theorem i64_sub_left (a b : Int) : i64 (i64 a - b) = i64 (a - b) := by
  unfold i64; omega

theorem i64_sub_right (a b : Int) : i64 (a - i64 b) = i64 (a - b) := by
  unfold i64; omega

theorem FileReader.SkipLoop_zero (fuel : Nat) (fr : FileReader) :
    FileReader.SkipLoop (fuel + 1) fr 0 = .ret (fr, 0) := by
  obtain ⟨ss, ci, ccon, remain, cr, crbr, csubfr, ccp⟩ := fr
  simp [FileReader.SkipLoop]

theorem List.drop_eq_cons_of_get? {α : Type} (l : List α) (n : Nat) (a : α)
    (h : l.get? n = some a) : l.drop n = a :: l.drop (n + 1) := by
  obtain ⟨hlt, hget⟩ := List.get?_eq_some.mp h
  rw [← hget]
  exact List.drop_eq_getElem_cons hlt

/-- What the loop of `Skip` does from a reader whose cursor is in place at byte `T`:
it stops with `rest` bytes unskipped, having skipped `min k (total - T)` bytes. -/
theorem FileReader.SkipLoop_spec :
    ∀ (fuel : Nat) (ss : Superset) (ci : Int) (ccon : Nat) (remain : Int)
      (cr : Option ReadSeekCloser) (crbr : Option Nat) (csubfr : Option FileReader)
      (ccp : Option Nat) (k T : Nat),
      (∀ cp ∈ ss.ContentParts, cp.Size < 18446744073709551616) →
      k < 18446744073709551616 →
      (FileReader.mk ss ci ccon remain cr crbr csubfr ccp).Pos T →
      (ss.ContentParts.drop ci.toNat).length + 2 ≤ fuel →
      ∃ (ci1 : Int) (ccon1 : Nat) (remain1 : Int) (rest : Nat),
        FileReader.SkipLoop fuel (FileReader.mk ss ci ccon remain cr crbr csubfr ccp) k =
          .ret (FileReader.mk ss ci1 ccon1 remain1 cr crbr csubfr ccp, rest) ∧
        rest ≤ k ∧ k - rest = min k (sumSizes ss.ContentParts - T) ∧
        (FileReader.mk ss ci1 ccon1 remain1 cr crbr csubfr ccp).Pos (T + (k - rest)) ∧
        i64 remain1 = i64 (remain - ((k - rest : Nat) : Int)) ∧
        (ci ≤ ci1) ∧ (remain1 = remain ∨ i64 remain1 = remain1) := by
  intro fuel
  induction fuel with
  | zero => intro ss ci ccon remain cr crbr csubfr ccp k T _ _ _ hf; omega
  | succ fuel ih =>
    intro ss ci ccon remain cr crbr csubfr ccp k T hty hk hp hf
    have hp' := hp
    obtain ⟨hci, hsum, hle, h0⟩ := hp
    simp only [FileReader.ss, FileReader.ci, FileReader.ccon] at hci hsum hle h0
    by_cases hk0 : k = 0
    · subst hk0
      exact ⟨ci, ccon, remain, 0, FileReader.SkipLoop_zero _ _, le_refl _, by simp,
        by simpa using hp', by simp, le_refl _, Or.inl rfl⟩
    · by_cases hlen : ci < ss.ContentParts.length
      · have hlt : ci.toNat < ss.ContentParts.length := by omega
        obtain ⟨cp, hcp⟩ : ∃ cp, ss.ContentParts.get? ci.toNat = some cp :=
          ⟨_, List.get?_eq_get hlt⟩
        have hdrop := List.drop_eq_cons_of_get? _ _ _ hcp
        have hc : ccon ≤ cp.Size := hle cp _ hdrop
        have hs : cp.Size < 18446744073709551616 := by
          apply hty
          apply List.mem_of_mem_drop (n := ci.toNat)
          rw [hdrop]; exact List.mem_cons_self _ _
        have hsk : u64 ((cp.Size : Int) - ccon) = cp.Size - ccon := by
          unfold u64; omega
        have hn0 : ¬ ci < 0 := by omega
        rw [hdrop, sumSizes_cons] at hsum
        rw [hdrop] at hf
        simp only [List.length_cons] at hf
        by_cases hfull : cp.Size - ccon ≤ k
        · -- the rest of the part is skipped and the cursor moves on
          have hmin : minu64 k (cp.Size - ccon) = cp.Size - ccon := by
            unfold minu64; split <;> omega
          have hcc : u64 ((ccon : Int) + ((cp.Size - ccon : Nat) : Int)) = cp.Size := by
            unfold u64; omega
          have hk1 : u64 ((k : Int) - ((cp.Size - ccon : Nat) : Int)) = k - (cp.Size - ccon) := by
            unfold u64; omega
          have hdrop1 : ss.ContentParts.drop (ci + 1).toNat = ss.ContentParts.drop (ci.toNat + 1) := by
            congr 1; omega
          have hpos1 : (FileReader.mk ss (ci + 1) 0
              (i64 (remain - i64 ((cp.Size - ccon : Nat) : Int))) cr crbr csubfr ccp).Pos
              (T + (cp.Size - ccon)) := by
            unfold FileReader.Pos
            simp only [FileReader.ss, FileReader.ci, FileReader.ccon]
            refine ⟨by omega, ?_, fun _ _ _ => Nat.zero_le _, fun _ => trivial⟩
            rw [hdrop1]; omega
          obtain ⟨ci1, ccon1, remain1, rest, h1, h2, h3, h4, h5, h6, h7⟩ :=
            ih ss (ci + 1) 0 (i64 (remain - i64 ((cp.Size - ccon : Nat) : Int))) cr crbr csubfr ccp
              (k - (cp.Size - ccon)) (T + (cp.Size - ccon)) hty (by omega) hpos1
              (by rw [hdrop1]; omega)
          have h8 : remain1 = remain ∨ i64 remain1 = remain1 := by
            rcases h7 with h7 | h7
            · right; rw [h7, i64_i64]
            · right; exact h7
          refine ⟨ci1, ccon1, remain1, rest, ?_, by omega, ?_, ?_, ?_, by omega, h8⟩
          · simp only [FileReader.SkipLoop, ne_eq, hk0, not_false_eq_true, hlen, and_self, if_true,
              hn0, if_false, hcp, hsk, hmin, hcc]
            rw [hk1]
            exact h1
          · rw [Nat.min_def] at h3 ⊢
            split at h3 <;> split <;> omega
          · have : T + (cp.Size - ccon) + (k - (cp.Size - ccon) - rest) = T + (k - rest) := by omega
            rw [this] at h4
            exact h4
          · rw [h5]
            unfold i64; omega
        · -- the skip ends inside the part
          have hmin : minu64 k (cp.Size - ccon) = k := by
            unfold minu64; split <;> omega
          have hcc : u64 ((ccon : Int) + (k : Int)) = ccon + k := by
            unfold u64; omega
          have hne : ccon + k ≠ cp.Size := by omega
          have hk1 : u64 ((k : Int) - (k : Int)) = 0 := by
            unfold u64; omega
          obtain ⟨f, hfeq⟩ : ∃ f, fuel = f + 1 := ⟨fuel - 1, by omega⟩
          refine ⟨ci, ccon + k, i64 (remain - i64 (k : Int)), 0, ?_, by omega, ?_, ?_, ?_, le_refl _,
            Or.inr (i64_i64 _)⟩
          · simp only [FileReader.SkipLoop, ne_eq, hk0, not_false_eq_true, hlen, and_self, if_true,
              hn0, if_false, hcp, hsk, hmin, hcc, hne, hk1]
            rw [hfeq]
            exact FileReader.SkipLoop_zero _ _
          · rw [Nat.min_def]
            split <;> omega
          · refine ⟨hci, ?_, ?_, ?_⟩
            · simp only [FileReader.ss, FileReader.ci, FileReader.ccon]
              rw [hdrop, sumSizes_cons]; omega
            · intro cp' tl' h'
              simp only [FileReader.ss, FileReader.ci, FileReader.ccon] at h' ⊢
              rw [hdrop] at h'
              simp only [List.cons.injEq] at h'
              rw [← h'.1]; omega
            · intro h'
              simp only [FileReader.ss, FileReader.ci] at h'
              rw [hdrop] at h'
              simp at h'
          · rw [i64_i64, i64_sub_right]
            simp
      · -- past the last part
        have hnil : ss.ContentParts.drop ci.toNat = [] := by
          apply List.drop_eq_nil_of_le; omega
        have hc0 := h0 hnil
        rw [hnil, sumSizes_nil] at hsum
        refine ⟨ci, ccon, remain, k, ?_, le_refl _, ?_, by simpa using hp', by simp, le_refl _,
          Or.inl rfl⟩
        · simp [FileReader.SkipLoop, hlen]
        · rw [Nat.min_def]
          split <;> omega

end schema

namespace schema

open blobref

theorem FileReader.Skip_spec (fr : FileReader) (T n : Nat)
    (hty : ∀ cp ∈ fr.ss.ContentParts, cp.Size < 18446744073709551616)
    (hn : n < 18446744073709551616) (hp : fr.Pos T) :
    ∃ fr1, fr.Skip n = .ret (fr1, min n (sumSizes fr.ss.ContentParts - T)) ∧
      fr1.Pos (T + min n (sumSizes fr.ss.ContentParts - T)) ∧
      i64 fr1.remain = i64 (fr.remain - ((min n (sumSizes fr.ss.ContentParts - T) : Nat) : Int)) ∧
      (fr1.remain = fr.remain ∨ i64 fr1.remain = fr1.remain) ∧
      fr1.ss = fr.ss ∧ fr1.cr = fr.cr ∧ fr1.crbr = fr.crbr ∧ fr1.csubfr = fr.csubfr ∧
      fr1.ccp = fr.ccp := by
  obtain ⟨ss, ci, ccon, remain, cr, crbr, csubfr, ccp⟩ := fr
  have hci : 0 ≤ ci := hp.1
  simp only [FileReader.ss] at hty ⊢
  obtain ⟨ci1, ccon1, remain1, rest, h1, h2, h3, h4, h5, h6, h7⟩ :=
    FileReader.SkipLoop_spec (ss.ContentParts.length + 2) ss ci ccon remain cr crbr csubfr ccp n T
      hty hn hp (by simp only [List.length_drop]; omega)
  have hnc : ci ≠ closedIndex := by simp only [closedIndex]; omega
  have hu : u64 ((n : Int) - (rest : Int)) = n - rest := by
    unfold u64; omega
  refine ⟨FileReader.mk ss ci1 ccon1 remain1 cr crbr csubfr ccp, ?_, ?_, ?_, h7, rfl, rfl, rfl,
    rfl, rfl⟩
  · simp only [FileReader.Skip, FileReader.ci, hnc, if_false, FileReader.ss, h1, hu, h3]
  · rw [← h3]; exact h4
  · rw [← h3]; exact h5

end schema

namespace schema

open blobref

theorem FileReader.Good_new (ss : Superset) (hty : ss.wellTyped) : ss.NewFileReader.Good :=
  FileReader.Good.mk _ hty 0 (FileReader.Pos_new ss)
    (by show i64 (i64 (ss.Size : Int)) = i64 (ss.Size : Int); exact i64_i64 _)
    (by intro sub h; cases h)

theorem FileReader.finishRead_csubfr (fr : FileReader) (data : List Byte) (err : Option Error) :
    (fr.finishRead data err).fr.csubfr = fr.csubfr := by
  obtain ⟨ss, ci, ccon, remain, cr0, crbr, csubfr, ccp⟩ := fr
  rfl

theorem FileReader.closeOpenBlobs_csubfr (fr : FileReader) :
    fr.closeOpenBlobs.csubfr = fr.csubfr := by
  obtain ⟨ss, ci, ccon, remain, cr0, crbr, csubfr, ccp⟩ := fr
  cases cr0 <;> rfl

theorem FileReader.currentPart_csubfr (fr : FileReader) :
    fr.currentPart.1.csubfr = fr.csubfr := by
  obtain ⟨ss, ci, ccon, remain, cr, crbr, csubfr, ccp⟩ := fr
  simp only [FileReader.currentPart]
  cases FileReader.currentPartFrom (ss.ContentParts.drop ci.toNat) ci ccon with
  | mk ci1 rest =>
    obtain ⟨ccon1, ocp⟩ := rest
    cases ocp with
    | some cp => rfl
    | none => exact FileReader.closeOpenBlobs_csubfr _

theorem FileReader.setCr_csubfr (fr : FileReader) (cr : Option ReadSeekCloser) :
    (fr.setCr cr).csubfr = fr.csubfr := by
  obtain ⟨ss, ci, ccon, remain, cr0, crbr, csubfr, ccp⟩ := fr
  rfl

theorem FileReader.setCsubfr_csubfr (fr : FileReader) (s : Option FileReader) (p : Option Nat) :
    (fr.setCsubfr s p).csubfr = s := by
  obtain ⟨ss, ci, ccon, remain, cr0, crbr, csubfr, ccp⟩ := fr
  rfl

theorem FileReader.readerFor_csubfr (fetcher : SeekFetcher) (a : FileReader)
    (br : Option BlobRef) (addr : Option Nat) (seekTo : Int) :
    (FileReader.readerFor fetcher a br addr seekTo).1.csubfr = a.csubfr := by
  unfold FileReader.readerFor
  split
  · rfl
  · have h := FileReader.closeOpenBlobs_csubfr a
    revert h
    cases a.closeOpenBlobs with
    | mk ss ci ccon remain cr crbr csubfr ccp =>
      intro h
      cases br with
      | none => exact h
      | some b =>
        simp only
        cases fetcher b with
        | none => exact h
        | some data =>
          simp only
          cases (ReadSeekCloser.blob data 0).Seek seekTo with
          | error e => exact h
          | ok rsc => exact h

theorem FileReader.Good_sub {fr sub : FileReader} (h : fr.Good) (hs : fr.csubfr = some sub) :
    sub.Good := by
  cases h with
  | mk _ _ _ _ _ hsub => exact hsub sub hs

theorem FileReader.Good_ci {fr : FileReader} (h : fr.Good) : 0 ≤ fr.ci := by
  cases h with
  | mk _ _ _ hpos _ _ => exact hpos.1

theorem FileReader.finishRead_remain_range (fr : FileReader) (data : List Byte)
    (err : Option Error) :
    i64 (fr.finishRead data err).fr.remain = (fr.finishRead data err).fr.remain := by
  rw [(FileReader.finishRead_facts fr data err).2.2.2.1]
  exact i64_i64 _

theorem NewFileReader_ok (fetcher : SeekFetcher) (decode : Decoder) (r : BlobRef)
    (fr : FileReader) (h : NewFileReader fetcher decode r = .ok fr) :
    ∃ b ss, fetcher r = some b ∧ decode b = some ss ∧ ss.CamliType = "file" ∧
      fr = ss.NewFileReader := by
  unfold NewFileReader at h
  split at h
  · cases h
  · rename_i b hb
    split at h
    · cases h
    · rename_i ss hss
      split at h
      · cases h
      · rename_i hty
        simp only [Except.ok.injEq] at h
        exact ⟨b, ss, hb, hss, by simpa using hty, h.symm⟩

/-- What `subBlobRefReader` returns from a good reader, with a decoder that yields
`uint64` sizes: a good reader again, and a good sub-file reader if any. -/
theorem FileReader.Good_subBlobRefReader (fetcher : SeekFetcher) (decode : Decoder)
    (hdec : ∀ b ss, decode b = some ss → ss.wellTyped)
    (a : FileReader) (cp : ContentPart) (hoff : cp.Offset < 18446744073709551616)
    (b : FileReader) (res : Except Error (Option FileReader)) (ha : a.Good)
    (h : FileReader.subBlobRefReader fetcher decode a cp = .ret (b, res)) :
    b.Good ∧ ∀ sub, res = .ok (some sub) → sub.Good ∧ b.csubfr = some sub := by
  have hsc := FileReader.sameCursor_subBlobRefReader fetcher decode a cp b res h
  unfold FileReader.subBlobRefReader at h
  split at h
  · simp only [Outcome.ret.injEq, Prod.mk.injEq] at h
    obtain ⟨h1, h2⟩ := h
    subst h1
    refine ⟨ha, ?_⟩
    intro sub hs
    rw [← h2] at hs
    simp only [Except.ok.injEq] at hs
    exact ⟨FileReader.Good_sub ha hs, hs⟩
  · split at h
    · simp only [Outcome.ret.injEq, Prod.mk.injEq] at h
      obtain ⟨h1, h2⟩ := h
      subst h1
      refine ⟨ha, ?_⟩
      intro sub hs
      rw [← h2] at hs
      cases hs
    · split at h
      · simp only [Outcome.ret.injEq, Prod.mk.injEq] at h
        obtain ⟨h1, h2⟩ := h
        subst h1
        refine ⟨ha, ?_⟩
        intro sub hs
        rw [← h2] at hs
        cases hs
      · rename_i sbr hsbr _ subfr hnew
        obtain ⟨bb, ss, _, hd, _, hfr⟩ := NewFileReader_ok fetcher decode sbr subfr hnew
        have hty := hdec bb ss hd
        have hg0 : subfr.Good := by rw [hfr]; exact FileReader.Good_new ss hty
        obtain ⟨fr1, hskip, hpos, hrem, hrange, hss, _, _, hcs, _⟩ :=
          FileReader.Skip_spec subfr 0 cp.Offset (by rw [hfr]; exact hty.2.1) hoff
            (by rw [hfr]; exact FileReader.Pos_new ss)
        rw [hskip] at h
        simp only [Outcome.ret.injEq, Prod.mk.injEq] at h
        obtain ⟨h1, h2⟩ := h
        have hg1 : fr1.Good := by
          refine FileReader.Good.mk _ (by rw [hss, hfr]; exact hty) _ hpos ?_ ?_
          · rcases hrange with hr | hr
            · rw [hr, hfr]
              show i64 (i64 (ss.Size : Int)) = i64 (ss.Size : Int)
              exact i64_i64 _
            · exact hr
          · intro sub hs
            rw [hcs, hfr] at hs
            cases hs
        subst h1
        constructor
        · cases ha with
          | mk _ hty' T hpos' hrem' hsub' =>
            refine FileReader.Good.mk _ ?_ T ?_ ?_ ?_
            · rw [(FileReader.sameCursor_setCsubfr _ _ _).1]; exact hty'
            · exact FileReader.Pos_of_sameCursor (FileReader.sameCursor_setCsubfr _ _ _) hpos'
            · rw [(FileReader.sameCursor_setCsubfr _ _ _).2.2.2]; exact hrem'
            · intro sub hs
              rw [FileReader.setCsubfr_csubfr] at hs
              simp only [Option.some.injEq] at hs
              rw [← hs]; exact hg1
        · intro sub hs
          rw [← h2] at hs
          simp only [Except.ok.injEq, Option.some.injEq] at hs
          rw [← hs]
          exact ⟨hg1, FileReader.setCsubfr_csubfr _ _ _⟩

end schema

namespace schema

open blobref

theorem FileReader.Read_remain_range (fetcher : SeekFetcher) (decode : Decoder) (fuel L : Nat)
    (fr : FileReader) (r : ReadRet) (hci : 0 ≤ fr.ci) (hrem : i64 fr.remain = fr.remain)
    (h : fr.Read fetcher decode fuel L = .ret r) : i64 r.fr.remain = r.fr.remain := by
  have hcp := FileReader.currentPart_facts fr
  rcases FileReader.Read_shape fetcher decode fuel fr L r hci h with
    ⟨e, hd, _, hsc⟩ | ⟨cp, fr2, data, err, _, _, hsc, _, hr⟩
  · rw [hsc.2.2.2, hcp.2.1]; exact hrem
  · subst hr
    exact FileReader.finishRead_remain_range _ _ _

theorem ReadSeekCloser.Read_err (r : ReadSeekCloser) (L : Nat) :
    (r.Read L).2.2 = none ∨ (r.Read L).2.2 = some Error.EOF := by
  cases r with
  | blob data pos =>
    simp only [ReadSeekCloser.Read]
    split
    · right; rfl
    · left; rfl
  | zeroReader => left; rfl

/-- A `Read` on a good reader leaves a good reader and does not return the error
"content part contained illegal size 0". -/
theorem FileReader.Read_good (fetcher : SeekFetcher) (decode : Decoder)
    (hdec : ∀ b ss, decode b = some ss → ss.wellTyped) :
    ∀ (fuel : Nat) (fr : FileReader) (L : Nat) (r : ReadRet), fr.Good →
      fr.Read fetcher decode fuel L = .ret r →
      r.fr.Good ∧ r.err ≠ some Error.illegalSize0
  | 0, fr, L, r, _, h => by simp [FileReader.Read] at h
  | fuel + 1, fr, L, r, hg, h => by
    have hg' := hg
    obtain ⟨_, hty, T, hpos, hrem, hsub⟩ := hg
    have hopen : 0 ≤ fr.ci := hpos.1
    have hss := FileReader.Read_ss fetcher decode (fuel + 1) L fr r hopen h
    have hP := FileReader.Pos_Read fetcher decode (fuel + 1) L fr T r hty.2.1 hpos h
    have hR := FileReader.Read_remain_range fetcher decode (fuel + 1) L fr r hopen hrem h
    obtain ⟨_, hok, herr, _⟩ := FileReader.Pos_currentPart fr T hty.2.1 hpos
    have hcs := FileReader.currentPart_csubfr fr
    suffices hmain : (∀ sub, r.fr.csubfr = some sub → sub.Good) ∧
        r.err ≠ some Error.illegalSize0 from
      ⟨FileReader.Good.mk _ (by rw [hss]; exact hty) _ hP hR hmain.1, hmain.2⟩
    have hsub1 : ∀ sub, fr.currentPart.1.csubfr = some sub → sub.Good := by
      intro sub hs; rw [hcs] at hs; exact hsub sub hs
    have hg1 : fr.currentPart.1.Good := by
      refine FileReader.Good.mk _ ?_ T (FileReader.Pos_currentPart fr T hty.2.1 hpos).1 ?_ hsub1
      · rw [(FileReader.currentPart_facts fr).1]; exact hty
      · rw [(FileReader.currentPart_facts fr).2.1]; exact hrem
    unfold FileReader.Read at h
    have hnc : fr.ci ≠ closedIndex := by simp only [closedIndex]; omega
    have hn0 : ¬ fr.ci < 0 := by omega
    simp only [hnc, hn0, if_false] at h
    revert h hok herr hsub1 hg1
    cases hcur : fr.currentPart with
    | mk fr1 res =>
      cases res with
      | error e =>
        intro hok herr hsub1 hg1 h
        simp only [Outcome.ret.injEq] at h
        subst h
        refine ⟨hsub1, ?_⟩
        have := (herr e rfl).1
        simp only [ne_eq, Option.some.injEq]
        rw [this]
        split <;> simp
      | ok cp =>
        simp only
        intro hok herr hsub1 hg1 h
        obtain ⟨tl, htl, hlt⟩ := hok cp rfl
        have hmem : cp ∈ fr.ss.ContentParts := by
          apply List.mem_of_mem_drop (n := fr1.ci.toNat)
          rw [htl]; exact List.mem_cons_self _ _
        have hoff : cp.Offset < 18446744073709551616 := hty.2.2 cp hmem
        split at h
        · rename_i hz
          omega
        · split at h
          · simp only [Outcome.ret.injEq] at h
            subst h
            exact ⟨hsub1, by simp⟩
          · split at h
            · -- sub-file part
              revert h
              cases hsubr : FileReader.subBlobRefReader fetcher decode fr1 cp with
              | panicked => simp
              | outOfFuel => simp
              | ret p =>
                obtain ⟨fr2, rsub⟩ := p
                obtain ⟨hg2, hgs⟩ := FileReader.Good_subBlobRefReader fetcher decode hdec fr1 cp
                  hoff fr2 rsub hg1 hsubr
                cases rsub with
                | error e =>
                  intro h
                  simp only [Outcome.ret.injEq] at h
                  subst h
                  exact ⟨fun sub hs => FileReader.Good_sub hg2 hs, by simp⟩
                | ok osub =>
                  cases osub with
                  | none => simp
                  | some subfr =>
                    simp only
                    cases hrd : FileReader.Read fetcher decode fuel subfr
                        (FileReader.readLen cp fr2.ccon L) with
                    | panicked => simp
                    | outOfFuel => simp
                    | ret rr =>
                      obtain ⟨subfr1, data, err⟩ := rr
                      intro h
                      simp only [Outcome.ret.injEq] at h
                      subst h
                      obtain ⟨hgsub, herr2⟩ := FileReader.Read_good fetcher decode hdec fuel subfr _
                        _ (hgs subfr rfl).1 hrd
                      constructor
                      · intro sub hs
                        rw [FileReader.finishRead_csubfr, FileReader.setCsubfr_csubfr] at hs
                        simp only [Option.some.injEq] at hs
                        rw [← hs]; exact hgsub
                      · rw [(FileReader.finishRead_facts _ _ _).2.2.2.2]
                        split
                        · simp
                        · exact herr2
            · -- leaf part
              revert h
              have hc := FileReader.readerFor_csubfr fetcher fr1 cp.BlobRef
                (if cp.BlobRef.isSome then some fr1.ci.toNat else none)
                (i64 (u64 (cp.Offset + fr1.ccon)))
              revert hc
              cases FileReader.readerFor fetcher fr1 cp.BlobRef
                (if cp.BlobRef.isSome then some fr1.ci.toNat else none)
                (i64 (u64 (cp.Offset + fr1.ccon))) with
              | mk fr2 res =>
                cases res with
                | error e =>
                  intro hc h
                  simp only [Outcome.ret.injEq] at h
                  subst h
                  refine ⟨?_, by simp⟩
                  intro sub hs
                  simp only at hc hs
                  rw [hc] at hs
                  exact hsub1 sub hs
                | ok orr =>
                  cases orr with
                  | none => simp
                  | some rd =>
                    intro hc h
                    simp only [Outcome.ret.injEq] at h
                    subst h
                    constructor
                    · intro sub hs
                      rw [FileReader.finishRead_csubfr, FileReader.setCr_csubfr] at hs
                      simp only at hc
                      rw [hc] at hs
                      exact hsub1 sub hs
                    · rw [(FileReader.finishRead_facts _ _ _).2.2.2.2]
                      split
                      · simp
                      · rcases ReadSeekCloser.Read_err rd (FileReader.readLen cp fr2.ccon L) with
                          he | he <;> rw [he] <;> simp

end schema

namespace schema

open blobref

theorem FileReader.Good_Skip (fr fr1 : FileReader) (k n : Nat)
    (hk : k < 18446744073709551616) (hg : fr.Good) (h : fr.Skip k = .ret (fr1, n)) :
    fr1.Good := by
  obtain ⟨_, hty, T, hpos, hrem, hsub⟩ := hg
  obtain ⟨fr2, hskip, hpos2, _, hrange, hss, _, _, hcs, _⟩ :=
    FileReader.Skip_spec fr T k hty.2.1 hk hpos
  rw [hskip] at h
  simp only [Outcome.ret.injEq, Prod.mk.injEq] at h
  rw [← h.1]
  refine FileReader.Good.mk _ (by rw [hss]; exact hty) _ hpos2 ?_ ?_
  · rcases hrange with hr | hr
    · rw [hr]; exact hrem
    · exact hr
  · intro sub hs
    rw [hcs] at hs
    exact hsub sub hs

theorem FileReader.Good_run (fetcher : SeekFetcher) (decode : Decoder)
    (hdec : ∀ b ss, decode b = some ss → ss.wellTyped) (fuel : Nat) (ops : List Op) :
    ∀ (fr fr1 : FileReader) (replies : List Reply), fr.Good → readsAndSkips ops →
      fr.run fetcher decode fuel ops = .ret (fr1, replies) →
      fr1.Good ∧ ∀ data, Reply.read data (some Error.illegalSize0) ∉ replies := by
  induction ops with
  | nil =>
    intro fr fr1 replies hg _ h
    simp only [FileReader.run, Outcome.ret.injEq, Prod.mk.injEq] at h
    rw [← h.1, ← h.2]
    exact ⟨hg, by simp⟩
  | cons op ops ih =>
    intro fr fr1 replies hg hops h
    cases op with
    | read L =>
      simp only [FileReader.run, FileReader.step] at h
      revert h
      cases hrd : fr.Read fetcher decode fuel L with
      | panicked => simp
      | outOfFuel => simp
      | ret r =>
        obtain ⟨fr2, data, err⟩ := r
        simp only
        cases hrun : fr2.run fetcher decode fuel ops with
        | panicked => simp
        | outOfFuel => simp
        | ret p =>
          obtain ⟨fr3, rest⟩ := p
          intro h
          simp only [Outcome.ret.injEq, Prod.mk.injEq] at h
          obtain ⟨hg2, he⟩ := FileReader.Read_good fetcher decode hdec fuel fr L _ hg hrd
          obtain ⟨hg3, hno⟩ := ih fr2 fr3 rest hg2 hops hrun
          rw [← h.1, ← h.2]
          refine ⟨hg3, ?_⟩
          intro d hm
          simp only [List.mem_cons, Reply.read.injEq] at hm
          rcases hm with ⟨_, hm⟩ | hm
          · exact he hm.symm
          · exact hno d hm
    | skip k =>
      simp only [FileReader.run, FileReader.step] at h
      revert h
      cases hsk : fr.Skip k with
      | panicked => simp
      | outOfFuel => simp
      | ret p0 =>
        obtain ⟨fr2, n⟩ := p0
        simp only
        cases hrun : fr2.run fetcher decode fuel ops with
        | panicked => simp
        | outOfFuel => simp
        | ret p =>
          obtain ⟨fr3, rest⟩ := p
          intro h
          simp only [Outcome.ret.injEq, Prod.mk.injEq] at h
          have hg2 := FileReader.Good_Skip fr fr2 k n hops.1 hg hsk
          obtain ⟨hg3, hno⟩ := ih fr2 fr3 rest hg2 hops.2 hrun
          rw [← h.1, ← h.2]
          refine ⟨hg3, ?_⟩
          intro d hm
          simp only [List.mem_cons] at hm
          rcases hm with hm | hm
          · cases hm
          · exact hno d hm
    | close => exact absurd hops (by simp [readsAndSkips])

/-- C27: start from a fresh reader for a file schema with `uint64` sizes, with a
decoder that yields such schemas, and make any sequence of `Read` and `Skip` calls.
In the state reached the bytes consumed from the current part do not exceed its size,
every part that `currentPart` hands out has a size above 0, and no `Read` of the
sequence returned the error "content part contained illegal size 0". -/
theorem FileReader.consumed_le_size (fetcher : SeekFetcher) (decode : Decoder)
    (hdec : ∀ b ss, decode b = some ss → ss.wellTyped) (fuel : Nat) (ss : Superset)
    (hty : ss.wellTyped) (ops : List Op) (hops : readsAndSkips ops) (fr : FileReader)
    (replies : List Reply)
    (hrun : ss.NewFileReader.run fetcher decode fuel ops = .ret (fr, replies)) :
    (∀ cp, fr.ss.ContentParts.get? fr.ci.toNat = some cp → fr.ccon ≤ cp.Size) ∧
      (∀ cp, fr.currentPart.2 = .ok cp → 0 < cp.Size) ∧
      (∀ data, Reply.read data (some Error.illegalSize0) ∉ replies) := by
  obtain ⟨hg, hno⟩ := FileReader.Good_run fetcher decode hdec fuel ops ss.NewFileReader fr
    replies (FileReader.Good_new ss hty) hops hrun
  obtain ⟨_, hty1, T, hpos, _, _⟩ := hg
  refine ⟨?_, ?_, hno⟩
  · intro cp hcp
    exact hpos.2.2.1 cp _ (List.drop_eq_cons_of_get? _ _ _ hcp)
  · intro cp hcp
    obtain ⟨tl, _, hlt⟩ := (FileReader.Pos_currentPart fr T hty1.2.1 hpos).2.1 cp hcp
    omega

/-- C11, as amended: on an open reader of a schema with `uint64` sizes whose cursor
stands at byte `T` of the content parts, `Skip(n)` returns `min n (total - T)`, moves
the cursor forward by exactly that many bytes, lowers `remain` by that amount in
`int64` arithmetic (by exactly that amount when the difference is at least -2^63),
and leaves the schema and both cached readers as they were; it takes no fetcher. -/
theorem FileReader.Skip_advances (fr : FileReader) (T n : Nat)
    (hty : ∀ cp ∈ fr.ss.ContentParts, cp.Size < 18446744073709551616)
    (hn : n < 18446744073709551616) (hrem : i64 fr.remain = fr.remain) (hp : fr.Pos T) :
    ∃ fr1, fr.Skip n = .ret (fr1, min n (sumSizes fr.ss.ContentParts - T)) ∧
      fr1.Pos (T + min n (sumSizes fr.ss.ContentParts - T)) ∧
      fr1.remain = i64 (fr.remain - ((min n (sumSizes fr.ss.ContentParts - T) : Nat) : Int)) ∧
      (-9223372036854775808 ≤ fr.remain - ((min n (sumSizes fr.ss.ContentParts - T) : Nat) : Int) →
        fr1.remain = fr.remain - ((min n (sumSizes fr.ss.ContentParts - T) : Nat) : Int)) ∧
      fr1.ss = fr.ss ∧ fr1.cr = fr.cr ∧ fr1.crbr = fr.crbr ∧ fr1.csubfr = fr.csubfr ∧
      fr1.ccp = fr.ccp := by
  obtain ⟨fr1, h1, h2, h3, h4, h5, h6, h7, h8, h9⟩ := FileReader.Skip_spec fr T n hty hn hp
  have hr : fr1.remain =
      i64 (fr.remain - ((min n (sumSizes fr.ss.ContentParts - T) : Nat) : Int)) := by
    rcases h4 with h4 | h4
    · rw [← h3, h4, hrem]
    · rw [← h3, h4]
  refine ⟨fr1, h1, h2, hr, ?_, h5, h6, h7, h8, h9⟩
  intro hlow
  rw [hr]
  apply i64_of_range _ hlow
  have : fr.remain < 9223372036854775808 := by
    have := hrem
    unfold i64 at this
    omega
  omega

theorem FileReader.Skip_advances_witness :
    ((∀ cp ∈ exShort.NewFileReader.ss.ContentParts, cp.Size < 18446744073709551616) ∧
      (6 : Nat) < 18446744073709551616 ∧
      i64 exShort.NewFileReader.remain = exShort.NewFileReader.remain ∧
      exShort.NewFileReader.Pos 0) ∧
    ∃ fr1, exShort.NewFileReader.Skip 6 =
        .ret (fr1, min 6 (sumSizes exShort.NewFileReader.ss.ContentParts - 0)) ∧
      fr1.Pos (0 + min 6 (sumSizes exShort.NewFileReader.ss.ContentParts - 0)) ∧
      fr1.remain = i64 (exShort.NewFileReader.remain -
        ((min 6 (sumSizes exShort.NewFileReader.ss.ContentParts - 0) : Nat) : Int)) ∧
      (-9223372036854775808 ≤ exShort.NewFileReader.remain -
          ((min 6 (sumSizes exShort.NewFileReader.ss.ContentParts - 0) : Nat) : Int) →
        fr1.remain = exShort.NewFileReader.remain -
          ((min 6 (sumSizes exShort.NewFileReader.ss.ContentParts - 0) : Nat) : Int)) ∧
      fr1.ss = exShort.NewFileReader.ss ∧ fr1.cr = exShort.NewFileReader.cr ∧
      fr1.crbr = exShort.NewFileReader.crbr ∧ fr1.csubfr = exShort.NewFileReader.csubfr ∧
      fr1.ccp = exShort.NewFileReader.ccp :=
  ⟨⟨by decide, by decide, by with_unfolding_all decide, FileReader.Pos_new exShort⟩,
    FileReader.Skip_advances exShort.NewFileReader 0 6 (by decide) (by decide)
      (by with_unfolding_all decide) (FileReader.Pos_new exShort)⟩

/-- C11, counterexample: the fresh reader of `exHugePart` has `remain = -2^63`
(`int64` of the declared size 2^63); `Skip(1)` skips one byte and leaves
`remain = 2^63 - 1`, which is not `remain` lowered by one. -/
theorem FileReader.Skip_wraps_remain :
    exHugePart.NewFileReader.remain = -9223372036854775808 ∧
      (exHugePart.NewFileReader.Skip 1).map (fun p => (p.2, p.1.remain)) =
        .ret (1, 9223372036854775807) := by
  constructor <;> decide!

theorem exDecoder_wellTyped : ∀ b ss, exDecoder b = some ss → ss.wellTyped := by
  intro b ss h
  unfold exDecoder at h
  split at h
  · simp only [Option.some.injEq] at h
    rw [← h]
    exact ⟨by decide, by decide, by decide⟩
  · cases h

theorem FileReader.consumed_le_size_witness :
    ((∀ b ss, exDecoder b = some ss → ss.wellTyped) ∧ exMixed.wellTyped ∧
      readsAndSkips [Op.skip 2, Op.read 8, Op.read 8] ∧
      (exMixed.NewFileReader.run exFetcher exDecoder 2 [Op.skip 2, Op.read 8, Op.read 8]).map
          Prod.snd =
        .ret [Reply.skipped 2, Reply.read [30, 40] none, Reply.read [10, 20, 30, 40] none]) ∧
    ∀ fr replies,
      exMixed.NewFileReader.run exFetcher exDecoder 2 [Op.skip 2, Op.read 8, Op.read 8] =
        .ret (fr, replies) →
      (∀ cp, fr.ss.ContentParts.get? fr.ci.toNat = some cp → fr.ccon ≤ cp.Size) ∧
        (∀ cp, fr.currentPart.2 = .ok cp → 0 < cp.Size) ∧
        (∀ data, Reply.read data (some Error.illegalSize0) ∉ replies) :=
  ⟨⟨exDecoder_wellTyped, ⟨by decide, by decide, by decide⟩, ⟨by decide, trivial⟩,
      by with_unfolding_all decide⟩,
    fun fr replies h => FileReader.consumed_le_size exFetcher exDecoder exDecoder_wellTyped 2
      exMixed ⟨by decide, by decide, by decide⟩ [Op.skip 2, Op.read 8, Op.read 8]
      ⟨by decide, trivial⟩ fr replies h⟩

/-- C22, the failing input: read `exMixed` (a leaf part, then a sub-file part) to the
end of both parts and `Close`.  The cached leaf reader `cr` is cleared, but the cached
sub-file reader `csubfr` is still held, and so is the blob reader open inside it:
`Close` calls `closeOpenBlobs`, which only knows `cr`. -/
theorem FileReader.Close_keeps_subfile_reader :
    (exMixed.NewFileReader.run exFetcher exDecoder 2 [Op.read 8, Op.read 8, Op.close]).map
        (fun p => (p.1.held, p.2)) =
      .ret ((false, true, true),
        [Reply.read [10, 20, 30, 40] none, Reply.read [10, 20, 30, 40] none,
          Reply.closed none]) := by
  with_unfolding_all decide

end schema

/-! ## Blob references -/

namespace blobref

theorem isHashNameChar_dash : isHashNameChar '-' = false := by decide

theorem takeWhile_notDash (h d : List Char) (hh : ∀ c ∈ h, isHashNameChar c = true) :
    (h ++ '-' :: d).takeWhile (fun c => c != '-') = h ∧
      (h ++ '-' :: d).dropWhile (fun c => c != '-') = '-' :: d := by
  induction h with
  | nil => simp [List.takeWhile, List.dropWhile]
  | cons c cs ih =>
    have hc : c ≠ '-' := by
      intro h'
      have := hh c (List.mem_cons_self _ _)
      rw [h', isHashNameChar_dash] at this
      cases this
    have ih' := ih (fun x hx => hh x (List.mem_cons_of_mem _ hx))
    have hb : (c != '-') = true := by simpa using hc
    simp only [List.cons_append, List.takeWhile, List.dropWhile, hb]
    exact ⟨congrArg (List.cons c) ih'.1, ih'.2⟩

theorem span_notDash (l : List Char) :
    l = l.takeWhile (fun c => c != '-') ++ l.dropWhile (fun c => c != '-') :=
  (List.takeWhile_append_dropWhile _ l).symm

theorem dropWhile_head_dash (l : List Char) (x : Char) (d : List Char)
    (h : l.dropWhile (fun c => c != '-') = x :: d) : x = '-' := by
  induction l with
  | nil => simp at h
  | cons c cs ih =>
    by_cases hc : c = '-'
    · subst hc
      simp [List.dropWhile] at h
      exact h.1.symm
    · have hb : (c != '-') = true := by simpa using hc
      simp only [List.dropWhile, hb] at h
      exact ih h

/-- C23: for every text of the form `h-d` with `h` in `[a-z0-9]+` and `d` in
`[a-f0-9]+`, `Parse` returns the reference with `hashName = h` and `digest = d`, whose
`String()` is the text again; for every text that does not match the pattern `Parse`
returns nil. -/
theorem Parse_spec :
    (∀ (s : String) (h d : List Char), s.toList = h ++ '-' :: d → h ≠ [] →
      (∀ c ∈ h, isHashNameChar c = true) → d ≠ [] → (∀ c ∈ d, isDigestChar c = true) →
      Parse s = some ⟨String.mk h, String.mk d⟩ ∧
        (BlobRef.String ⟨String.mk h, String.mk d⟩) = s) ∧
    (∀ s : String, ¬ matchesPattern s → Parse s = none) := by
  constructor
  · intro s h d hs hh1 hh2 hd1 hd2
    obtain ⟨ht, hdw⟩ := takeWhile_notDash h d hh2
    constructor
    · unfold Parse
      simp only [hs, ht, hdw]
      rw [if_pos]
      exact ⟨hh1, List.all_eq_true.mpr hh2, hd1, List.all_eq_true.mpr hd2⟩
    · apply String.ext
      have : s.data = h ++ '-' :: d := hs
      simp [BlobRef.String, this]
  · intro s hn
    unfold Parse
    simp only
    split
    · rfl
    · rename_i x d hdw
      split
      · rename_i hc
        exfalso
        apply hn
        refine ⟨s.toList.takeWhile (fun c => c != '-'), d, ?_, hc.1,
          List.all_eq_true.mp hc.2.1, hc.2.2.1, List.all_eq_true.mp hc.2.2.2⟩
        have hx := dropWhile_head_dash _ _ _ hdw
        subst hx
        rw [← hdw]
        exact span_notDash s.toList
      · rfl

theorem hexDigitValue_lt (c : Char) : hexDigitValue c < 16 := by
  unfold hexDigitValue
  split
  · omega
  · split <;> omega

theorem hexValue_foldl (cs : List Char) (a : Nat) :
    cs.foldl (fun acc c => acc * 16 + hexDigitValue c) a = a * 16 ^ cs.length + hexValue cs := by
  induction cs generalizing a with
  | nil => simp [hexValue]
  | cons c cs ih =>
    simp only [List.foldl_cons, List.length_cons, hexValue]
    rw [ih, ih (0 * 16 + hexDigitValue c)]
    simp only [hexValue]
    ring

theorem hexValue_append (a b : List Char) :
    hexValue (a ++ b) = hexValue a * 16 ^ b.length + hexValue b := by
  unfold hexValue
  rw [List.foldl_append, hexValue_foldl]
  rfl

theorem hexValue_lt (cs : List Char) : hexValue cs < 16 ^ cs.length := by
  induction cs using List.reverseRecOn with
  | nil => simp [hexValue]
  | append_singleton cs c ih =>
    rw [hexValue_append]
    have hc := hexDigitValue_lt c
    have h1 : hexValue [c] = hexDigitValue c := by simp [hexValue]
    rw [h1]
    simp only [List.length_singleton, pow_one, List.length_append, pow_succ]
    nlinarith

/-- C24: for every reference whose digest has at least eight characters, `Sum32` is
the value of the last eight hexadecimal digits of the digest, which is the digest read
as a hexadecimal number modulo 2^32; the digest of 38 zeros followed by `12` gives 18. -/
theorem Sum32_spec :
    (∀ b : BlobRef, 8 ≤ b.digest.toList.length →
      b.Sum32 = hexValue (b.digest.toList.drop (b.digest.toList.length - 8)) ∧
        b.Sum32 = hexValue b.digest.toList % 4294967296) ∧
    (BlobRef.Sum32 ⟨"sha1", "0000000000000000000000000000000000000012"⟩ = 18) := by
  constructor
  · intro b hlen
    have hsplit := List.take_append_drop (b.digest.toList.length - 8) b.digest.toList
    have hl : (b.digest.toList.drop (b.digest.toList.length - 8)).length = 8 := by
      simp only [List.length_drop]; omega
    have hlt := hexValue_lt (b.digest.toList.drop (b.digest.toList.length - 8))
    rw [hl] at hlt
    have h1 : b.Sum32 = hexValue (b.digest.toList.drop (b.digest.toList.length - 8)) := by
      unfold BlobRef.Sum32
      apply Nat.mod_eq_of_lt
      omega
    refine ⟨h1, ?_⟩
    rw [h1]
    conv_rhs => rw [← hsplit, hexValue_append, hl]
    have : (16 : Nat) ^ 8 = 4294967296 := by norm_num
    rw [this, Nat.mul_add_mod_of_lt (by omega)]
  · decide

theorem Parse_spec_witness :
    ("abc-def123".toList = ['a', 'b', 'c'] ++ '-' :: ['d', 'e', 'f', '1', '2', '3'] ∧
      ['a', 'b', 'c'] ≠ [] ∧ (∀ c ∈ ['a', 'b', 'c'], isHashNameChar c = true) ∧
      ['d', 'e', 'f', '1', '2', '3'] ≠ [] ∧
      (∀ c ∈ ['d', 'e', 'f', '1', '2', '3'], isDigestChar c = true)) ∧
    (Parse "abc-def123" = some ⟨String.mk ['a', 'b', 'c'], String.mk ['d', 'e', 'f', '1', '2', '3']⟩ ∧
      (BlobRef.String ⟨String.mk ['a', 'b', 'c'], String.mk ['d', 'e', 'f', '1', '2', '3']⟩) =
        "abc-def123") :=
  ⟨⟨rfl, by decide, by decide, by decide, by decide⟩,
    Parse_spec.1 "abc-def123" ['a', 'b', 'c'] ['d', 'e', 'f', '1', '2', '3'] rfl (by decide)
      (by decide) (by decide) (by decide)⟩

theorem Sum32_spec_witness :
    8 ≤ (BlobRef.mk "sha1" "0beec7b5ea3f0fdbc95d0dd47f3c5bc275da8a33").digest.toList.length ∧
      ((BlobRef.mk "sha1" "0beec7b5ea3f0fdbc95d0dd47f3c5bc275da8a33").Sum32 =
          hexValue ((BlobRef.mk "sha1" "0beec7b5ea3f0fdbc95d0dd47f3c5bc275da8a33").digest.toList.drop
            ((BlobRef.mk "sha1" "0beec7b5ea3f0fdbc95d0dd47f3c5bc275da8a33").digest.toList.length - 8)) ∧
        (BlobRef.mk "sha1" "0beec7b5ea3f0fdbc95d0dd47f3c5bc275da8a33").Sum32 =
          hexValue (BlobRef.mk "sha1" "0beec7b5ea3f0fdbc95d0dd47f3c5bc275da8a33").digest.toList %
            4294967296) :=
  ⟨by decide, Sum32_spec.1 ⟨"sha1", "0beec7b5ea3f0fdbc95d0dd47f3c5bc275da8a33"⟩ (by decide)⟩

end blobref

/-! ## Claim evaluation of the search handler -/

namespace search

open blobref

theorem addAttribute_of_ne (attr : AttrMap) (cl : Claim) (hv : cl.Value ≠ "") :
    addAttribute attr cl =
      if cl.Value ∈ (attr cl.Attr).getD [] then attr
      else attr.set cl.Attr ((attr cl.Attr).getD [] ++ [cl.Value]) := by
  unfold addAttribute
  rw [if_neg hv]
  cases h : attr cl.Attr with
  | none => simp
  | some sl => simp

theorem applyClaim_eq_specStep (attr : AttrMap) (cl : Claim)
    (hv : (cl.ClaimType = "set-attribute" ∨ cl.ClaimType = "add-attribute") → cl.Value ≠ "") :
    applyClaim attr cl = specStep attr cl := by
  unfold applyClaim specStep
  by_cases hd : cl.ClaimType = "del-attribute"
  · have h1 : cl.ClaimType ≠ "set-attribute" := by rw [hd]; decide
    have h2 : cl.ClaimType ≠ "add-attribute" := by rw [hd]; decide
    rw [if_pos hd, if_neg h1, if_neg h2, if_pos hd]
  · rw [if_neg hd]
    by_cases hs : cl.ClaimType = "set-attribute"
    · rw [if_pos hs, if_pos hs, addAttribute_of_ne _ _ (hv (Or.inl hs))]
      funext x
      simp only [AttrMap.delete, AttrMap.set, if_true, Option.getD_none, List.not_mem_nil,
        if_false, List.nil_append]
      split <;> rfl
    · rw [if_neg hs, if_neg hs]
      by_cases ha : cl.ClaimType = "add-attribute"
      · rw [if_pos ha, if_pos ha, addAttribute_of_ne _ _ (hv (Or.inr ha))]
      · rw [if_neg ha, if_neg ha, if_neg hd]

theorem foldl_applyClaim_eq (cs : List Claim) :
    ∀ attr : AttrMap,
      (∀ cl ∈ cs, (cl.ClaimType = "set-attribute" ∨ cl.ClaimType = "add-attribute") →
        cl.Value ≠ "") →
      cs.foldl applyClaim attr = cs.foldl specStep attr := by
  induction cs with
  | nil => intro attr _; rfl
  | cons c cs ih =>
    intro attr h
    simp only [List.foldl_cons]
    rw [applyClaim_eq_specStep attr c (h c (List.mem_cons_self _ _))]
    exact ih _ (fun cl hcl => h cl (List.mem_cons_of_mem _ hcl))

/-- C12, as amended: for every list of claims in which every `set-attribute` and
`add-attribute` claim has a non-empty value, the attribute map computed by
`populatePermanodeFields` is the left fold of the spec's step over the sorted claims;
and the claims of scenario S6 yield `tag == ["b"]`. -/
theorem populatePermanodeFields_eq_specFold (sortClaims : List Claim → List Claim)
    (claims : List Claim) (depth : Int)
    (hperm : (sortClaims claims).Perm claims)
    (hv : ∀ cl ∈ claims,
      (cl.ClaimType = "set-attribute" ∨ cl.ClaimType = "add-attribute") → cl.Value ≠ "") :
    (populatePermanodeFields sortClaims (.ok claims) depth).attr =
        (sortClaims claims).foldl specStep AttrMap.empty ∧
      (populatePermanodeFields sortByDate (.ok exClaims) 4).attr "tag" = some ["b"] := by
  constructor
  · simp only [populatePermanodeFields]
    exact foldl_applyClaim_eq _ _ (fun cl hcl => hv cl (hperm.mem_iff.mp hcl))
  · decide

/-- C12, counterexample: the single claim `set-attribute(tag, "")` leaves `tag`
absent in the code (an empty value is skipped after the attribute is cleared), where
the spec's step gives `tag == [""]`. -/
theorem populatePermanodeFields_skips_empty_value :
    (populatePermanodeFields sortByDate (.ok [⟨1, "set-attribute", "tag", ""⟩]) 4).attr "tag" =
        none ∧
      ((sortByDate [⟨1, "set-attribute", "tag", ""⟩]).foldl specStep AttrMap.empty) "tag" =
        some [""] := by
  decide

end search

namespace search

open blobref

theorem perm_insertByDate (c : Claim) (l : List Claim) : (insertByDate c l).Perm (c :: l) := by
  induction l with
  | nil => exact List.Perm.refl _
  | cons d ds ih =>
    simp only [insertByDate]
    split
    · exact List.Perm.refl _
    · exact (List.Perm.cons d ih).trans (List.Perm.swap c d ds)

theorem pairwise_insertByDate (c : Claim) (l : List Claim)
    (h : l.Pairwise (fun a b => a.Date ≤ b.Date)) :
    (insertByDate c l).Pairwise (fun a b => a.Date ≤ b.Date) := by
  induction l with
  | nil => simp [insertByDate]
  | cons d ds ih =>
    simp only [insertByDate]
    have hd := List.pairwise_cons.mp h
    split
    · rename_i hle
      refine List.pairwise_cons.mpr ⟨?_, h⟩
      intro x hx
      rcases List.mem_cons.mp hx with hx | hx
      · rw [hx]; exact hle
      · exact le_trans hle (hd.1 x hx)
    · rename_i hgt
      refine List.pairwise_cons.mpr ⟨?_, ih hd.2⟩
      intro x hx
      rcases List.mem_cons.mp ((perm_insertByDate c ds).mem_iff.mp hx) with hx | hx
      · rw [hx]; omega
      · exact hd.1 x hx

theorem isDateSort_sortByDate : IsDateSort sortByDate := by
  intro l
  induction l with
  | nil => exact ⟨List.Perm.refl _, List.Pairwise.nil⟩
  | cons c cs ih =>
    simp only [sortByDate]
    exact ⟨(perm_insertByDate c _).trans (List.Perm.cons c ih.1), pairwise_insertByDate c _ ih.2⟩

theorem sorted_unique (l1 l2 : List Claim) (hp : l1.Perm l2)
    (hn : (l1.map Claim.Date).Nodup)
    (h1 : l1.Pairwise (fun a b => a.Date ≤ b.Date))
    (h2 : l2.Pairwise (fun a b => a.Date ≤ b.Date)) : l1 = l2 := by
  have hn2 : (l2.map Claim.Date).Nodup := (hp.map Claim.Date).nodup_iff.mp hn
  have strict : ∀ l : List Claim, (l.map Claim.Date).Nodup →
      l.Pairwise (fun a b => a.Date ≤ b.Date) → l.Pairwise (fun a b => a.Date < b.Date) := by
    intro l hnd hle
    have hne : l.Pairwise (fun a b => a.Date ≠ b.Date) := List.pairwise_map.mp hnd
    exact (hle.and hne).imp (fun h => lt_of_le_of_ne h.1 h.2)
  haveI : IsAntisymm Claim (fun a b => a.Date < b.Date) :=
    ⟨fun a b hab hba => (lt_asymm hab hba).elim⟩
  exact List.eq_of_perm_of_sorted hp (strict l1 hn h1) (strict l2 hn2 h2)

/-- C13: for claims with pairwise distinct dates, whatever permutation of them the
index returns, `populatePermanodeFields` (with any sort by claim date) computes the
same attribute map and makes the same `describe` calls. -/
theorem populatePermanodeFields_perm (sortClaims : List Claim → List Claim)
    (hs : IsDateSort sortClaims) (l1 l2 : List Claim) (depth : Int) (hp : l1.Perm l2)
    (hd : (l1.map Claim.Date).Nodup) :
    (populatePermanodeFields sortClaims (.ok l1) depth).attr =
        (populatePermanodeFields sortClaims (.ok l2) depth).attr ∧
      (populatePermanodeFields sortClaims (.ok l1) depth).described =
        (populatePermanodeFields sortClaims (.ok l2) depth).described := by
  have heq : sortClaims l1 = sortClaims l2 := by
    apply sorted_unique _ _ (((hs l1).1.trans hp).trans (hs l2).1.symm) _ (hs l1).2 (hs l2).2
    exact ((hs l1).1.map Claim.Date).nodup_iff.mpr hd
  simp only [populatePermanodeFields, heq, and_self]

theorem populatePermanodeFields_perm_witness :
    (IsDateSort sortByDate ∧
      exClaims.Perm [⟨1, "set-attribute", "tag", "a"⟩, ⟨2, "add-attribute", "tag", "b"⟩,
        ⟨3, "del-attribute", "tag", "a"⟩] ∧
      (exClaims.map Claim.Date).Nodup) ∧
    ((populatePermanodeFields sortByDate (.ok exClaims) 4).attr =
        (populatePermanodeFields sortByDate (.ok [⟨1, "set-attribute", "tag", "a"⟩,
          ⟨2, "add-attribute", "tag", "b"⟩, ⟨3, "del-attribute", "tag", "a"⟩]) 4).attr ∧
      (populatePermanodeFields sortByDate (.ok exClaims) 4).described =
        (populatePermanodeFields sortByDate (.ok [⟨1, "set-attribute", "tag", "a"⟩,
          ⟨2, "add-attribute", "tag", "b"⟩, ⟨3, "del-attribute", "tag", "a"⟩]) 4).described) :=
  ⟨⟨isDateSort_sortByDate, (isDateSort_sortByDate exClaims).1.symm, by decide⟩,
    populatePermanodeFields_perm sortByDate isDateSort_sortByDate exClaims _ 4
      (isDateSort_sortByDate exClaims).1.symm (by decide)⟩

theorem populatePermanodeFields_eq_specFold_witness :
    ((sortByDate exClaims).Perm exClaims ∧
      (∀ cl ∈ exClaims,
        (cl.ClaimType = "set-attribute" ∨ cl.ClaimType = "add-attribute") → cl.Value ≠ "")) ∧
    ((populatePermanodeFields sortByDate (.ok exClaims) 4).attr =
        (sortByDate exClaims).foldl specStep AttrMap.empty ∧
      (populatePermanodeFields sortByDate (.ok exClaims) 4).attr "tag" = some ["b"]) :=
  ⟨⟨(isDateSort_sortByDate exClaims).1, by decide⟩,
    populatePermanodeFields_eq_specFold sortByDate exClaims 4 (isDateSort_sortByDate exClaims).1
      (by decide)⟩

theorem addAttribute_nodup (attr : AttrMap) (cl : Claim)
    (h : ∀ k sl, attr k = some sl → sl.Nodup) :
    ∀ k sl, addAttribute attr cl k = some sl → sl.Nodup := by
  intro k sl hk
  unfold addAttribute at hk
  by_cases hv : cl.Value = ""
  · rw [if_pos hv] at hk
    exact h k sl hk
  · rw [if_neg hv] at hk
    cases hsl0 : attr cl.Attr with
    | some sl0 =>
      simp only [hsl0] at hk
      by_cases hmem : cl.Value ∈ sl0
      · rw [if_pos hmem] at hk
        exact h k sl hk
      · rw [if_neg hmem] at hk
        simp only [AttrMap.set] at hk
        split at hk
        · simp only [Option.some.injEq] at hk
          rw [← hk]
          exact List.Nodup.append (h _ _ hsl0) (List.nodup_singleton _)
            (by
              intro a ha hb
              rw [List.mem_singleton] at hb
              exact hmem (hb ▸ ha))
        · exact h k sl hk
    | none =>
      simp only [hsl0, AttrMap.set] at hk
      split at hk
      · simp only [Option.some.injEq] at hk
        rw [← hk]
        simp
      · exact h k sl hk

theorem delete_nodup (attr : AttrMap) (a : String)
    (h : ∀ k sl, attr k = some sl → sl.Nodup) :
    ∀ k sl, attr.delete a k = some sl → sl.Nodup := by
  intro k sl hk
  simp only [AttrMap.delete] at hk
  split at hk
  · cases hk
  · exact h k sl hk

theorem applyClaim_nodup (attr : AttrMap) (cl : Claim)
    (h : ∀ k sl, attr k = some sl → sl.Nodup) :
    ∀ k sl, applyClaim attr cl k = some sl → sl.Nodup := by
  intro k sl hk
  unfold applyClaim at hk
  by_cases hd : cl.ClaimType = "del-attribute"
  · rw [if_pos hd] at hk
    by_cases hv : cl.Value = ""
    · rw [if_pos hv] at hk
      exact delete_nodup attr _ h k sl hk
    · rw [if_neg hv] at hk
      cases hsl0 : attr cl.Attr with
      | some sl0 =>
        simp only [hsl0, AttrMap.set] at hk
        split at hk
        · simp only [Option.some.injEq] at hk
          rw [← hk]
          exact (h _ _ hsl0).filter _
        · exact h k sl hk
      | none =>
        simp only [hsl0] at hk
        exact h k sl hk
  · rw [if_neg hd] at hk
    by_cases hs : cl.ClaimType = "set-attribute"
    · rw [if_pos hs] at hk
      exact addAttribute_nodup _ cl (delete_nodup attr _ h) k sl hk
    · rw [if_neg hs] at hk
      by_cases ha : cl.ClaimType = "add-attribute"
      · rw [if_pos ha] at hk
        exact addAttribute_nodup _ cl h k sl hk
      · rw [if_neg ha] at hk
        exact h k sl hk

theorem foldl_applyClaim_nodup (cs : List Claim) :
    ∀ attr : AttrMap, (∀ k sl, attr k = some sl → sl.Nodup) →
      ∀ k sl, cs.foldl applyClaim attr k = some sl → sl.Nodup := by
  induction cs with
  | nil => intro attr h; exact h
  | cons c cs ih =>
    intro attr h
    simp only [List.foldl_cons]
    exact ih _ (applyClaim_nodup attr c h)

/-- C29: for every list of claims, after each claim of the sorted list is applied,
and so at the end, every value list of the attribute map is without duplicates. -/
theorem populatePermanodeFields_nodup (sortClaims : List Claim → List Claim)
    (claims : List Claim) (depth : Int) (n : Nat) (k : String) (sl : List String) :
    (((sortClaims claims).take n).foldl applyClaim AttrMap.empty k = some sl → sl.Nodup) ∧
      ((populatePermanodeFields sortClaims (.ok claims) depth).attr k = some sl → sl.Nodup) :=
  ⟨foldl_applyClaim_nodup _ _ (fun _ _ h => by cases h) k sl,
    foldl_applyClaim_nodup _ _ (fun _ _ h => by cases h) k sl⟩

theorem populatePermanodeFields_nodup_witness :
    ((((sortByDate exClaims).take 2).foldl applyClaim AttrMap.empty "tag" = some ["a", "b"] ∧
        ["a", "b"].Nodup) ∧
      (((sortByDate exClaims).take 2).foldl applyClaim AttrMap.empty "tag" = some ["a", "b"] →
        ["a", "b"].Nodup)) :=
  ⟨⟨by decide, by decide⟩,
    (populatePermanodeFields_nodup sortByDate exClaims 4 2 "tag" ["a", "b"]).1⟩

/-- C30, the failing input: with the single claim
`set-attribute(camliContent, "not a blobref")` the value does not parse, and
`populatePermanodeFields` still calls `dr.describe(cbr, depth-1)` with the nil `cbr`;
only the `camliMember` loop tests `membr != nil`. -/
theorem populatePermanodeFields_describes_nil :
    (populatePermanodeFields sortByDate
        (.ok [⟨1, "set-attribute", "camliContent", "not a blobref"⟩]) 4).described =
      [(none, 3)] ∧
    (populatePermanodeFields sortByDate
        (.ok [⟨1, "set-attribute", "camliMember", "not a blobref"⟩]) 4).described = [] := by
  decide

end search

namespace strconv

open blobref

/-- The octal fold never shrinks its accumulator. -/
theorem octalFold_ge (s : List Nat) (n : Nat) :
    n ≤ s.foldl (fun n d => 8 * n + (d - 48)) n := by
  induction s generalizing n with
  | nil => exact le_refl _
  | cons d ds ih =>
    simp only [List.foldl_cons]
    exact le_trans (by omega) (ih (8 * n + (d - 48)))

/-- An octal digit byte has its value below 8. -/
theorem digitVal_octal (d : Nat) (h : 48 ≤ d ∧ d ≤ 55) : digitVal d = some (d - 48) := by
  have h57 : d ≤ 57 := by omega
  unfold digitVal
  rw [if_pos ⟨h.1, h57⟩]

/-- A byte that is not an octal digit is rejected by the loop in base 8. -/
theorem Btoui64Loop_reject (d : Nat) (ds : List Nat) (n : Nat) (h : ¬ (48 ≤ d ∧ d ≤ 55)) :
    Btoui64Loop 8 (d :: ds) n = (0, some .EINVAL) := by
  unfold Btoui64Loop
  unfold digitVal
  by_cases h1 : 48 ≤ d ∧ d ≤ 57
  · rw [if_pos h1]
    have : d - 48 ≥ 8 := by omega
    simp only [this, if_true]
  · rw [if_neg h1]
    by_cases h2 : 97 ≤ d ∧ d ≤ 122
    · rw [if_pos h2]
      have : d - 97 + 10 ≥ 8 := by omega
      simp only [this, if_true]
    · rw [if_neg h2]
      by_cases h3 : 65 ≤ d ∧ d ≤ 90
      · rw [if_pos h3]
        have : d - 65 + 10 ≥ 8 := by omega
        simp only [this, if_true]
      · rw [if_neg h3]

/-- On octal digits the loop of `Btoui64` computes the octal value, or reports a
range error when that value does not fit 64 bits. -/
theorem Btoui64Loop_octal (s : List Nat) (n : Nat)
    (hs : ∀ d ∈ s, 48 ≤ d ∧ d ≤ 55) (hn : n < 18446744073709551616) :
    Btoui64Loop 8 s n =
      if s.foldl (fun n d => 8 * n + (d - 48)) n < 18446744073709551616 then
        (s.foldl (fun n d => 8 * n + (d - 48)) n, none)
      else (18446744073709551616 - 1, some .ERANGE) := by
  induction s generalizing n with
  | nil => simp [Btoui64Loop, hn]
  | cons d ds ih =>
    have hd := hs d (List.mem_cons_self _ _)
    have hds : ∀ x ∈ ds, 48 ≤ x ∧ x ≤ 55 := fun x hx => hs x (List.mem_cons_of_mem _ hx)
    have hge := octalFold_ge ds (8 * n + (d - 48))
    unfold Btoui64Loop
    rw [digitVal_octal d hd]
    simp only [List.foldl_cons]
    have hv : ¬ (d - 48 ≥ 8) := by omega
    rw [if_neg hv]
    have hcut : cutoff64 8 = 2305843009213693952 := by decide
    rw [hcut]
    by_cases hc : n ≥ 2305843009213693952
    · rw [if_pos hc, if_neg (by omega)]
    · rw [if_neg hc]
      have e1 : n * 8 % 18446744073709551616 = n * 8 := Nat.mod_eq_of_lt (by omega)
      have e2 : (n * 8 + (d - 48)) % 18446744073709551616 = 8 * n + (d - 48) := by
        rw [Nat.mod_eq_of_lt (by omega)]; omega
      simp only [e1, e2]
      rw [if_neg (by omega)]
      exact ih (8 * n + (d - 48)) hds (by omega)

/-- A text with a byte that is not an octal digit makes the loop fail in base 8. -/
theorem Btoui64Loop_nonOctal (s : List Nat) (n : Nat)
    (hs : ¬ ∀ d ∈ s, 48 ≤ d ∧ d ≤ 55) : (Btoui64Loop 8 s n).2 ≠ none := by
  induction s generalizing n with
  | nil => exact absurd (fun d hd => absurd hd (List.not_mem_nil d)) hs
  | cons d ds ih =>
    by_cases hd : 48 ≤ d ∧ d ≤ 55
    · have hds : ¬ ∀ x ∈ ds, 48 ≤ x ∧ x ≤ 55 := by
        intro h
        apply hs
        intro x hx
        rcases List.mem_cons.mp hx with rfl | hx
        · exact hd
        · exact h x hx
      unfold Btoui64Loop
      rw [digitVal_octal d hd]
      simp only
      split
      · simp
      · split
        · simp
        · split
          · simp
          · exact ih _ hds
    · rw [Btoui64Loop_reject d ds n hd]
      simp

end strconv

namespace schema

open blobref

/-- The value of `Btoui64` in base 8, in the terms of `octalValue`: the octal
number when the text is one and fits 64 bits, an error otherwise. -/
theorem Btoui64_octal (s : List Nat) :
    (match octalValue s with
      | some v => if v < 18446744073709551616 then strconv.Btoui64 s 8 = (v, none)
                  else (strconv.Btoui64 s 8).2 ≠ none
      | none => (strconv.Btoui64 s 8).2 ≠ none) := by
  unfold octalValue
  by_cases h : s ≠ [] ∧ s.all (fun d => decide (48 ≤ d ∧ d ≤ 55)) = true
  · rw [if_pos h]
    have hs : ∀ d ∈ s, 48 ≤ d ∧ d ≤ 55 := by
      intro d hd
      have := List.all_eq_true.mp h.2 d hd
      simpa using this
    have hlen : ¬ s.length < 1 := by
      intro hl
      apply h.1
      exact List.length_eq_zero.mp (by omega)
    have hB : strconv.Btoui64 s 8 = strconv.Btoui64Loop 8 s 0 := by
      unfold strconv.Btoui64
      rw [if_neg hlen, if_pos (by omega)]
    have hL := strconv.Btoui64Loop_octal s 0 hs (by omega)
    simp only
    by_cases hv : s.foldl (fun n d => 8 * n + (d - 48)) 0 < 18446744073709551616
    · rw [if_pos hv, hB, hL, if_pos hv]
    · rw [if_neg hv, hB, hL, if_neg hv]
      simp
  · rw [if_neg h]
    simp only
    by_cases hnil : s = []
    · subst hnil
      simp [strconv.Btoui64]
    · have hs : ¬ ∀ d ∈ s, 48 ≤ d ∧ d ≤ 55 := by
        intro hall
        apply h
        refine ⟨hnil, List.all_eq_true.mpr ?_⟩
        intro d hd
        simpa using hall d hd
      have hlen : ¬ s.length < 1 := by
        intro hl
        exact hnil (List.length_eq_zero.mp (by omega))
      unfold strconv.Btoui64
      rw [if_neg hlen, if_pos (by omega)]
      exact strconv.Btoui64Loop_nonOctal s 0 hs

/-- Claim C25, as the code has it: `UnixMode` is the bitwise OR of the permission
bits and the type bit, where the permission bits are the LOW 32 BITS of
`unixPermission` read as an octal number when that number fits 64 bits, and 0 when
the text is not an octal number or does not fit; the type bit is `S_IFDIR`,
`S_IFREG`, `S_IFLNK` for the types directory, file, symlink and 0 otherwise. -/
theorem Superset.UnixMode_spec (ss : Superset) :
    ss.UnixMode =
      (match octalValue (bytesOf ss.UnixPermission) with
        | some v => if v < 18446744073709551616 then v % 4294967296 else 0
        | none => 0) ||| typeBit ss.CamliType := by
  have hB := Btoui64_octal (bytesOf ss.UnixPermission)
  have hmode : (if (strconv.Btoui64 (bytesOf ss.UnixPermission) 8).2 = none then
        0 ||| u32 (strconv.Btoui64 (bytesOf ss.UnixPermission) 8).1 else 0) =
      (match octalValue (bytesOf ss.UnixPermission) with
        | some v => if v < 18446744073709551616 then v % 4294967296 else 0
        | none => 0) := by
    cases ho : octalValue (bytesOf ss.UnixPermission) with
    | none =>
      rw [ho] at hB
      simp only at hB
      rw [if_neg hB]
    | some v =>
      rw [ho] at hB
      simp only at hB
      simp only
      by_cases hv : v < 18446744073709551616
      · rw [if_pos hv] at hB
        rw [if_pos hv, hB]
        simp [u32]
      · rw [if_neg hv] at hB
        rw [if_neg hv, if_neg hB]
  unfold Superset.UnixMode typeBit
  simp only
  rw [hmode]
  by_cases h1 : ss.CamliType = "directory"
  · rw [if_pos h1, if_pos h1]
  · rw [if_neg h1, if_neg h1]
    by_cases h2 : ss.CamliType = "file"
    · rw [if_pos h2, if_pos h2]
    · rw [if_neg h2, if_neg h2]
      by_cases h3 : ss.CamliType = "symlink"
      · rw [if_pos h3, if_pos h3]
      · rw [if_neg h3, if_neg h3]
        exact (Nat.or_zero _).symm

/-- Claim C25, counterexample: the permission text `40000000000` is the octal
number `2^32`, yet `UnixMode` of a file with it is `S_IFREG` alone, not the OR of the
parsed number and the type bit: the conversion to `uint32` drops the number. -/
theorem Superset.UnixMode_truncates :
    octalValue (bytesOf exWidePermission.UnixPermission) = some 4294967296 ∧
      exWidePermission.UnixMode = 32768 ∧
      exWidePermission.UnixMode ≠ 4294967296 ||| typeBit exWidePermission.CamliType := by
  refine ⟨by decide, by decide, by decide⟩

end schema

namespace schema

open blobref

/-- Adding under `u64` absorbs an inner `u64`. -/
theorem u64_add_left (a : Nat) (b : Nat) : u64 ((u64 (a : Int) : Nat) + (b : Nat) : Int) = u64 ((a + b : Nat) : Int) := by
  unfold u64
  omega

/-- The wrapping sum of `PopulateRegularFileMap` is the sum of the sizes modulo 2^64. -/
theorem foldl_sumSize (parts : List ContentPart) (s : Nat) :
    parts.foldl (fun s part => u64 (s + part.Size)) (u64 (s : Int)) =
      u64 ((s + sumSizes parts : Nat) : Int) := by
  induction parts generalizing s with
  | nil => simp [sumSizes]
  | cons p ps ih =>
    simp only [List.foldl_cons]
    have e : u64 (((u64 (s : Int) : Nat) : Int) + (p.Size : Int)) = u64 ((s + p.Size : Nat) : Int) := by
      have := u64_add_left s p.Size
      simpa using this
    rw [e, ih (s + p.Size)]
    simp [sumSizes, Nat.add_assoc]

/-- The wrapping sum from 0. -/
theorem foldl_sumSize_zero (parts : List ContentPart) :
    parts.foldl (fun s part => u64 (s + part.Size)) 0 = u64 ((sumSizes parts : Nat) : Int) := by
  have h0 : (0 : Nat) = u64 ((0 : Nat) : Int) := by
    unfold u64
    rfl
  have := foldl_sumSize parts 0
  rw [← h0] at this
  simpa using this

/-- The map of a part carries its size, and its reference keys follow the part's
references: `blobRef` when there is a blob reference, else `subFileBlobRef` when
there is a sub-file reference, else neither. -/
theorem partMap_spec (part : ContentPart) :
    partMap part "size" = some (.uint part.Size) ∧
      partMap part "blobRef" = part.BlobRef.map (fun br => Scalar.str br.String) ∧
      partMap part "subFileBlobRef" =
        (if part.BlobRef.isSome then none
         else part.SubBlobRef.map (fun br => Scalar.str br.String)) := by
  obtain ⟨b, sb, sz, off⟩ := part
  cases b <;> cases sb <;> by_cases ho : off = 0 <;>
    simp [partMap, mapSet, emptyMap, ho]

/-- Claim C21, as the code has it: `PopulateRegularFileMap` returns
`InvalidContentPartsError{size, sum}` if and only if the sum of the parts' sizes
differs from `size` MODULO 2^64 (the reported sum being the wrapped one); it
succeeds otherwise, and then the map has camliType "file", the given size and a
contentParts list with one entry per part in the same order, each entry carrying
the part's size, the key blobRef when the part has a blob reference, otherwise the
key subFileBlobRef when the part has a sub-file reference, otherwise NEITHER key;
so an entry has exactly one of the two keys precisely when its part has at least
one reference. -/
theorem PopulateRegularFileMap_spec (m : CamliMap) (size : Int) (parts : List ContentPart) :
    ((PopulateRegularFileMap m size parts).2 =
        some (.InvalidContentPartsError size (i64 (u64 (sumSizes parts)))) ↔
      u64 (sumSizes parts) ≠ u64 size) ∧
    ((PopulateRegularFileMap m size parts).2 = none ↔ u64 (sumSizes parts) = u64 size) ∧
    ((PopulateRegularFileMap m size parts).2 = none →
      (PopulateRegularFileMap m size parts).1 "camliType" = some (.scalar (.str "file")) ∧
      (PopulateRegularFileMap m size parts).1 "size" = some (.scalar (.int size)) ∧
      ∃ mparts : List PartMap,
        (PopulateRegularFileMap m size parts).1 "contentParts" = some (.maps mparts) ∧
        mparts.length = parts.length ∧
        ∀ (i : Nat) (part : ContentPart) (mpart : PartMap),
          parts.get? i = some part → mparts.get? i = some mpart →
            mpart "size" = some (.uint part.Size) ∧
            mpart "blobRef" = part.BlobRef.map (fun br => Scalar.str br.String) ∧
            mpart "subFileBlobRef" =
              (if part.BlobRef.isSome then none
               else part.SubBlobRef.map (fun br => Scalar.str br.String)) ∧
            (((mpart "blobRef").isSome ≠ (mpart "subFileBlobRef").isSome) ↔
              (part.BlobRef.isSome ∨ part.SubBlobRef.isSome))) := by
  have hsum := foldl_sumSize_zero parts
  by_cases h : u64 (sumSizes parts) = u64 size
  · have hr : PopulateRegularFileMap m size parts =
        (mapSet (mapSet (mapSet m "camliType" (.scalar (.str "file"))) "size"
          (.scalar (.int size))) "contentParts" (.maps (parts.map partMap)), none) := by
      unfold PopulateRegularFileMap
      simp only [hsum]
      rw [if_neg (not_not.mpr h)]
    rw [hr]
    refine ⟨⟨fun hh => by simp at hh, fun hh => absurd h hh⟩, ⟨fun _ => h, fun _ => rfl⟩, ?_⟩
    intro _
    refine ⟨by simp [mapSet], by simp [mapSet], parts.map partMap, by simp [mapSet], by simp, ?_⟩
    intro i part mpart hp hmp
    rw [List.get?_eq_getElem?, List.getElem?_map, ← List.get?_eq_getElem?, hp] at hmp
    simp only [Option.map_some'] at hmp
    have hmp2 : partMap part = mpart := Option.some.inj hmp
    subst hmp2
    obtain ⟨h1, h2, h3⟩ := partMap_spec part
    refine ⟨h1, h2, h3, ?_⟩
    rw [h2, h3]
    cases part.BlobRef <;> cases part.SubBlobRef <;> simp
  · have hr : PopulateRegularFileMap m size parts =
        (mapSet (mapSet m "camliType" (.scalar (.str "file"))) "size" (.scalar (.int size)),
          some (.InvalidContentPartsError size (i64 (u64 (sumSizes parts))))) := by
      unfold PopulateRegularFileMap
      simp only [hsum]
      rw [if_pos h]
    rw [hr]
    refine ⟨⟨fun _ => h, fun _ => rfl⟩, ⟨fun hh => by simp at hh, fun hh => absurd hh h⟩, ?_⟩
    intro hh
    simp at hh

/-- Claim C21, counterexample: a part with neither reference and size 5, for a file
of size 5, is accepted, and its entry carries neither `blobRef` nor
`subFileBlobRef`; and two parts of 2^63 bytes for a file of size 0 are accepted
although their sizes do not sum to 0. -/
theorem PopulateRegularFileMap_neither_key :
    ((PopulateRegularFileMap emptyMap 5 [⟨none, none, 5, 0⟩]).2 = none ∧
      ∃ mpart : PartMap,
        (PopulateRegularFileMap emptyMap 5 [⟨none, none, 5, 0⟩]).1 "contentParts" =
          some (.maps [mpart]) ∧
        mpart "blobRef" = none ∧ mpart "subFileBlobRef" = none) ∧
    ((PopulateRegularFileMap emptyMap 0
        [⟨some exRef1, none, 9223372036854775808, 0⟩,
          ⟨some exRef1, none, 9223372036854775808, 0⟩]).2 = none ∧
      sumSizes [⟨some exRef1, none, 9223372036854775808, 0⟩,
          ⟨some exRef1, none, 9223372036854775808, 0⟩] ≠ 0) := by
  refine ⟨⟨by with_unfolding_all decide, partMap ⟨none, none, 5, 0⟩, ?_, rfl, rfl⟩,
    by decide!, by decide⟩
  with_unfolding_all rfl

/-- Claim C21, witness: a single part of 4 bytes over a blob, for a file of 4 bytes. -/
theorem PopulateRegularFileMap_spec_witness :
    (PopulateRegularFileMap emptyMap 4 [⟨some exRef1, none, 4, 0⟩]).2 = none ∧
      (PopulateRegularFileMap emptyMap 4 [⟨some exRef1, none, 4, 0⟩]).1 "camliType" =
        some (.scalar (.str "file")) :=
  ⟨by with_unfolding_all decide,
    ((PopulateRegularFileMap_spec emptyMap 4 [⟨some exRef1, none, 4, 0⟩]).2.2
      (by with_unfolding_all decide)).1⟩

end schema

namespace schema

open blobref

/-- Claim C14: if `m` has no `camliVersion` key, `MapToCamliJson` fails with
`ErrNoCamliVersion`; otherwise, when `json.MarshalIndent` succeeds on the map
without that key (its text, an object, having at least its two braces), the call
succeeds, its output begins with the literal text `{"camliVersion": <n>,` and a
newline, where `<n>` is the printed version, the rest of the output is the
marshalled body of the other keys after its first two bytes, and the map is left as
it was. -/
theorem MapToCamliJson_spec (MarshalIndent : CamliMap → Except Error (List Byte))
    (Sprint : Value → String) (m : CamliMap) :
    (m "camliVersion" = none →
      (MapToCamliJson MarshalIndent Sprint m).2 = .ret ([], some .ErrNoCamliVersion)) ∧
    (∀ (version : Value) (jsonBytes : List Byte),
      m "camliVersion" = some version →
      MarshalIndent (mapDelete m "camliVersion") = .ok jsonBytes →
      2 ≤ jsonBytes.length →
        (MapToCamliJson MarshalIndent Sprint m).2 =
          .ret (bytesOf ("\x7b\"camliVersion\": " ++ Sprint version ++ ",\n") ++ jsonBytes.drop 2,
            none) ∧
        (∀ k, (MapToCamliJson MarshalIndent Sprint m).1 k = m k)) := by
  constructor
  · intro h
    unfold MapToCamliJson
    rw [h]
  · intro version jsonBytes hv hm hlen
    unfold MapToCamliJson
    rw [hv]
    simp only [hm]
    rw [if_neg (by omega)]
    refine ⟨rfl, ?_⟩
    intro k
    simp only [mapSet, mapDelete]
    by_cases hk : k = "camliVersion"
    · rw [if_pos hk, hk, hv]
    · rw [if_neg hk, if_neg hk]

/-- Claim C14, witness: the map of version 1 and type "file". -/
theorem MapToCamliJson_spec_witness :
    exMap "camliVersion" = some (.scalar (.int 1)) ∧
      (MapToCamliJson exMarshalIndent exSprint exMap).2 =
        .ret (bytesOf "\x7b\"camliVersion\": 1,\n  \"camliType\": \"file\"\n\x7d", none) :=
  ⟨rfl, ((MapToCamliJson_spec exMarshalIndent exSprint exMap).2 (.scalar (.int 1))
    (bytesOf "\x7b\n  \"camliType\": \"file\"\n\x7d") rfl rfl (by decide)).1.trans (by decide)⟩

/-- The last digits of 0 are zeros. -/
theorem lastDigits_zero (w : Nat) : lastDigits w 0 = List.replicate w 48 := by
  induction w with
  | zero => rfl
  | succ w ih =>
    show lastDigits w (0 / 10) ++ [48 + 0 % 10] = _
    rw [Nat.zero_div, ih, List.replicate_succ']

/-- The last digits of a one-digit number. -/
theorem lastDigits_small (w n : Nat) (h : n < 10) :
    lastDigits (w + 1) n = List.replicate w 48 ++ [48 + n] := by
  show lastDigits w (n / 10) ++ [48 + n % 10] = _
  rw [Nat.div_eq_of_lt h, Nat.mod_eq_of_lt h, lastDigits_zero]

/-- The length of `lastDigits`. -/
theorem lastDigits_length (w n : Nat) : (lastDigits w n).length = w := by
  induction w generalizing n with
  | zero => rfl
  | succ w ih =>
    show (lastDigits w (n / 10) ++ [48 + n % 10]).length = _
    rw [List.length_append, ih]
    rfl

/-- The bytes of `lastDigits` are ASCII digits. -/
theorem lastDigits_digits (w n : Nat) : ∀ d ∈ lastDigits w n, 48 ≤ d ∧ d ≤ 57 := by
  induction w generalizing n with
  | zero => intro d hd; exact absurd hd (List.not_mem_nil d)
  | succ w ih =>
    intro d hd
    have hd2 : d ∈ lastDigits w (n / 10) ++ [48 + n % 10] := hd
    rcases List.mem_append.mp hd2 with h | h
    · exact ih _ d h
    · rw [List.mem_singleton] at h
      omega

/-- Zero-padding the decimal text of `n` to width `w` gives its last `w` digits. -/
theorem decimal_pad (f : Nat) : ∀ (n w : Nat), n < f → n < 10 ^ w → 1 ≤ w →
    (decimal f n).length ≤ w ∧
      List.replicate (w - (decimal f n).length) 48 ++ decimal f n = lastDigits w n := by
  induction f with
  | zero => intro n w hf; omega
  | succ f ih =>
    intro n w hf hw hw1
    obtain ⟨w1, rfl⟩ : ∃ w1, w = w1 + 1 := ⟨w - 1, by omega⟩
    by_cases h10 : n < 10
    · have hd : decimal (f + 1) n = [48 + n] := by
        show (if n < 10 then [48 + n] else _) = _
        rw [if_pos h10]
      rw [hd, lastDigits_small w1 n h10]
      refine ⟨by simp, ?_⟩
      simp
    · have hd : decimal (f + 1) n = decimal f (n / 10) ++ [48 + n % 10] := by
        show (if n < 10 then [48 + n] else _) = _
        rw [if_neg h10]
      have hw2 : 1 ≤ w1 := by
        rcases Nat.eq_zero_or_pos w1 with h0 | h0
        · subst h0
          simp at hw
          omega
        · exact h0
      have hlt : n / 10 < 10 ^ w1 := by
        rw [Nat.div_lt_iff_lt_mul (by omega)]
        rw [pow_succ] at hw
        exact hw
      obtain ⟨ih1, ih2⟩ := ih (n / 10) w1 (by omega) hlt hw2
      rw [hd]
      refine ⟨by simp; omega, ?_⟩
      show _ = lastDigits w1 (n / 10) ++ [48 + n % 10]
      rw [← ih2, List.length_append, List.length_singleton]
      have e : w1 + 1 - ((decimal f (n / 10)).length + 1) = w1 - (decimal f (n / 10)).length := by
        omega
      rw [e, List.append_assoc]

/-- The text `%09d` of a number below 10^9 is its nine digits. -/
theorem Sprintf09d_eq (k : Nat) (hk : k < 1000000000) :
    Sprintf09d (k : Int) = lastDigits 9 k := by
  have h := decimal_pad (k + 1) k 9 (by omega) (by norm_num; exact hk) (by omega)
  unfold Sprintf09d
  have hneg : ¬ ((k : Int) < 0) := by omega
  simp only [Int.natAbs_ofNat, hneg, if_false, List.length_nil, Nat.sub_zero, List.nil_append]
  exact h.2

/-- The decimal fold never shrinks its accumulator. -/
theorem decimalFold_ge (s : List Nat) (n : Nat) :
    n ≤ s.foldl (fun n d => 10 * n + (d - 48)) n := by
  induction s generalizing n with
  | nil => exact le_refl _
  | cons d ds ih =>
    simp only [List.foldl_cons]
    exact le_trans (by omega) (ih (10 * n + (d - 48)))

/-- The decimal value of `lastDigits`. -/
theorem lastDigits_fold (w : Nat) : ∀ (n a : Nat),
    (lastDigits w n).foldl (fun n d => 10 * n + (d - 48)) a = a * 10 ^ w + n % 10 ^ w := by
  induction w with
  | zero => intro n a; simp [lastDigits, Nat.mod_one]
  | succ w ih =>
    intro n a
    show (lastDigits w (n / 10) ++ [48 + n % 10]).foldl _ a = _
    rw [List.foldl_append, ih]
    simp only [List.foldl_cons, List.foldl_nil]
    have e : n % 10 ^ (w + 1) = n % 10 + 10 * (n / 10 % 10 ^ w) := by
      rw [pow_succ, Nat.mul_comm (10 ^ w) 10, Nat.mod_mul]
    rw [e, pow_succ]
    have : 48 + n % 10 - 48 = n % 10 := by omega
    rw [this]
    ring

/-- On decimal digits whose value fits 64 bits, the loop of `Btoui64` in base 10
computes that value. -/
theorem Btoui64Loop_decimal (s : List Nat) : ∀ (n : Nat),
    (∀ d ∈ s, 48 ≤ d ∧ d ≤ 57) →
    s.foldl (fun n d => 10 * n + (d - 48)) n < 18446744073709551616 →
    strconv.Btoui64Loop 10 s n = (s.foldl (fun n d => 10 * n + (d - 48)) n, none) := by
  induction s with
  | nil => intro n _ _; rfl
  | cons d ds ih =>
    intro n hs hv
    have hd := hs d (List.mem_cons_self _ _)
    have hds : ∀ x ∈ ds, 48 ≤ x ∧ x ≤ 57 := fun x hx => hs x (List.mem_cons_of_mem _ hx)
    simp only [List.foldl_cons] at hv ⊢
    have hge := decimalFold_ge ds (10 * n + (d - 48))
    have hdv : strconv.digitVal d = some (d - 48) := by
      unfold strconv.digitVal
      rw [if_pos hd]
    unfold strconv.Btoui64Loop
    rw [hdv]
    simp only
    have hv10 : ¬ (d - 48 ≥ 10) := by omega
    rw [if_neg hv10]
    have hcut : strconv.cutoff64 10 = 1844674407370955162 := by decide
    rw [hcut]
    have hc : ¬ (n ≥ 1844674407370955162) := by omega
    rw [if_neg hc]
    have e1 : n * 10 % 18446744073709551616 = n * 10 := Nat.mod_eq_of_lt (by omega)
    have e2 : (n * 10 + (d - 48)) % 18446744073709551616 = 10 * n + (d - 48) := by
      rw [Nat.mod_eq_of_lt (by omega)]; omega
    simp only [e1, e2]
    rw [if_neg (by omega)]
    exact ih (10 * n + (d - 48)) hds hv

/-- The function `Atoi64` reads the nine digits of a number below 10^9 back. -/
theorem Atoi64_lastDigits (k : Nat) (hk : k < 1000000000) :
    (strconv.Atoi64 (lastDigits 9 k)).1 = (k : Int) := by
  have hlen := lastDigits_length 9 k
  have hdig := lastDigits_digits 9 k
  have hfold := lastDigits_fold 9 k 0
  have hmod : k % 10 ^ 9 = k := Nat.mod_eq_of_lt (by norm_num; exact hk)
  rw [hmod, Nat.zero_mul, Nat.zero_add] at hfold
  have hloop := Btoui64Loop_decimal (lastDigits 9 k) 0 hdig (by rw [hfold]; omega)
  rw [hfold] at hloop
  cases hl : lastDigits 9 k with
  | nil => rw [hl] at hlen; simp at hlen
  | cons c rest =>
    rw [hl] at hloop hdig
    have hc := hdig c (List.mem_cons_self _ _)
    have hB : strconv.Btoui64 (c :: rest) 10 = (k, none) := by
      unfold strconv.Btoui64
      rw [if_neg (by simp), if_pos (by omega)]
      exact hloop
    unfold strconv.Atoi64 strconv.Btoi64
    have h43 : ¬ (c = 43 ∨ c = 45) := by omega
    have h45 : ¬ (c = 45) := by omega
    have e1 : (if c = 43 ∨ c = 45 then rest else c :: rest) = c :: rest := if_neg h43
    have e2 : decide (c = 45) = false := decide_eq_false h45
    simp only [e1, e2, hB]
    have hk63 : ¬ (9223372036854775808 ≤ k) := by omega
    simp [hk63]
    exact i64_of_range k (by omega) (by omega)

/-- Trimming trailing zeros and padding them back restores a text. -/
theorem rdropWhile_pad (l : List Nat) :
    l.rdropWhile (fun c => decide (c = 48)) ++
      List.replicate (l.length - (l.rdropWhile (fun c => decide (c = 48))).length) 48 = l := by
  have h := List.takeWhile_append_dropWhile (fun c => decide (c = 48)) l.reverse
  have h2 : l = (l.reverse.dropWhile (fun c => decide (c = 48))).reverse ++
      (l.reverse.takeWhile (fun c => decide (c = 48))).reverse := by
    rw [← List.reverse_append, h, List.reverse_reverse]
  have h3 : (l.reverse.takeWhile (fun c => decide (c = 48))).reverse =
      List.replicate (l.reverse.takeWhile (fun c => decide (c = 48))).length 48 := by
    rw [List.eq_replicate_iff]
    refine ⟨by simp, ?_⟩
    intro b hb
    rw [List.mem_reverse] at hb
    have := List.mem_takeWhile_imp hb
    simpa using this
  have hlen : l.length = (l.rdropWhile (fun c => decide (c = 48))).length +
      (l.reverse.takeWhile (fun c => decide (c = 48))).length := by
    have := congrArg List.length h2
    simp only [List.length_append, List.length_reverse] at this
    simpa [List.rdropWhile] using this
  have e : l.length - (l.rdropWhile (fun c => decide (c = 48))).length =
      (l.reverse.takeWhile (fun c => decide (c = 48))).length := by omega
  rw [e, ← h3]
  exact h2.symm

/-- The length of a trimmed text. -/
theorem rdropWhile_length_le (l : List Nat) :
    (l.rdropWhile (fun c => decide (c = 48))).length ≤ l.length := by
  have := congrArg List.length (rdropWhile_pad l)
  simp only [List.length_append, List.length_replicate] at this
  omega

/-- What `NanosFromRFC3339` does with a text `T0 . frac Z` whose part before the dot
has no dot. -/
theorem NanosFromRFC3339_frac (Parse : List Byte → Option Int) (T0 frac : List Nat)
    (secs : Int) (hdot : 46 ∉ T0) (hP : Parse (T0 ++ [90]) = some secs) :
    NanosFromRFC3339 Parse (T0 ++ [46] ++ frac ++ [90]) =
      i64 (i64 (secs * 1000000000) +
        (strconv.Atoi64 (frac ++ List.replicate (9 - frac.length) 48)).1) := by
  have hidx : List.indexOf 46 (T0 ++ [46] ++ frac ++ [90]) = T0.length := by
    rw [List.append_assoc, List.append_assoc, List.indexOf_append_of_not_mem hdot]
    show T0.length + List.indexOf 46 (46 :: (frac ++ [90])) = _
    rw [List.indexOf_cons_self]
    rfl
  have hlen : (T0 ++ [46] ++ frac ++ [90]).length = T0.length + 1 + frac.length + 1 := by
    simp only [List.length_append, List.length_singleton]
  have hlast : (T0 ++ [46] ++ frac ++ [90]).getLast? = some 90 := by
    rw [List.getLast?_eq_some_iff]
    exact ⟨_, rfl⟩
  have htake : (T0 ++ [46] ++ frac ++ [90]).take T0.length = T0 := by
    rw [List.append_assoc, List.append_assoc]
    exact List.take_left _ _
  have hmid : ((T0 ++ [46] ++ frac ++ [90]).take
      ((T0 ++ [46] ++ frac ++ [90]).length - 1)).drop (T0.length + 1) = frac := by
    have e1 : (T0 ++ [46] ++ frac ++ [90]).length - 1 = (T0 ++ [46] ++ frac).length := by
      simp
    rw [e1, List.take_left]
    have e2 : T0.length + 1 = (T0 ++ [46]).length := by simp
    rw [e2, List.drop_left]
  have hpad : (if 9 - (frac.length : Int) > 0 then
        frac ++ (List.replicate 9 48).take (9 - frac.length) else frac) =
      frac ++ List.replicate (9 - frac.length) 48 := by
    by_cases h9 : 9 - (frac.length : Int) > 0
    · rw [if_pos h9, List.take_replicate]
      have : min (9 - frac.length) 9 = 9 - frac.length := by omega
      rw [this]
    · rw [if_neg h9]
      have : 9 - frac.length = 0 := by omega
      rw [this]
      simp
  unfold NanosFromRFC3339
  simp only [hidx, hmid, htake, hpad]
  have hne : T0.length ≠ (T0 ++ [46] ++ frac ++ [90]).length := by
    rw [hlen]; omega
  simp only [hne, ne_eq, not_false_eq_true, hlast, not_true_eq_false, and_false, if_false,
    if_true, hP]

/-- What `NanosFromRFC3339` does with a text without a dot. -/
theorem NanosFromRFC3339_plain (Parse : List Byte → Option Int) (T : List Nat)
    (secs : Int) (hdot : 46 ∉ T) (hP : Parse T = some secs) :
    NanosFromRFC3339 Parse T = i64 (i64 (secs * 1000000000) + 0) := by
  have hidx : List.indexOf 46 T = T.length := List.indexOf_eq_length.mpr hdot
  unfold NanosFromRFC3339
  simp only [hidx, ne_eq, not_true_eq_false, false_and, if_false, hP]
  rfl

/-- Claim C28: for every nanosecond timestamp `n` with `0 ≤ n < 2^63` (an `int64`,
whose year has four digits), when the time library formats the seconds of `n` as a
text that ends in `Z`, has no dot, and parses back to those seconds,
`RFC3339FromNanos` returns a text from which `NanosFromRFC3339` gives `n` back; a
zero fraction is written as the library's text with no fractional part, and a
non-zero fraction is written as a dot and its nine digits without the trailing
zeros. -/
theorem NanosFromRFC3339_RFC3339FromNanos (Format : Int → List Byte)
    (Parse : List Byte → Option Int) (n : Int)
    (h0 : 0 ≤ n) (h63 : n < 9223372036854775808)
    (hZ : (Format (n / 1000000000)).getLast? = some 90)
    (hdot : 46 ∉ Format (n / 1000000000))
    (hP : Parse (Format (n / 1000000000)) = some (n / 1000000000)) :
    ∃ s : List Byte, RFC3339FromNanos Format n = .ret s ∧ NanosFromRFC3339 Parse s = n ∧
      (n % 1000000000 = 0 → s = Format (n / 1000000000)) ∧
      (n % 1000000000 ≠ 0 →
        s = (Format (n / 1000000000)).dropLast ++ [46] ++
          (lastDigits 9 (n % 1000000000).toNat).rdropWhile (fun c => decide (c = 48)) ++ [90]) := by
  have hdiv : Int.tdiv n 1000000000 = n / 1000000000 := Int.tdiv_eq_ediv h0 (by omega)
  have hmod : Int.tmod n 1000000000 = n % 1000000000 := Int.tmod_eq_emod h0 (by omega)
  have hk0 : 0 ≤ n % 1000000000 := Int.emod_nonneg _ (by omega)
  have hk1 : n % 1000000000 < 1000000000 := Int.emod_lt_of_pos _ (by omega)
  have hsplit : n / 1000000000 * 1000000000 + n % 1000000000 = n := Int.ediv_add_emod' n _
  have he0 : 0 ≤ n / 1000000000 := Int.ediv_nonneg h0 (by omega)
  have hsecs : i64 (n / 1000000000 * 1000000000) = n / 1000000000 * 1000000000 :=
    i64_of_range _ (by omega) (by omega)
  by_cases hk : n % 1000000000 = 0
  · refine ⟨Format (n / 1000000000), ?_, ?_, fun _ => rfl, fun h => absurd hk h⟩
    · unfold RFC3339FromNanos
      simp only [hdiv, hmod, hk, if_true]
    · rw [NanosFromRFC3339_plain Parse _ _ hdot hP, hsecs]
      rw [i64_of_range _ (by omega) (by omega)]
      omega
  · obtain ⟨T0, hT0⟩ := List.getLast?_eq_some_iff.mp hZ
    have hdot0 : 46 ∉ T0 := by
      intro hm
      apply hdot
      rw [hT0]
      exact List.mem_append_left _ hm
    obtain ⟨k, hkn⟩ : ∃ k : Nat, n % 1000000000 = (k : Int) := ⟨(n % 1000000000).toNat, by omega⟩
    have hklt : k < 1000000000 := by omega
    have htoNat : (n % 1000000000).toNat = k := by omega
    have hout : RFC3339FromNanos Format n =
        .ret (T0 ++ [46] ++ (lastDigits 9 k).rdropWhile (fun c => decide (c = 48)) ++ [90]) := by
      unfold RFC3339FromNanos
      simp only [hdiv, hmod, hk, if_false]
      rw [hkn, Sprintf09d_eq k hklt, hT0]
      have hl : ¬ ((T0 ++ [90]).length < 1) := by simp
      rw [if_neg hl]
      have e1 : (T0 ++ [90]).length - 1 = T0.length := by simp
      rw [e1, List.take_left]
    refine ⟨_, hout, ?_, fun h => absurd h hk, fun _ => ?_⟩
    · rw [hT0] at hP
      rw [NanosFromRFC3339_frac Parse T0 _ _ hdot0 hP, hsecs]
      have hpad := rdropWhile_pad (lastDigits 9 k)
      rw [lastDigits_length] at hpad
      rw [hpad, Atoi64_lastDigits k hklt]
      rw [i64_of_range _ (by omega) (by omega)]
      omega
    · rw [htoNat, hT0, List.dropLast_concat]

/-- Claim C28, witness: the instant 2011-03-13T07:06:40.5Z with a formatter and a
parser of `YYYY-MM-DDTHH:MM:SSZ`. -/
theorem NanosFromRFC3339_RFC3339FromNanos_witness :
    RFC3339FromNanos exFormat 1300000000500000000 = .ret (bytesOf "2011-03-13T07:06:40.5Z") ∧
      ∃ s : List Byte, RFC3339FromNanos exFormat 1300000000500000000 = .ret s ∧
        NanosFromRFC3339 exParse s = 1300000000500000000 :=
  ⟨by decide,
    (NanosFromRFC3339_RFC3339FromNanos exFormat exParse 1300000000500000000
      (by decide) (by decide) (by decide) (by decide) (by decide)).imp
      (fun _ h => ⟨h.1, h.2.1⟩)⟩

end schema

namespace camlistored

/-- Flags that do not move have gone up. -/
theorem handlerLoader.Mono_refl (hl : handlerLoader) : hl.Mono hl :=
  ⟨fun _ h hc => ⟨h, hc, id, id⟩, fun _ hc => hc⟩

/-- Going up composes. -/
theorem handlerLoader.Mono_trans {a b c : handlerLoader} (h1 : a.Mono b) (h2 : b.Mono c) :
    a.Mono c := by
  refine ⟨fun p h hc => ?_, fun p hc => h2.2 p (h1.2 p hc)⟩
  obtain ⟨hb, hbc, hb1, hb2⟩ := h1.1 p h hc
  obtain ⟨hcc, hcc1, hc1, hc2⟩ := h2.1 p hb hbc
  exact ⟨hcc, hcc1, fun x => hc1 (hb1 x), fun x => hc2 (hb2 x)⟩

/-- Raising flags of one record goes up. -/
theorem handlerLoader.Mono_modify (hl hl1 : handlerLoader) (p : String)
    (f : handlerConfig → handlerConfig)
    (hf1 : ∀ h, h.settingUp = true → (f h).settingUp = true)
    (hf2 : ∀ h, h.setupDone = true → (f h).setupDone = true)
    (hcfg : hl1.config = modify hl.config p f) : hl.Mono hl1 := by
  refine ⟨fun q h hc => ?_, fun q hc => ?_⟩
  · by_cases hq : q = p
    · subst hq
      refine ⟨f h, ?_, hf1 h, hf2 h⟩
      rw [hcfg]
      simp [modify, hc]
    · refine ⟨h, ?_, id, id⟩
      rw [hcfg]
      simp [modify, hq, hc]
  · rw [hcfg]
    by_cases hq : q = p
    · subst hq
      simp [modify, hc]
    · simp [modify, hq, hc]

/-- A constructor run keeps what its references keep. -/
theorem runCtor_spec (setup : handlerLoader → String → Run handlerLoader)
    (hsetup : SetupSpec setup) (c : Ctor) :
    ∀ (hl hl1 : handlerLoader) (r : Option (Option Handler)),
      runCtor setup c hl = .ok (hl1, r) → hl.Mono hl1 ∧ (hl.Inv → hl1.Inv) := by
  induction c with
  | ret h =>
    intro hl hl1 r hrun
    simp only [runCtor, Run.ok.injEq, Prod.mk.injEq] at hrun
    rw [← hrun.1]
    exact ⟨hl.Mono_refl, id⟩
  | err =>
    intro hl hl1 r hrun
    simp only [runCtor, Run.ok.injEq, Prod.mk.injEq] at hrun
    rw [← hrun.1]
    exact ⟨hl.Mono_refl, id⟩
  | ref p k ih =>
    intro hl hl1 r hrun
    simp only [runCtor] at hrun
    cases hs : setup hl p with
    | ok hl2 =>
      rw [hs] at hrun
      simp only at hrun
      obtain ⟨hm, hi⟩ := hsetup hl p hl2 hs
      obtain ⟨hm2, hi2⟩ := ih _ _ hl2 hl1 r hrun
      exact ⟨handlerLoader.Mono_trans hm hm2, fun hinv => hi2 (hi hinv).1⟩
    | exit e => rw [hs] at hrun; simp at hrun
    | outOfFuel => rw [hs] at hrun; simp at hrun

/-- The state after `settingUp` is marked and the constructor is counted. -/
theorem Inv_mark (hl hl0 : handlerLoader) (p : String) (h : handlerConfig)
    (hc : hl.config p = some h) (hs : h.settingUp = false) (hd : h.setupDone = false)
    (hcfg : hl0.config = modify hl.config p (fun h => { h with settingUp := true }))
    (hh : hl0.handler = hl.handler) (hcalls : hl0.calls = hl.calls ++ [p])
    (hinv : hl.Inv) : hl0.Inv := by
  refine ⟨fun q h1 hq1 => ?_, fun q hq1 => ?_⟩
  · by_cases hq : q = p
    · subst hq
      rw [hcfg] at hq1
      simp only [modify, if_true, hc, Option.map_some', Option.some.injEq] at hq1
      obtain ⟨i1, _, i3⟩ := hinv.1 q h hc
      rw [← hq1, hcalls]
      refine ⟨i1, ?_, ?_⟩
      · intro hdone
        simp only at hdone
        rw [hd] at hdone
        exact absurd hdone (by simp)
      · rw [hs] at i3
        simp [List.count_append, i3]
    · rw [hcfg] at hq1
      simp only [modify, if_neg hq] at hq1
      obtain ⟨i1, i2, i3⟩ := hinv.1 q h1 hq1
      rw [hh, hcalls]
      refine ⟨i1, i2, ?_⟩
      rw [List.count_append, i3]
      have : List.count q [p] = 0 := by
        simp [List.count_singleton, Ne.symm hq]
      rw [this, Nat.add_zero]
  · have hq : q ≠ p := by
      intro hqp
      subst hqp
      rw [hcfg] at hq1
      simp [modify, hc] at hq1
    rw [hcfg] at hq1
    simp only [modify, if_neg hq] at hq1
    rw [hcalls, List.count_append, hinv.2 q hq1]
    simp [List.count_singleton, Ne.symm hq]

/-- The state after the handler is published under the prefix and `setupDone` is
set by the deferred function. -/
theorem Inv_publish (hl1 hl3 : handlerLoader) (p : String) (h1 : handlerConfig)
    (hc : hl1.config p = some h1) (hs : h1.settingUp = true)
    (hcfg : hl3.config = modify hl1.config p (fun h => { h with setupDone := true }))
    (hh : ∀ q, q ≠ p → hl3.handler q = hl1.handler q) (hpub : hl3.handler p ≠ none)
    (hcalls : hl3.calls = hl1.calls)
    (hinv : hl1.Inv) : hl3.Inv := by
  refine ⟨fun q h2 hq1 => ?_, fun q hq1 => ?_⟩
  · by_cases hq : q = p
    · subst hq
      rw [hcfg] at hq1
      simp only [modify, if_true, hc, Option.map_some', Option.some.injEq] at hq1
      obtain ⟨i1, _, i3⟩ := hinv.1 q h1 hc
      rw [← hq1, hcalls]
      exact ⟨i1, fun _ => ⟨hs, hpub⟩, i3⟩
    · rw [hcfg] at hq1
      simp only [modify, if_neg hq] at hq1
      obtain ⟨i1, i2, i3⟩ := hinv.1 q h2 hq1
      rw [hh q hq, hcalls]
      exact ⟨i1, i2, i3⟩
  · have hq : q ≠ p := by
      intro hqp
      subst hqp
      rw [hcfg] at hq1
      simp [modify, hc] at hq1
    rw [hcfg] at hq1
    simp only [modify, if_neg hq] at hq1
    rw [hcalls]
    exact hinv.2 q hq1

/-- The method `setupHandler` only raises flags, keeps the loader consistent and
leaves its prefix done. -/
theorem setupHandler_SetupSpec (fuel : Nat) : SetupSpec (setupHandler fuel) := by
  induction fuel with
  | zero =>
    intro hl p hl1 hrun
    simp [setupHandler] at hrun
  | succ fuel ih =>
    intro hl p hl1 hrun
    unfold setupHandler at hrun
    cases hc : hl.config p with
    | none => rw [hc] at hrun; simp at hrun
    | some h =>
      rw [hc] at hrun
      simp only at hrun
      by_cases hd : h.setupDone = true
      · rw [if_pos hd] at hrun
        simp only [Run.ok.injEq] at hrun
        rw [← hrun]
        exact ⟨hl.Mono_refl, fun hinv => ⟨hinv, h, hc, hd⟩⟩
      · rw [if_neg hd] at hrun
        by_cases hs : h.settingUp = true
        · rw [if_pos hs] at hrun
          simp at hrun
        · rw [if_neg hs] at hrun
          have hd0 : h.setupDone = false := by simpa using hd
          have hs0 : h.settingUp = false := by simpa using hs
          obtain ⟨hl0, hl0eq⟩ : ∃ hl0 : handlerLoader, hl0 =
              { hl with
                config := modify hl.config p (fun h => { h with settingUp := true })
                calls := hl.calls ++ [p] } := ⟨_, rfl⟩
          rw [← hl0eq] at hrun
          have hcfg0 : hl0.config = modify hl.config p (fun h => { h with settingUp := true }) := by
            rw [hl0eq]
          have hh0 : hl0.handler = hl.handler := by rw [hl0eq]
          have hcalls0 : hl0.calls = hl.calls ++ [p] := by rw [hl0eq]
          have hm0 : hl.Mono hl0 :=
            handlerLoader.Mono_modify hl hl0 p (fun h => { h with settingUp := true })
              (fun _ _ => rfl) (fun _ hx => hx) hcfg0
          cases hr : runCtor (setupHandler fuel) h.conf hl0 with
          | outOfFuel => rw [hr] at hrun; simp at hrun
          | exit e => rw [hr] at hrun; simp at hrun
          | ok res =>
            obtain ⟨hl2, r⟩ := res
            rw [hr] at hrun
            cases r with
            | none => simp at hrun
            | some hh =>
              simp only at hrun
              obtain ⟨hm, hi⟩ := runCtor_spec (setupHandler fuel) ih h.conf hl0 hl2 _ hr
              obtain ⟨h2, hc2, hs2, _⟩ := hm.1 p { h with settingUp := true }
                (by rw [hcfg0]; simp [modify, hc])
              have hs2t : h2.settingUp = true := hs2 rfl
              generalize hkey : (if "storage-".toList.isPrefixOf h.htype.toList = true then h.pfx
                else p) = key at hrun
              by_cases hpub : (if p = key then hh else hl2.handler p) = none
              · rw [if_pos hpub] at hrun
                simp at hrun
              · rw [if_neg hpub] at hrun
                simp only [Run.ok.injEq] at hrun
                have hm3 : hl2.Mono hl1 :=
                  handlerLoader.Mono_modify hl2 hl1 p (fun h => { h with setupDone := true })
                    (fun _ hx => hx) (fun _ _ => rfl) (by rw [← hrun])
                refine ⟨handlerLoader.Mono_trans (handlerLoader.Mono_trans hm0 hm) hm3,
                  fun hinv => ?_⟩
                have hinv0 := Inv_mark hl hl0 p h hc hs0 hd0 hcfg0 hh0 hcalls0 hinv
                have hinv2 := hi hinv0
                have hkp : key = p := by
                  rw [← hkey, (hinv.1 p h hc).1]
                  simp
                rw [hkp] at hrun hpub
                have hinv1 : hl1.Inv := by
                  refine Inv_publish hl2 hl1 p h2 hc2 hs2t (by rw [← hrun]) ?_ ?_
                    (by rw [← hrun]) hinv2
                  · intro q hq
                    rw [← hrun]
                    simp [hq]
                  · rw [← hrun]
                    simpa using hpub
                refine ⟨hinv1, { h2 with setupDone := true }, ?_, rfl⟩
                rw [← hrun]
                simp [modify, hc2]

/-- The loader that `main` builds is consistent. -/
theorem Inv_newLoader (entries : List (String × String × Ctor)) : (newLoader entries).Inv := by
  have key : ∀ entries : List (String × String × Ctor),
      (newLoader entries).calls = [] ∧ (newLoader entries).handler = (fun _ => none) ∧
      ∀ p h, (newLoader entries).config p = some h →
        h.pfx = p ∧ h.settingUp = false ∧ h.setupDone = false := by
    intro entries
    induction entries with
    | nil =>
      refine ⟨rfl, rfl, ?_⟩
      intro p h hc
      simp [newLoader] at hc
    | cons e rest ih =>
      obtain ⟨p0, htype, conf⟩ := e
      obtain ⟨i1, i2, i3⟩ := ih
      refine ⟨i1, i2, ?_⟩
      intro p h hc
      simp only [newLoader] at hc
      by_cases hp : p = p0
      · rw [if_pos hp] at hc
        simp only [Option.some.injEq] at hc
        rw [← hc, hp]
        exact ⟨rfl, rfl, rfl⟩
      · rw [if_neg hp] at hc
        exact i3 p h hc
  obtain ⟨k1, k2, k3⟩ := key entries
  refine ⟨fun p h hc => ?_, fun p _ => ?_⟩
  · obtain ⟨a, b, c⟩ := k3 p h hc
    refine ⟨a, ?_, ?_⟩
    · intro hd
      rw [c] at hd
      exact absurd hd (by simp)
    · rw [k1, b]
      simp
  · rw [k1]
    simp

/-- Raised flags leave fewer prefixes pending. -/
theorem pending_mono (hl hl1 : handlerLoader) (keys : List String) (hm : hl.Mono hl1) :
    hl1.pending keys ≤ hl.pending keys := by
  unfold handlerLoader.pending
  apply List.countP_mono_left
  intro k _ hk
  cases hc : hl.config k with
  | none =>
    rw [hm.2 k hc] at hk
    simp at hk
  | some h =>
    obtain ⟨h1, hc1, hs, _⟩ := hm.1 k h hc
    rw [hc1] at hk
    simp only [Bool.not_eq_true'] at hk ⊢
    cases hh : h.settingUp with
    | false => rfl
    | true => rw [hs hh] at hk; exact absurd hk (by simp)

/-- Counting with a predicate that has lost a listed element counts less. -/
theorem countP_lt_of_lost (l : List String) (f g : String → Bool) (p : String)
    (hp : p ∈ l) (hfg : ∀ x, f x = true → g x = true) (hgp : g p = true) (hfp : f p = false) :
    l.countP f < l.countP g := by
  induction l with
  | nil => exact absurd hp (List.not_mem_nil p)
  | cons a rest ih =>
    have hle : rest.countP f ≤ rest.countP g := List.countP_mono_left (fun x _ => hfg x)
    rw [List.countP_cons, List.countP_cons]
    by_cases ha : a = p
    · subst ha
      rw [hfp, hgp]
      simp only [if_true, Bool.false_eq_true, if_false]
      omega
    · have hp2 : p ∈ rest := by
        rcases List.mem_cons.mp hp with h | h
        · exact absurd h.symm ha
        · exact h
      have := ih hp2
      cases hfa : f a with
      | false =>
        simp only [Bool.false_eq_true, if_false]
        split <;> omega
      | true =>
        rw [hfg a hfa]
        simp only [if_true]
        omega

/-- Marking a pending prefix leaves fewer prefixes pending. -/
theorem pending_mark (hl hl0 : handlerLoader) (keys : List String) (p : String)
    (h : handlerConfig) (hc : hl.config p = some h) (hs : h.settingUp = false) (hp : p ∈ keys)
    (hcfg : hl0.config = modify hl.config p (fun h => { h with settingUp := true })) :
    hl0.pending keys < hl.pending keys := by
  unfold handlerLoader.pending
  apply countP_lt_of_lost keys _ _ p hp
  · intro x hx
    rw [hcfg] at hx
    by_cases hxp : x = p
    · subst hxp
      simp [modify, hc] at hx
    · simpa [modify, hxp] using hx
  · simp [hc, hs]
  · rw [hcfg]
    simp [modify, hc]

/-- A choice between ending the process and returning is not a lack of fuel. -/
theorem ite_ne_outOfFuel {α : Type} (c : Prop) [Decidable c] (e : Exit) (a : α) :
    (if c then Run.exit e else Run.ok a) ≠ Run.outOfFuel := by
  split <;> simp

/-- A constructor run does not run out of fuel when its references do not. -/
theorem runCtor_total (fuel : Nat) (keys : List String)
    (ih : ∀ (hl : handlerLoader) (p : String), hl.pending keys < fuel →
      (∀ q, hl.config q ≠ none → q ∈ keys) → setupHandler fuel hl p ≠ .outOfFuel)
    (c : Ctor) :
    ∀ hl : handlerLoader, hl.pending keys < fuel → (∀ q, hl.config q ≠ none → q ∈ keys) →
      runCtor (setupHandler fuel) c hl ≠ .outOfFuel := by
  induction c with
  | ret h => intro hl _ _; simp [runCtor]
  | err => intro hl _ _; simp [runCtor]
  | ref p k ihc =>
    intro hl hpend hdom
    simp only [runCtor]
    cases hs : setupHandler fuel hl p with
    | ok hl2 =>
      simp only
      have hm := (setupHandler_SetupSpec fuel hl p hl2 hs).1
      apply ihc
      · exact lt_of_le_of_lt (pending_mono hl hl2 keys hm) hpend
      · intro q hq
        apply hdom q
        intro hn
        exact hq (hm.2 q hn)
    | exit e => simp
    | outOfFuel => exact absurd hs (ih hl p hpend hdom)

/-- With more fuel than pending prefixes, `setupHandler` does not run out of fuel. -/
theorem setupHandler_total (keys : List String) (fuel : Nat) :
    ∀ (hl : handlerLoader) (p : String), hl.pending keys < fuel →
      (∀ q, hl.config q ≠ none → q ∈ keys) → setupHandler fuel hl p ≠ .outOfFuel := by
  induction fuel with
  | zero => intro hl p hpend; omega
  | succ fuel ih =>
    intro hl p hpend hdom
    unfold setupHandler
    cases hc : hl.config p with
    | none => simp
    | some h =>
      simp only
      by_cases hd : h.setupDone = true
      · rw [if_pos hd]; simp
      · rw [if_neg hd]
        by_cases hs : h.settingUp = true
        · rw [if_pos hs]; simp
        · rw [if_neg hs]
          have hs0 : h.settingUp = false := by simpa using hs
          have hp : p ∈ keys := hdom p (by rw [hc]; simp)
          obtain ⟨hl0, hl0eq⟩ : ∃ hl0 : handlerLoader, hl0 =
              { hl with
                config := modify hl.config p (fun h => { h with settingUp := true })
                calls := hl.calls ++ [p] } := ⟨_, rfl⟩
          rw [← hl0eq]
          have hcfg0 : hl0.config = modify hl.config p (fun h => { h with settingUp := true }) := by
            rw [hl0eq]
          have hlt := pending_mark hl hl0 keys p h hc hs0 hp hcfg0
          have hm0 : hl.Mono hl0 :=
            handlerLoader.Mono_modify hl hl0 p (fun h => { h with settingUp := true })
              (fun _ _ => rfl) (fun _ hx => hx) hcfg0
          have hnf := runCtor_total fuel keys ih h.conf hl0 (by omega)
            (fun q hq => hdom q (fun hn => hq (hm0.2 q hn)))
          cases hr : runCtor (setupHandler fuel) h.conf hl0 with
          | outOfFuel => exact absurd hr hnf
          | exit e => simp
          | ok res =>
            obtain ⟨hl2, r⟩ := res
            cases r with
            | none => simp
            | some hh => exact ite_ne_outOfFuel _ _ _

/-- The pending prefixes are among the listed ones. -/
theorem pending_le (hl : handlerLoader) (keys : List String) : hl.pending keys ≤ keys.length :=
  List.countP_le_length _

/-- Claim C20: in every consistent loader state (one reachable from the loader that
`main` builds), `setupHandler` ends the process when the prefix is undefined and
when the prefix is being set up and not yet done (a cycle); a reference to a prefix
that is done returns at once and invokes nothing; and whenever `setupHandler`
returns, the loader is consistent again, the constructor of the prefix has been
invoked exactly once, no constructor has been invoked twice, and every prefix that
is done has a handler published under it and had its constructor invoked exactly
once.  With one unit of fuel more than there are prefixes the model always
terminates. -/
theorem setupHandler_loader (hl : handlerLoader) (hinv : hl.Inv) (fuel : Nat) (p : String) :
    (hl.config p = none → setupHandler (fuel + 1) hl p = .exit (.undefinedHandler p)) ∧
    (∀ h, hl.config p = some h → h.setupDone = false → h.settingUp = true →
      setupHandler (fuel + 1) hl p = .exit (.loop p)) ∧
    (∀ h, hl.config p = some h → h.setupDone = true → setupHandler (fuel + 1) hl p = .ok hl) ∧
    (∀ hl1, setupHandler fuel hl p = .ok hl1 →
      hl1.Inv ∧ hl1.calls.count p = 1 ∧ (∀ q, hl1.calls.count q ≤ 1) ∧
      ∀ q h1, hl1.config q = some h1 → h1.setupDone = true →
        hl1.handler q ≠ none ∧ hl1.calls.count q = 1) ∧
    (∀ keys : List String, (∀ q, hl.config q ≠ none → q ∈ keys) →
      setupHandler (keys.length + 1) hl p ≠ .outOfFuel) := by
  refine ⟨fun hc => ?_, fun h hc hd hs => ?_, fun h hc hd => ?_, fun hl1 hrun => ?_,
    fun keys hdom => ?_⟩
  · unfold setupHandler
    rw [hc]
  · unfold setupHandler
    rw [hc]
    simp only [hd, hs, if_true, Bool.false_eq_true, if_false]
  · unfold setupHandler
    rw [hc]
    simp only [hd, if_true]
  · obtain ⟨_, hi⟩ := setupHandler_SetupSpec fuel hl p hl1 hrun
    obtain ⟨hinv1, h1, hc1, hd1⟩ := hi hinv
    have hdone : ∀ q h2, hl1.config q = some h2 → h2.setupDone = true →
        hl1.handler q ≠ none ∧ hl1.calls.count q = 1 := by
      intro q h2 hc2 hd2
      obtain ⟨_, i2, i3⟩ := hinv1.1 q h2 hc2
      obtain ⟨hs2, hh2⟩ := i2 hd2
      rw [hs2] at i3
      exact ⟨hh2, by simpa using i3⟩
    refine ⟨hinv1, (hdone p h1 hc1 hd1).2, ?_, hdone⟩
    intro q
    cases hq : hl1.config q with
    | none => rw [hinv1.2 q hq]; omega
    | some h2 =>
      rw [(hinv1.1 q h2 hq).2.2]
      split <;> omega
  · exact setupHandler_total keys (keys.length + 1) hl p
      (Nat.lt_succ_of_le (pending_le hl keys)) hdom

/-- Claim C20, witness: the loader of a user interface that refers twice to a
storage; setting up the user interface returns, and its constructor has been
invoked once. -/
theorem setupHandler_loader_witness :
    (newLoader exConfig).Inv ∧
      ∃ hl1, setupHandler 3 (newLoader exConfig) "/ui/" = .ok hl1 ∧
        hl1.calls.count "/ui/" = 1 ∧ hl1.calls.count "/bs/" = 1 := by
  refine ⟨Inv_newLoader _, ?_⟩
  have hv : (setupHandler 3 (newLoader exConfig) "/ui/").map (fun hl => hl.calls) =
      .ok ["/ui/", "/bs/"] := by decide
  cases h : setupHandler 3 (newLoader exConfig) "/ui/" with
  | ok hl1 =>
    have hs := (setupHandler_loader (newLoader exConfig) (Inv_newLoader _) 3 "/ui/").2.2.2.1 hl1 h
    rw [h] at hv
    simp only [Run.map, Run.ok.injEq] at hv
    refine ⟨hl1, rfl, hs.2.1, ?_⟩
    rw [hv]
    decide
  | exit e => rw [h] at hv; simp [Run.map] at hv
  | outOfFuel => rw [h] at hv; simp [Run.map] at hv

end camlistored

